import Mathlib

/-!
# Doubly linked list with sentinels (`List.h`) and its queue adapter (`Queue.h`)

The C++ program manipulates raw `Node*` links, so the embedding is over an
explicit memory: a table of node cells indexed by address.  A cell that holds
no live node (`none`) is storage outside an object's lifetime: raw storage that
no constructor has run on yet, or a node that `delete` has destroyed.  Every
pointer dereference checks the cell; dereferencing `nullptr` or a dead cell is
a fault instead of a value, so undefined behaviour of the C++ program shows up
as an `Except.error`.

`new` takes the first address past the table and may fail (`std::bad_alloc`)
when the allocator's budget `avail` is exhausted.  A fault carries the memory
at the point where it was raised.
-/

namespace DLL

/-- A `Node*`: `none` is `nullptr`, `some a` points to the node object at
address `a` (addresses are natural numbers). -/
abbrev Ptr := Option Nat

/-- Width of `size_t` and of a pointer. -/
abbrev SIZE_BITS : Nat := 64

/-- `struct Node`: `next`, `prev` and the payload `data`.  The payload of a node
built by `Node(Node* prev, Node* next)` (the sentinels) is default-initialised
and is recorded as `none`. -/
structure Node (α : Type) where
  next : Ptr
  prev : Ptr
  data : Option α
deriving DecidableEq, Repr

/-- What can go wrong while the program runs. -/
inductive Fault where
  /-- dereference of `nullptr` -/
  | nullDeref
  /-- access to a node outside its lifetime (destroyed by `delete`, or never constructed) -/
  | deadNode
  /-- read of a default-initialised payload (the `data` of a sentinel) -/
  | noPayload
  /-- `new` failed -/
  | badAlloc
  /-- a loop did not finish within the number of steps granted to it -/
  | fuel
deriving DecidableEq, Repr

/-- The memory: one cell per address, and the number of allocations `new` can
still satisfy. -/
structure Memory (α : Type) where
  cells : List (Option (Node α))
  avail : Nat
deriving DecidableEq, Repr

deriving instance DecidableEq for Except

/-- Result of running a piece of the program: a value, or a fault together with
the memory at the point of the fault. -/
abbrev Res (α β : Type) := Except (Fault × Memory α) β

/-- The live node at an address, if any. -/
def Memory.get {α : Type} (m : Memory α) (a : Nat) : Option (Node α) :=
  (m.cells[a]?).join

/-- Overwrite the cell at an address. -/
def Memory.put {α : Type} (m : Memory α) (a : Nat) (c : Option (Node α)) : Memory α :=
  { m with cells := m.cells.set a c }

/-- Memory made of `n` cells of raw storage. -/
def Memory.raw (α : Type) (n avail : Nat) : Memory α :=
  { cells := List.replicate n none, avail := avail }

/-- The fault a run stopped with, if it did. -/
def faultOf {α β : Type} (r : Res α β) : Option Fault :=
  match r with
  | .error e => some e.1
  | .ok _ => none

/-- Read through a pointer, `*p`. -/
def load {α : Type} (m : Memory α) (p : Ptr) : Res α (Node α) :=
  match p with
  | none => .error (.nullDeref, m)
  | some a =>
    match m.get a with
    | none => .error (.deadNode, m)
    | some n => .ok n

/-- Update the node a pointer designates. -/
def store {α : Type} (m : Memory α) (p : Ptr) (f : Node α → Node α) : Res α (Memory α) :=
  match p with
  | none => .error (.nullDeref, m)
  | some a =>
    match m.get a with
    | none => .error (.deadNode, m)
    | some n => .ok (m.put a (some (f n)))

/-- Read of `p->next`. -/
def getNext {α : Type} (m : Memory α) (p : Ptr) : Res α Ptr :=
  (load m p).map (fun n => n.next)

/-- Read of `p->prev`. -/
def getPrev {α : Type} (m : Memory α) (p : Ptr) : Res α Ptr :=
  (load m p).map (fun n => n.prev)

/-- Read of `p->data`. -/
def getData {α : Type} (m : Memory α) (p : Ptr) : Res α α :=
  match load m p with
  | .error e => .error e
  | .ok n =>
    match n.data with
    | none => .error (.noPayload, m)
    | some v => .ok v

/-- Assignment `p->next = q`. -/
def setNext {α : Type} (m : Memory α) (p : Ptr) (q : Ptr) : Res α (Memory α) :=
  store m p (fun n => { n with next := q })

/-- Assignment `p->prev = q`. -/
def setPrev {α : Type} (m : Memory α) (p : Ptr) (q : Ptr) : Res α (Memory α) :=
  store m p (fun n => { n with prev := q })

/-- Assignment `p->data = v`. -/
def setData {α : Type} (m : Memory α) (p : Ptr) (v : α) : Res α (Memory α) :=
  store m p (fun n => { n with data := some v })

/-- Expression `new Node(...)`: the node is built in the first cell past the table. -/
def Memory.new {α : Type} (m : Memory α) (n : Node α) : Res α (Nat × Memory α) :=
  if m.avail = 0 then .error (.badAlloc, m)
  else .ok (m.cells.length, { cells := m.cells ++ [some n], avail := m.avail - 1 })

/-- Statement `delete p`: ends the node's lifetime; `delete nullptr` does nothing. -/
def Memory.delete {α : Type} (m : Memory α) (p : Ptr) : Res α (Memory α) :=
  match p with
  | none => .ok m
  | some a =>
    match m.get a with
    | none => .error (.deadNode, m)
    | some _ => .ok (m.put a none)

/-- Run a member initialiser `Node()` on the storage at `a`. -/
def Memory.construct {α : Type} (m : Memory α) (a : Nat) (n : Node α) : Memory α :=
  m.put a (some n)

/-- An object of `class List`: the addresses of its members `head` and `tail`
(the sentinels live inside the object), and the member `_size`. -/
structure LinkedList where
  head : Nat
  tail : Nat
  size : Nat
deriving DecidableEq, Repr

/-! ## Iterators: a `basic_iterator` is its `node` pointer -/

/-- Dereference `*it`. -/
def deref {α : Type} (m : Memory α) (it : Ptr) : Res α α :=
  getData m it

/-- Increment `++it` / `it++`: the new position. -/
def incr {α : Type} (m : Memory α) (it : Ptr) : Res α Ptr :=
  getNext m it

/-- Decrement `--it` / `it--`: the new position. -/
def decr {α : Type} (m : Memory α) (it : Ptr) : Res α Ptr :=
  getPrev m it

/-- Member `begin()`: `iterator(head.next)`. -/
def begin_ {α : Type} (m : Memory α) (L : LinkedList) : Res α Ptr :=
  getNext m (some L.head)

/-- Member `end()`: `iterator(&tail)`. -/
def end_ (L : LinkedList) : Ptr :=
  some L.tail

/-- Member `empty()`. -/
def empty (L : LinkedList) : Bool :=
  L.size == 0

/-- Member `size()`. -/
def size (L : LinkedList) : Nat :=
  L.size

/-! ## Mutation -/

/-- Member `insert(pos, value)`. -/
def insert {α : Type} (m : Memory α) (L : LinkedList) (pos : Ptr) (value : α) :
    Res α (Memory α × LinkedList × Ptr) := do
  let (a, m) ← m.new ⟨none, none, some value⟩
  let newNode : Ptr := some a
  let p ← getPrev m pos
  let m ← setNext m p newNode
  let p ← getPrev m pos
  let m ← setPrev m newNode p
  let m ← setNext m newNode pos
  let m ← setPrev m pos newNode
  pure (m, { L with size := (L.size + 1) % 2 ^ SIZE_BITS }, newNode)

/-- Member `erase(pos)`. -/
def erase {α : Type} (m : Memory α) (L : LinkedList) (pos : Ptr) :
    Res α (Memory α × LinkedList × Ptr) := do
  let tmp ← getNext m pos
  let n ← getNext m pos
  let p ← getPrev m pos
  let m ← setNext m p n
  let p ← getPrev m pos
  let n ← getNext m pos
  let m ← setPrev m n p
  let m ← m.delete pos
  pure (m, { L with size := (L.size + (2 ^ SIZE_BITS - 1)) % 2 ^ SIZE_BITS }, tmp)

/-- Member `push_back(value)`. -/
def push_back {α : Type} (m : Memory α) (L : LinkedList) (value : α) :
    Res α (Memory α × LinkedList) := do
  let (m, L, _) ← insert m L (end_ L) value
  pure (m, L)

/-- Member `pop_back()`. -/
def pop_back {α : Type} (m : Memory α) (L : LinkedList) : Res α (Memory α × LinkedList) :=
  if empty L then pure (m, L)
  else do
    let it ← decr m (end_ L)
    let (m, L, _) ← erase m L it
    pure (m, L)

/-- Member `push_front(value)`. -/
def push_front {α : Type} (m : Memory α) (L : LinkedList) (value : α) :
    Res α (Memory α × LinkedList) := do
  let it ← begin_ m L
  let (m, L, _) ← insert m L it value
  pure (m, L)

/-- Member `pop_front()`. -/
def pop_front {α : Type} (m : Memory α) (L : LinkedList) : Res α (Memory α × LinkedList) :=
  if empty L then pure (m, L)
  else do
    let it ← begin_ m L
    let (m, L, _) ← erase m L it
    pure (m, L)

/-- The loop of `clear()`: `while (it != end()) { erase(it); it++; }`. -/
def clearLoop {α : Type} : Nat → Memory α → LinkedList → Ptr → Res α (Memory α × LinkedList)
  | 0, m, _, _ => .error (.fuel, m)
  | k + 1, m, L, it =>
    if it = end_ L then pure (m, L)
    else do
      let (m, L, _) ← erase m L it
      let it ← incr m it
      clearLoop k m L it

/-- Member `clear()`. -/
def clear {α : Type} (m : Memory α) (L : LinkedList) : Res α (Memory α × LinkedList) := do
  let it ← begin_ m L
  clearLoop (m.cells.length + 1) m L it

/-! ## Accessors -/

/-- Member `front()`: `head.next -> data`. -/
def front {α : Type} (m : Memory α) (L : LinkedList) : Res α α := do
  let p ← getNext m (some L.head)
  getData m p

/-- Member `back()`: `tail.prev -> data`. -/
def back {α : Type} (m : Memory α) (L : LinkedList) : Res α α := do
  let p ← getPrev m (some L.tail)
  getData m p

/-! ## Construction, destruction, assignment

A constructor runs on the storage of the object being built, which its caller
supplies: `hd` and `tl` are the addresses of the new object's `head` and `tail`.
-/

/-- The member initialisers `head(), tail()`. -/
def initSentinels {α : Type} (m : Memory α) (hd tl : Nat) : Memory α :=
  (m.construct hd ⟨none, none, none⟩).construct tl ⟨none, none, none⟩

/-- Constructor `List()`. -/
def List_default {α : Type} (m : Memory α) (hd tl : Nat) : Res α (Memory α × LinkedList) := do
  let m := initSentinels m hd tl
  let m ← setNext m (some hd) (some tl)
  let m ← setPrev m (some tl) (some hd)
  pure (m, ⟨hd, tl, 0⟩)

/-- The loop of `List(count, value)` and of `List(count)`; `value` is the
payload of each new node. -/
def fillLoop {α : Type} (value : α) : Nat → Memory α → Ptr → Res α (Memory α × Ptr)
  | 0, m, curr => pure (m, curr)
  | k + 1, m, curr => do
    let (a, m) ← m.new ⟨none, curr, some value⟩
    let m ← setNext m curr (some a)
    fillLoop value k m (some a)

/-- Constructor `List(count, value)`. -/
def List_count_value {α : Type} (m : Memory α) (hd tl : Nat) (count : Nat) (value : α) :
    Res α (Memory α × LinkedList) := do
  let m := initSentinels m hd tl
  let (m, curr) ← fillLoop value count m (some hd)
  let m ← setPrev m (some tl) curr
  let m ← setNext m curr (some tl)
  pure (m, ⟨hd, tl, count⟩)

/-- Constructor `List(count)`: the payloads are `T()`. -/
def List_count {α : Type} [Inhabited α] (m : Memory α) (hd tl : Nat) (count : Nat) :
    Res α (Memory α × LinkedList) :=
  List_count_value m hd tl count default

/-- The loop of the copy constructor. -/
def copyLoop {α : Type} : Nat → Memory α → Ptr → Ptr → Res α (Memory α × Ptr)
  | 0, m, _, curr => pure (m, curr)
  | k + 1, m, copy, curr => do
    let copy ← getNext m copy
    let d ← getData m copy
    let (a, m) ← m.new ⟨none, curr, some d⟩
    let m ← setNext m curr (some a)
    copyLoop k m copy (some a)

/-- Constructor `List(const List& other)`. -/
def List_copy {α : Type} (m : Memory α) (hd tl : Nat) (other : LinkedList) :
    Res α (Memory α × LinkedList) := do
  let m := initSentinels m hd tl
  let (m, curr) ← copyLoop other.size m (some other.head) (some hd)
  let m ← setPrev m (some tl) curr
  let m ← setNext m curr (some tl)
  pure (m, ⟨hd, tl, other.size⟩)

/-- Constructor `List(List&& other)`; returns the new object and `other`. -/
def List_move {α : Type} (m : Memory α) (hd tl : Nat) (other : LinkedList) :
    Res α (Memory α × LinkedList × LinkedList) := do
  let m := initSentinels m hd tl
  if other.size = 0 then
    let m ← setNext m (some hd) (some tl)
    let m ← setPrev m (some tl) (some hd)
    pure (m, ⟨hd, tl, other.size⟩, other)
  else
    let n ← getNext m (some other.head)
    let m ← setNext m (some hd) n
    let p ← getPrev m (some other.tail)
    let m ← setPrev m (some tl) p
    let n ← getNext m (some hd)
    let m ← setPrev m n (some hd)
    let p ← getPrev m (some tl)
    let m ← setNext m p (some tl)
    let m ← setNext m (some other.head) (some other.tail)
    let m ← setPrev m (some other.tail) (some other.head)
    pure (m, ⟨hd, tl, other.size⟩, { other with size := 0 })

/-- The loop of the destructor: `while (curr->next != tail.next) { ... }`. -/
def dtorLoop {α : Type} : Nat → Memory α → LinkedList → Ptr → Res α (Memory α)
  | 0, m, _, _ => .error (.fuel, m)
  | k + 1, m, L, curr => do
    let n ← getNext m curr
    let t ← getNext m (some L.tail)
    if n = t then pure m
    else
      let curr := n
      let m ← (if curr ≠ some L.tail then m.delete curr else pure m)
      dtorLoop k m L curr

/-- Destructor `~List()`. -/
def List_dtor {α : Type} (m : Memory α) (L : LinkedList) : Res α (Memory α × LinkedList) := do
  let n ← getNext m (some L.head)
  if n = some L.tail then pure (m, L)
  else
    let m ← dtorLoop (m.cells.length + 1) m L (some L.head)
    let m ← setNext m (some L.head) (some L.tail)
    let m ← setPrev m (some L.tail) (some L.head)
    pure (m, { L with size := 0 })

/-- The loop of copy assignment. -/
def assignLoop {α : Type} : Nat → Memory α → Ptr → Ptr → Res α (Memory α × Ptr)
  | 0, m, _, curr => pure (m, curr)
  | k + 1, m, copy, curr => do
    let copy ← getNext m copy
    let d ← getData m copy
    let (a, m) ← m.new ⟨none, none, some d⟩
    let m ← setNext m curr (some a)
    let m ← setPrev m (some a) curr
    assignLoop k m copy (some a)

/-- Copy assignment `operator=(const List& other)` on the object `this`.
Two objects are the same object when they have the same address. -/
def assign_copy {α : Type} (m : Memory α) (this other : LinkedList) :
    Res α (Memory α × LinkedList) :=
  if other.head ≠ this.head then do
    let (m, this) ← clear m this
    let (m, curr) ← assignLoop other.size m (some other.head) (some this.head)
    let m ← setNext m curr (some this.tail)
    let m ← setPrev m (some this.tail) curr
    pure (m, { this with size := other.size })
  else pure (m, this)

/-- Move assignment `operator=(List&& other)` on the object `this`; returns
`this` and `other`. -/
def assign_move {α : Type} (m : Memory α) (this other : LinkedList) :
    Res α (Memory α × LinkedList × LinkedList) :=
  if other.head ≠ this.head then do
    let (m, this) ← clear m this
    if other.size = 0 then pure (m, this, other)
    else
      let n ← getNext m (some other.head)
      let m ← setNext m (some this.head) n
      let p ← getPrev m (some other.tail)
      let m ← setPrev m (some this.tail) p
      let n ← getNext m (some this.head)
      let m ← setPrev m n (some this.head)
      let p ← getPrev m (some this.tail)
      let m ← setNext m p (some this.tail)
      let m ← setNext m (some other.head) (some other.tail)
      let m ← setPrev m (some other.tail) (some other.head)
      pure (m, { this with size := other.size }, { other with size := 0 })
  else pure (m, this, other)

/-! ## Forward traversal, as a caller writes it -/

/-- The loop `for (; it != end(); ++it)` collecting `*it`. -/
def forwardLoop {α : Type} : Nat → Memory α → LinkedList → Ptr → Res α (List α)
  | 0, m, _, _ => .error (.fuel, m)
  | k + 1, m, L, it =>
    if it = end_ L then pure []
    else do
      let v ← deref m it
      let it ← incr m it
      let vs ← forwardLoop k m L it
      pure (v :: vs)

/-- The elements met by forward iteration from `begin()` until `end()`.  A walk
that meets no node twice takes fewer steps than there are cells. -/
def toSeq {α : Type} (m : Memory α) (L : LinkedList) : Res α (List α) := do
  let it ← begin_ m L
  forwardLoop m.cells.length m L it

/-! ## Queue adapter (`Queue.h`) -/

/-- An object of `class Queue`: its container `c`. -/
structure Queue where
  c : LinkedList
deriving DecidableEq, Repr

namespace Queue

/-- Constructor `Queue()`: default-constructs `c`. -/
def default_ {α : Type} (m : Memory α) (hd tl : Nat) : Res α (Memory α × Queue) := do
  let (m, c) ← List_default m hd tl
  pure (m, ⟨c⟩)

/-- Member `front()`. -/
def front {α : Type} (m : Memory α) (q : Queue) : Res α α := DLL.front m q.c

/-- Member `back()`. -/
def back {α : Type} (m : Memory α) (q : Queue) : Res α α := DLL.back m q.c

/-- Member `empty()`. -/
def empty (q : Queue) : Bool := DLL.empty q.c

/-- Member `size()`. -/
def size (q : Queue) : Nat := DLL.size q.c

/-- Member `push(value)`. -/
def push {α : Type} (m : Memory α) (q : Queue) (value : α) : Res α (Memory α × Queue) := do
  let (m, c) ← push_back m q.c value
  pure (m, ⟨c⟩)

/-- Member `pop()`. -/
def pop {α : Type} (m : Memory α) (q : Queue) : Res α (Memory α × Queue) := do
  let (m, c) ← pop_front m q.c
  pure (m, ⟨c⟩)

/-- The loop of `operator==`. -/
def eqLoop {α : Type} [DecidableEq α] :
    Nat → Memory α → LinkedList → Ptr → Ptr → Res α Bool
  | 0, m, _, _, _ => .error (.fuel, m)
  | k + 1, m, lhs, it_1, it_2 =>
    if it_1 = end_ lhs then pure true
    else do
      let a ← deref m it_1
      let b ← deref m it_2
      if a ≠ b then pure false
      else
        let it_1 ← incr m it_1
        let it_2 ← incr m it_2
        eqLoop k m lhs it_1 it_2

/-- Free function `operator==(const Queue&, const Queue&)`. -/
def eq {α : Type} [DecidableEq α] (m : Memory α) (lhs rhs : Queue) : Res α Bool := do
  let it_1 ← begin_ m lhs.c
  let it_2 ← begin_ m rhs.c
  eqLoop (m.cells.length + 1) m lhs.c it_1 it_2

end Queue

/-! ## Call sequences -/

/-- One of the four push/pop calls. -/
inductive Op (α : Type) where
  | push_back (v : α)
  | push_front (v : α)
  | pop_back
  | pop_front
deriving DecidableEq, Repr

/-- Perform one push/pop call on a list. -/
def Op.apply {α : Type} (m : Memory α) (L : LinkedList) : Op α → Res α (Memory α × LinkedList)
  | .push_back v => DLL.push_back m L v
  | .push_front v => DLL.push_front m L v
  | .pop_back => DLL.pop_back m L
  | .pop_front => DLL.pop_front m L

/-- Perform a sequence of push/pop calls, first call first. -/
def runOps {α : Type} : List (Op α) → Memory α → LinkedList → Res α (Memory α × LinkedList)
  | [], m, L => pure (m, L)
  | o :: os, m, L => do
    let (m, L) ← o.apply m L
    runOps os m L

/-- A call that changes a list: `insert`, `erase`, a push or pop, or a write
`*it = v` through an iterator. -/
inductive Mut (α : Type) where
  | insert (pos : Nat) (v : α)
  | erase (pos : Nat)
  | write (pos : Nat) (v : α)
  | op (o : Op α)
deriving DecidableEq, Repr

/-- Perform one changing call on a list. -/
def Mut.apply {α : Type} (m : Memory α) (L : LinkedList) : Mut α → Res α (Memory α × LinkedList)
  | .insert pos v => do
    let (m, L, _) ← DLL.insert m L (some pos) v
    pure (m, L)
  | .erase pos => do
    let (m, L, _) ← DLL.erase m L (some pos)
    pure (m, L)
  | .write pos v => do
    let m ← setData m (some pos) v
    pure (m, L)
  | .op o => o.apply m L

/-! ## Representation: which memories hold which lists -/

/-- The link a node must have to what follows it: the address of the
next entry of the chain, or `q` when the chain ends. -/
def nextOf {α : Type} (rest : List (Nat × Option α)) (q : Ptr) : Ptr :=
  match rest with
  | [] => q
  | x :: _ => some x.1

/-- The link the node after a chain must have back into it: the address of the
last entry, or `p` when the chain is empty. -/
def lastOf {α : Type} (l : List (Nat × Option α)) (p : Ptr) : Ptr :=
  match l.getLast? with
  | none => p
  | some x => some x.1

/-- `Linked m p l q`: the entries of `l` (address and payload) are live nodes of
`m`, each linked forward to the next entry and backward to the previous one; the
first has `prev = p` and the last has `next = q`. -/
def Linked {α : Type} (m : Memory α) : Ptr → List (Nat × Option α) → Ptr → Prop
  | _, [], _ => True
  | p, x :: rest, q =>
    m.get x.1 = some ⟨nextOf rest q, p, x.2⟩ ∧ Linked m (some x.1) rest q

/-- Real nodes as chain entries. -/
def realEntries {α : Type} (ns : List (Nat × α)) : List (Nat × Option α) :=
  ns.map (fun x => (x.1, some x.2))

/-- The whole chain of a list whose real nodes are `ns`: head sentinel, real
nodes, tail sentinel. -/
def chainOf {α : Type} (L : LinkedList) (ns : List (Nat × α)) : List (Nat × Option α) :=
  (L.head, none) :: (realEntries ns ++ [(L.tail, none)])

/-- The addresses of all nodes of a list, sentinels included. -/
def addrsOf {α : Type} (L : LinkedList) (ns : List (Nat × α)) : List Nat :=
  (chainOf L ns).map Prod.fst

/-- Well-formed list: in memory `m` the object `L` holds exactly the real nodes
`ns` (address and element, in order).  The sentinels are linked through the
real nodes in both directions, `head.prev` and `tail.next` are null, no node
occurs twice, `_size` is the number of real nodes, and the allocator's budget
fits in the address space. -/
def WF {α : Type} (m : Memory α) (L : LinkedList) (ns : List (Nat × α)) : Prop :=
  Linked m none (chainOf L ns) none ∧ (addrsOf L ns).Nodup ∧ L.size = ns.length ∧
    m.cells.length + m.avail ≤ 2 ^ SIZE_BITS

/-- The position of the first node of `ys`, or `end()` when `ys` is empty. -/
def posOf {α : Type} (L : LinkedList) (ys : List (Nat × α)) : Nat :=
  match ys with
  | [] => L.tail
  | y :: _ => y.1

/-- The node in front of `end()` when the real nodes are `xs`: the last real
node, or the head sentinel when there is none. -/
def backOf {α : Type} (L : LinkedList) (xs : List (Nat × α)) : Nat :=
  match xs.getLast? with
  | none => L.head
  | some x => x.1

/-- The elements of a list of real nodes. -/
def elems {α : Type} (ns : List (Nat × α)) : List α :=
  ns.map Prod.snd

/-- A changing call is well-placed on a list with real nodes `ns`: `insert`
takes the position of a real node or `end()`, `erase` and a write take the
position of a real node. -/
def Mut.valid {α : Type} (L : LinkedList) (ns : List (Nat × α)) : Mut α → Prop
  | .insert pos _ => pos ∈ ns.map Prod.fst ∨ pos = L.tail
  | .erase pos => pos ∈ ns.map Prod.fst
  | .write pos _ => pos ∈ ns.map Prod.fst
  | .op _ => True

instance Linked.decide {α : Type} [DecidableEq α] (m : Memory α) :
    ∀ (p : Ptr) (l : List (Nat × Option α)) (q : Ptr), Decidable (Linked m p l q)
  | _, [], _ => isTrue trivial
  | p, x :: rest, q =>
    match Linked.decide m (some x.1) rest q with
    | isTrue h =>
      if h1 : m.get x.1 = some ⟨nextOf rest q, p, x.2⟩ then isTrue ⟨h1, h⟩
      else isFalse (fun h2 => h1 h2.1)
    | isFalse h => isFalse (fun h2 => h h2.2)

instance WF.decide {α : Type} [DecidableEq α] (m : Memory α) (L : LinkedList)
    (ns : List (Nat × α)) : Decidable (WF m L ns) := by
  unfold WF; infer_instance

instance Mut.valid.decide {α : Type} (L : LinkedList) (ns : List (Nat × α)) (op : Mut α) :
    Decidable (Mut.valid L ns op) := by
  cases op <;> unfold Mut.valid <;> infer_instance

/-! ## Concrete states used to instantiate the theorems -/

/-- A memory holding the list `[10, 20]` (sentinels at 0 and 1, real nodes at 4
and 5) and two cells of raw storage at 2 and 3. -/
def exMem : Memory Nat :=
  { cells := [some ⟨some 4, none, none⟩, some ⟨none, some 5, none⟩, none, none,
      some ⟨some 5, some 0, some 10⟩, some ⟨some 1, some 4, some 20⟩],
    avail := 5 }

/-- The list object of `exMem`. -/
def exList : LinkedList := ⟨0, 1, 2⟩

/-- A memory holding one empty list. -/
def exEmptyMem : Memory Nat :=
  { cells := [some ⟨some 1, none, none⟩, some ⟨none, some 0, none⟩], avail := 3 }

/-- The list object of `exEmptyMem`. -/
def exEmptyList : LinkedList := ⟨0, 1, 0⟩

/-- The program `List<int> l; l.push_back(5); l.clear();`. -/
def exClear : Res Nat (Memory Nat × LinkedList) := do
  let (m, l) ← List_default (Memory.raw Nat 2 4) 0 1
  let (m, l) ← push_back m l 5
  clear m l

/-- The program `Queue<int> a, b; b.push(1);`. -/
def exQueues : Res Nat (Memory Nat × Queue × Queue) := do
  let (m, a) ← Queue.default_ (Memory.raw Nat 4 4) 0 1
  let (m, b) ← Queue.default_ m 2 3
  let (m, b) ← Queue.push m b 1
  pure (m, a, b)

/-- The program `Queue<int> a, b;` followed by `push(1); push(2); push(3);` on each. -/
def exQueues123 : Res Nat (Memory Nat × Queue × Queue) := do
  let (m, a) ← Queue.default_ (Memory.raw Nat 4 8) 0 1
  let (m, b) ← Queue.default_ m 2 3
  let (m, a) ← Queue.push m a 1
  let (m, a) ← Queue.push m a 2
  let (m, a) ← Queue.push m a 3
  let (m, b) ← Queue.push m b 1
  let (m, b) ← Queue.push m b 2
  let (m, b) ← Queue.push m b 3
  pure (m, a, b)

/-- The program `List<int> a, b; a.push_back(1); b.push_back(2);`. -/
def exTwoLists : Res Nat (Memory Nat × LinkedList × LinkedList) := do
  let (m, a) ← List_default (Memory.raw Nat 4 4) 0 1
  let (m, b) ← List_default m 2 3
  let (m, a) ← push_back m a 1
  let (m, b) ← push_back m b 2
  pure (m, a, b)

/-- The program `List<int> a, b; a.push_back(1);`. -/
def exOneAndEmpty : Res Nat (Memory Nat × LinkedList × LinkedList) := do
  let (m, a) ← List_default (Memory.raw Nat 4 4) 0 1
  let (m, b) ← List_default m 2 3
  let (m, a) ← push_back m a 1
  pure (m, a, b)

/-! ## The push and pop calls as the specification words them -/

/-- Specification of `push_back`: `insert` at `end()`, the iterator dropped. -/
def spec_push_back {α : Type} (m : Memory α) (L : LinkedList) (v : α) :
    Res α (Memory α × LinkedList) :=
  (insert m L (end_ L) v).map (fun r => (r.1, r.2.1))

/-- Specification of `push_front`: `insert` at `begin()`, the iterator dropped. -/
def spec_push_front {α : Type} (m : Memory α) (L : LinkedList) (v : α) :
    Res α (Memory α × LinkedList) :=
  (begin_ m L >>= fun it => insert m L it v).map (fun r => (r.1, r.2.1))

/-- Specification of `pop_back` on a non-empty list: `erase` at `--end()`. -/
def spec_pop_back {α : Type} (m : Memory α) (L : LinkedList) : Res α (Memory α × LinkedList) :=
  (decr m (end_ L) >>= fun it => erase m L it).map (fun r => (r.1, r.2.1))

/-- Specification of `pop_front` on a non-empty list: `erase` at `begin()`. -/
def spec_pop_front {α : Type} (m : Memory α) (L : LinkedList) : Res α (Memory α × LinkedList) :=
  (begin_ m L >>= fun it => erase m L it).map (fun r => (r.1, r.2.1))

/-- The program `List<int> l(5); l.push_back(7);`. -/
def exCountPush : Res Nat (Memory Nat × LinkedList) := do
  let (m, l) ← List_count (Memory.raw Nat 2 8) 0 1 5
  push_back m l 7

/-! ## Backward traversal, as a caller writes it -/

/-- The loop `for (;; --it) { visit(*it); if (it == begin()) break; }` collecting `*it`. -/
def backwardLoop {α : Type} : Nat → Memory α → Ptr → Ptr → Res α (List α)
  | 0, m, _, _ => .error (.fuel, m)
  | k + 1, m, first, it => do
    let v ← deref m it
    if it = first then pure [v]
    else
      let it ← decr m it
      let vs ← backwardLoop k m first it
      pure (v :: vs)

/-- The elements met by walking backward from `--end()` until `begin()` is
reached (for a non-empty list). -/
def toSeqBack {α : Type} (m : Memory α) (L : LinkedList) : Res α (List α) := do
  let first ← begin_ m L
  let it ← decr m (end_ L)
  backwardLoop m.cells.length m first it

/-! ## Lists a program can reach -/

/-- `Reachable m L`: in memory `m` the list object `L` is the result of a
constructor run on storage of its own, followed by any number of well-placed
`insert`, `erase`, push, pop and element-write calls on it.  The real nodes `ns`
in the premises only serve to say where the storage and the positions lie. -/
inductive Reachable {α : Type} : Memory α → LinkedList → Prop where
  | default (m m' : Memory α) (hd tl : Nat) (L : LinkedList) :
      hd ≠ tl → hd < m.cells.length → tl < m.cells.length →
      m.cells.length + m.avail ≤ 2 ^ SIZE_BITS →
      List_default m hd tl = .ok (m', L) → Reachable m' L
  | count (m m' : Memory α) (hd tl n : Nat) (v : α) (L : LinkedList) :
      hd ≠ tl → hd < m.cells.length → tl < m.cells.length →
      m.cells.length + m.avail ≤ 2 ^ SIZE_BITS → n ≤ m.avail →
      List_count_value m hd tl n v = .ok (m', L) → Reachable m' L
  | copy (m m' : Memory α) (hd tl : Nat) (S L : LinkedList) (ns : List (Nat × α)) :
      Reachable m S → WF m S ns →
      hd ≠ tl → hd < m.cells.length → tl < m.cells.length →
      hd ∉ addrsOf S ns → tl ∉ addrsOf S ns → ns.length ≤ m.avail →
      List_copy m hd tl S = .ok (m', L) → Reachable m' L
  | move (m m' : Memory α) (hd tl : Nat) (S S' L : LinkedList) (ns : List (Nat × α)) :
      Reachable m S → WF m S ns →
      hd ≠ tl → hd < m.cells.length → tl < m.cells.length →
      hd ∉ addrsOf S ns → tl ∉ addrsOf S ns →
      List_move m hd tl S = .ok (m', L, S') → Reachable m' L
  | moved_from (m m' : Memory α) (hd tl : Nat) (S S' L : LinkedList) (ns : List (Nat × α)) :
      Reachable m S → WF m S ns →
      hd ≠ tl → hd < m.cells.length → tl < m.cells.length →
      hd ∉ addrsOf S ns → tl ∉ addrsOf S ns →
      List_move m hd tl S = .ok (m', L, S') → Reachable m' S'
  | step (m m' : Memory α) (L L' : LinkedList) (ns : List (Nat × α)) (op : Mut α) :
      Reachable m L → WF m L ns → op.valid L ns →
      op.apply m L = .ok (m', L') → Reachable m' L'

/-- The memory a run stopped in, if it stopped with a fault. -/
def memAtFault {α β : Type} (r : Res α β) : Option (Memory α) :=
  match r with
  | .error e => some e.2
  | .ok _ => none

/-- The program `List<int> a, b; b.push_back(1); b.push_back(2);` in a memory
where `new` can serve one more request. -/
def exAssignAlloc : Res Nat (Memory Nat × LinkedList × LinkedList) := do
  let (m, a) ← List_default (Memory.raw Nat 4 3) 0 1
  let (m, b) ← List_default m 2 3
  let (m, b) ← push_back m b 1
  let (m, b) ← push_back m b 2
  pure (m, a, b)

/-- The program `List<int> l; l.push_back(5);`. -/
def exOne : Res Nat (Memory Nat × LinkedList) := do
  let (m, l) ← List_default (Memory.raw Nat 2 4) 0 1
  push_back m l 5

/-- The program `List<int> l; l.push_back(5); l.push_back(6); l.push_front(4);`. -/
def exThree : Res Nat (Memory Nat × LinkedList) := do
  let (m, l) ← List_default (Memory.raw Nat 2 4) 0 1
  let (m, l) ← push_back m l 5
  let (m, l) ← push_back m l 6
  push_front m l 4

/-- The memory of `exThree` after `List<int> l;`. -/
def exThreeMem0 : Memory Nat :=
  { cells := [some ⟨some 1, none, none⟩, some ⟨none, some 0, none⟩], avail := 4 }

/-- The memory of `exThree` after `l.push_back(5);`: the list `[5]`. -/
def exThreeMem1 : Memory Nat :=
  { cells := [some ⟨some 2, none, none⟩, some ⟨none, some 2, none⟩,
      some ⟨some 1, some 0, some 5⟩],
    avail := 3 }

/-- The memory of `exThree` after `l.push_back(6);`: the list `[5, 6]`. -/
def exThreeMem2 : Memory Nat :=
  { cells := [some ⟨some 2, none, none⟩, some ⟨none, some 3, none⟩,
      some ⟨some 3, some 0, some 5⟩, some ⟨some 1, some 2, some 6⟩],
    avail := 2 }

/-- The memory `exThree` ends in: the list `[4, 5, 6]`, with real nodes at 4, 2 and 3. -/
def exThreeMem3 : Memory Nat :=
  { cells := [some ⟨some 4, none, none⟩, some ⟨none, some 3, none⟩,
      some ⟨some 3, some 4, some 5⟩, some ⟨some 1, some 2, some 6⟩,
      some ⟨some 2, some 0, some 4⟩],
    avail := 1 }

/-- The list of `exMem` in a memory where `new` fails. -/
def exMemFull : Memory Nat := { exMem with avail := 0 }

/-- The memory `exAssignAlloc` ends in: `a` empty at 0 and 1, `b = [1, 2]` at 2
and 3 with real nodes 4 and 5, and `new` able to serve one request. -/
def exAssignBefore : Memory Nat :=
  { cells := [some ⟨some 1, none, none⟩, some ⟨none, some 0, none⟩,
      some ⟨some 4, none, none⟩, some ⟨none, some 5, none⟩,
      some ⟨some 5, some 2, some 1⟩, some ⟨some 3, some 4, some 2⟩],
    avail := 1 }

/-- The memory in which `a = b` stops from `exAssignBefore`, at the second `new`. -/
def exAssignAfter : Memory Nat :=
  { cells := [some ⟨some 6, none, none⟩, some ⟨none, some 0, none⟩,
      some ⟨some 4, none, none⟩, some ⟨none, some 5, none⟩,
      some ⟨some 5, some 2, some 1⟩, some ⟨some 3, some 4, some 2⟩,
      some ⟨none, some 0, some 1⟩],
    avail := 0 }

/-- The memory `exQueues` ends in: the queue `a` empty at 0 and 1, the queue
`b = [1]` at 2 and 3 with its real node at 4. -/
def exQueuesMem : Memory Nat :=
  { cells := [some ⟨some 1, none, none⟩, some ⟨none, some 0, none⟩,
      some ⟨some 4, none, none⟩, some ⟨none, some 4, none⟩,
      some ⟨some 3, some 2, some 1⟩],
    avail := 3 }

/-! # Theorems -/

variable {α : Type}

/-! ## Memory cells -/

theorem get_lt {m : Memory α} {a : Nat} {n : Node α} (h : m.get a = some n) :
    a < m.cells.length := by
  by_contra hlt
  have hn : m.cells[a]? = none := List.getElem?_eq_none (by omega)
  simp [Memory.get, hn] at h

@[simp] theorem put_length (m : Memory α) (a : Nat) (c : Option (Node α)) :
    (m.put a c).cells.length = m.cells.length := by
  simp [Memory.put]

@[simp] theorem put_avail (m : Memory α) (a : Nat) (c : Option (Node α)) :
    (m.put a c).avail = m.avail := rfl

theorem get_put (m : Memory α) (a b : Nat) (c : Option (Node α)) :
    (m.put a c).get b = if b = a then (if a < m.cells.length then c else none) else m.get b := by
  unfold Memory.get Memory.put
  simp only [List.getElem?_set]
  by_cases h : b = a
  · subst h
    by_cases hl : b < m.cells.length <;> simp [hl]
  · have h2 : ¬ a = b := fun e => h e.symm
    simp [h, h2]

theorem get_put_self {m : Memory α} {a : Nat} (c : Option (Node α))
    (h : a < m.cells.length) : (m.put a c).get a = c := by
  simp [get_put, h]

theorem get_put_ne {m : Memory α} {a b : Nat} (c : Option (Node α)) (h : b ≠ a) :
    (m.put a c).get b = m.get b := by
  simp [get_put, h]

/-- The memory after a successful `new`. -/
theorem new_ok {m : Memory α} (n : Node α) (h : 0 < m.avail) :
    m.new n = .ok (m.cells.length, { cells := m.cells ++ [some n], avail := m.avail - 1 }) := by
  have : m.avail ≠ 0 := by omega
  simp [Memory.new, this]

theorem get_grow (m : Memory α) (n : Node α) (k : Nat) (b : Nat) :
    (Memory.mk (m.cells ++ [some n]) k).get b =
      if b = m.cells.length then some n else m.get b := by
  unfold Memory.get
  by_cases h : b = m.cells.length
  · subst h; simp
  · by_cases hl : b < m.cells.length
    · simp [h, List.getElem?_append_left hl]
    · have h1 : (m.cells ++ [some n])[b]? = none :=
        List.getElem?_eq_none (by simp; omega)
      have h2 : m.cells[b]? = none := List.getElem?_eq_none (by omega)
      simp [h, h1, h2]

theorem load_ok {m : Memory α} {a : Nat} {n : Node α} (h : m.get a = some n) :
    load m (some a) = .ok n := by
  simp [load, h]

theorem getNext_ok {m : Memory α} {a : Nat} {n : Node α} (h : m.get a = some n) :
    getNext m (some a) = .ok n.next := by
  simp [getNext, load_ok h, Except.map]

theorem getPrev_ok {m : Memory α} {a : Nat} {n : Node α} (h : m.get a = some n) :
    getPrev m (some a) = .ok n.prev := by
  simp [getPrev, load_ok h, Except.map]

theorem getData_ok {m : Memory α} {a : Nat} {n : Node α} {v : α} (h : m.get a = some n)
    (hv : n.data = some v) : getData m (some a) = .ok v := by
  simp [getData, load_ok h, hv]

theorem store_ok {m : Memory α} {a : Nat} {n : Node α} (f : Node α → Node α)
    (h : m.get a = some n) : store m (some a) f = .ok (m.put a (some (f n))) := by
  simp [store, h]

theorem setNext_ok {m : Memory α} {a : Nat} {n : Node α} (q : Ptr) (h : m.get a = some n) :
    setNext m (some a) q = .ok (m.put a (some ⟨q, n.prev, n.data⟩)) := by
  simp [setNext, store_ok _ h]

theorem setPrev_ok {m : Memory α} {a : Nat} {n : Node α} (q : Ptr) (h : m.get a = some n) :
    setPrev m (some a) q = .ok (m.put a (some ⟨n.next, q, n.data⟩)) := by
  simp [setPrev, store_ok _ h]

theorem setData_ok {m : Memory α} {a : Nat} {n : Node α} (v : α) (h : m.get a = some n) :
    setData m (some a) v = .ok (m.put a (some ⟨n.next, n.prev, some v⟩)) := by
  simp [setData, store_ok _ h]

theorem delete_ok {m : Memory α} {a : Nat} {n : Node α} (h : m.get a = some n) :
    m.delete (some a) = .ok (m.put a none) := by
  simp [Memory.delete, h]

/-! ## Chains -/

theorem Linked.addrs_live {m : Memory α} : ∀ {l : List (Nat × Option α)} {p q : Ptr},
    Linked m p l q → ∀ x ∈ l.map Prod.fst, x < m.cells.length
  | [], _, _, _, x, hx => by simp at hx
  | y :: rest, p, q, h, x, hx => by
    simp only [List.map_cons, List.mem_cons] at hx
    rcases hx with rfl | hx
    · exact get_lt h.1
    · exact Linked.addrs_live h.2 x hx

/-- A chain only depends on the cells of its own nodes. -/
theorem Linked.congr {m m' : Memory α} : ∀ {l : List (Nat × Option α)} {p q : Ptr},
    (∀ x ∈ l.map Prod.fst, m'.get x = m.get x) → Linked m p l q → Linked m' p l q
  | [], _, _, _, _ => trivial
  | y :: rest, p, q, hf, h => by
    refine ⟨?_, Linked.congr (fun x hx => hf x (by simp at hx ⊢; exact Or.inr hx)) h.2⟩
    rw [hf y.1 (by simp)]
    exact h.1

theorem Linked_nil (m : Memory α) (p q : Ptr) : Linked m p [] q ↔ True := Iff.rfl

theorem Linked_cons (m : Memory α) (p q : Ptr) (x : Nat × Option α)
    (rest : List (Nat × Option α)) :
    Linked m p (x :: rest) q ↔
      (m.get x.1 = some ⟨nextOf rest q, p, x.2⟩ ∧ Linked m (some x.1) rest q) := Iff.rfl

theorem lastOf_nil (p : Ptr) : lastOf ([] : List (Nat × Option α)) p = p := rfl

theorem lastOf_concat (l : List (Nat × Option α)) (x : Nat × Option α) (p : Ptr) :
    lastOf (l ++ [x]) p = some x.1 := by
  simp [lastOf]

theorem lastOf_cons (l : List (Nat × Option α)) (x : Nat × Option α) (p : Ptr) :
    lastOf (x :: l) p = lastOf l (some x.1) := by
  cases l with
  | nil => simp [lastOf]
  | cons y t =>
    have h : (y :: t).getLast? = some ((y :: t).getLast (by simp)) := List.getLast?_eq_getLast _ _
    simp only [lastOf, List.getLast?_cons_cons, h]

theorem nextOf_append (l1 l2 : List (Nat × Option α)) (q : Ptr) :
    nextOf (l1 ++ l2) q = nextOf l1 (nextOf l2 q) := by
  cases l1 <;> simp [nextOf]

/-- Splitting a chain in two. -/
theorem Linked.append {m : Memory α} : ∀ (l1 l2 : List (Nat × Option α)) (p q : Ptr),
    Linked m p (l1 ++ l2) q ↔ Linked m p l1 (nextOf l2 q) ∧ Linked m (lastOf l1 p) l2 q
  | [], l2, p, q => by simp [Linked_nil, lastOf_nil, nextOf]
  | x :: l1, l2, p, q => by
    have ih := Linked.append (m := m) l1 l2 (some x.1) q
    simp only [List.cons_append, Linked_cons, ih, nextOf_append, lastOf_cons, and_assoc]

/-! ## Effect of one step on memory, through `Memory.get` -/

theorem getNext_eq {m : Memory α} {a : Nat} {nx pv : Ptr} {d : Option α}
    (h : m.get a = some ⟨nx, pv, d⟩) : getNext m (some a) = .ok nx := getNext_ok h

theorem getPrev_eq {m : Memory α} {a : Nat} {nx pv : Ptr} {d : Option α}
    (h : m.get a = some ⟨nx, pv, d⟩) : getPrev m (some a) = .ok pv := getPrev_ok h

theorem getData_eq {m : Memory α} {a : Nat} {nx pv : Ptr} {v : α}
    (h : m.get a = some ⟨nx, pv, some v⟩) : getData m (some a) = .ok v := getData_ok h rfl

theorem new_spec {m : Memory α} (n : Node α) (h : 0 < m.avail) :
    ∃ m', m.new n = .ok (m.cells.length, m') ∧ m'.cells.length = m.cells.length + 1 ∧
      m'.avail = m.avail - 1 ∧
      ∀ b, m'.get b = if b = m.cells.length then some n else m.get b :=
  ⟨_, new_ok n h, by simp, rfl, fun b => get_grow m n _ b⟩

theorem setNext_spec {m : Memory α} {a : Nat} {nx pv : Ptr} {d : Option α} (q : Ptr)
    (h : m.get a = some ⟨nx, pv, d⟩) :
    ∃ m', setNext m (some a) q = .ok m' ∧ m'.cells.length = m.cells.length ∧
      m'.avail = m.avail ∧ ∀ b, m'.get b = if b = a then some ⟨q, pv, d⟩ else m.get b :=
  ⟨_, setNext_ok q h, by simp, rfl, fun b => by simp [get_put, get_lt h]⟩

theorem setPrev_spec {m : Memory α} {a : Nat} {nx pv : Ptr} {d : Option α} (q : Ptr)
    (h : m.get a = some ⟨nx, pv, d⟩) :
    ∃ m', setPrev m (some a) q = .ok m' ∧ m'.cells.length = m.cells.length ∧
      m'.avail = m.avail ∧ ∀ b, m'.get b = if b = a then some ⟨nx, q, d⟩ else m.get b :=
  ⟨_, setPrev_ok q h, by simp, rfl, fun b => by simp [get_put, get_lt h]⟩

theorem setData_spec {m : Memory α} {a : Nat} {nx pv : Ptr} {d : Option α} (v : α)
    (h : m.get a = some ⟨nx, pv, d⟩) :
    ∃ m', setData m (some a) v = .ok m' ∧ m'.cells.length = m.cells.length ∧
      m'.avail = m.avail ∧ ∀ b, m'.get b = if b = a then some ⟨nx, pv, some v⟩ else m.get b :=
  ⟨_, setData_ok v h, by simp, rfl, fun b => by simp [get_put, get_lt h]⟩

theorem delete_spec {m : Memory α} {a : Nat} {n : Node α} (h : m.get a = some n) :
    ∃ m', m.delete (some a) = .ok m' ∧ m'.cells.length = m.cells.length ∧
      m'.avail = m.avail ∧ ∀ b, m'.get b = if b = a then none else m.get b :=
  ⟨_, delete_ok h, by simp, rfl, fun b => by simp [get_put, get_lt h]⟩

theorem construct_spec (m : Memory α) {a : Nat} (n : Node α) (h : a < m.cells.length) :
    (m.construct a n).cells.length = m.cells.length ∧ (m.construct a n).avail = m.avail ∧
      ∀ b, (m.construct a n).get b = if b = a then some n else m.get b :=
  ⟨by simp [Memory.construct], rfl, fun b => by simp [Memory.construct, get_put, h]⟩

/-- What a chain says about two neighbouring entries. -/
theorem Linked.mid {m : Memory α} {u l2 : List (Nat × Option α)} {A P : Nat × Option α}
    {p q : Ptr} (hl : Linked m p (u ++ A :: P :: l2) q) :
    Linked m p u (some A.1) ∧ m.get A.1 = some ⟨some P.1, lastOf u p, A.2⟩ ∧
      m.get P.1 = some ⟨nextOf l2 q, some A.1, P.2⟩ ∧ Linked m (some P.1) l2 q := by
  rw [Linked.append] at hl
  obtain ⟨h1, h2⟩ := hl
  rw [Linked_cons, Linked_cons] at h2
  exact ⟨h1, h2.1, h2.2.1, h2.2.2⟩

theorem insert_chain {m : Memory α} (L : LinkedList) (v : α) (u l2 : List (Nat × Option α))
    (A P : Nat × Option α)
    (hl : Linked m none (u ++ A :: P :: l2) none)
    (hnd : ((u ++ A :: P :: l2).map Prod.fst).Nodup) (hav : 0 < m.avail) :
    ∃ m', insert m L (some P.1) v =
          .ok (m', { L with size := (L.size + 1) % 2 ^ SIZE_BITS }, some m.cells.length)
      ∧ Linked m' none (u ++ A :: (m.cells.length, some v) :: P :: l2) none
      ∧ m'.cells.length = m.cells.length + 1 ∧ m'.avail = m.avail - 1
      ∧ ∀ x, x ≠ A.1 → x ≠ P.1 → x ≠ m.cells.length → m'.get x = m.get x := by
  obtain ⟨hu, hA, hP, hl2⟩ := hl.mid
  have hAlt := get_lt hA
  have hPlt := get_lt hP
  have hlt := Linked.addrs_live hl
  simp only [List.map_append, List.map_cons, List.nodup_append, List.nodup_cons,
    List.mem_cons, not_or] at hnd
  obtain ⟨hndu, ⟨⟨hAP, hAl2⟩, hPl2, hndl2⟩, hdis⟩ := hnd
  obtain ⟨m1, e1, len1, av1, g1⟩ := new_spec (⟨none, none, some v⟩ : Node α) hav
  have hP1 : m1.get P.1 = some ⟨nextOf l2 none, some A.1, P.2⟩ := by
    rw [g1, if_neg (by omega), hP]
  have hA1 : m1.get A.1 = some ⟨some P.1, lastOf u none, A.2⟩ := by
    rw [g1, if_neg (by omega), hA]
  obtain ⟨m2, e2, len2, av2, g2⟩ := setNext_spec (some m.cells.length) hA1
  have hP2 : m2.get P.1 = some ⟨nextOf l2 none, some A.1, P.2⟩ := by
    rw [g2, if_neg (Ne.symm hAP), hP1]
  have hN2 : m2.get m.cells.length = some ⟨none, none, some v⟩ := by
    rw [g2, if_neg (by omega), g1, if_pos rfl]
  obtain ⟨m3, e3, len3, av3, g3⟩ := setPrev_spec (some A.1) hN2
  have hN3 : m3.get m.cells.length = some ⟨none, some A.1, some v⟩ := by
    rw [g3, if_pos rfl]
  obtain ⟨m4, e4, len4, av4, g4⟩ := setNext_spec (some P.1) hN3
  have hP4 : m4.get P.1 = some ⟨nextOf l2 none, some A.1, P.2⟩ := by
    rw [g4, if_neg (by omega), g3, if_neg (by omega), hP2]
  obtain ⟨m5, e5, len5, av5, g5⟩ := setPrev_spec (some m.cells.length) hP4
  have g : ∀ x, m5.get x =
      if x = P.1 then some ⟨nextOf l2 none, some m.cells.length, P.2⟩
      else if x = m.cells.length then some ⟨some P.1, some A.1, some v⟩
      else if x = A.1 then some ⟨some m.cells.length, lastOf u none, A.2⟩
      else m.get x := by
    intro x
    simp only [g5, g4, g3, g2, g1]
    split_ifs <;> rfl
  refine ⟨m5, ?_, ?_, by omega, by omega, ?_⟩
  · simp only [insert, bind, Except.bind, e1, getPrev_eq hP1, e2, getPrev_eq hP2, e3, e4, e5,
      pure, Except.pure]
  · rw [Linked.append]
    refine ⟨Linked.congr (fun x hx => ?_) hu, ?_, ?_, ?_, Linked.congr (fun x hx => ?_) hl2⟩
    · have h1 : x ≠ A.1 := fun e => hdis hx (by simp [e])
      have h2 : x ≠ P.1 := fun e => hdis hx (by simp [e])
      have h3 : x < m.cells.length := hlt x (by simp at hx ⊢; exact Or.inl hx)
      rw [g, if_neg h2, if_neg (by omega), if_neg h1]
    · show m5.get A.1 = _
      rw [g, if_neg hAP, if_neg (by omega), if_pos rfl]; rfl
    · show m5.get m.cells.length = _
      rw [g, if_neg (by omega), if_pos rfl]; rfl
    · show m5.get P.1 = _
      rw [g, if_pos rfl]
    · have h1 : x ≠ A.1 := fun e => hAl2 (by simpa [e] using hx)
      have h2 : x ≠ P.1 := fun e => hPl2 (by simpa [e] using hx)
      have h3 : x < m.cells.length := hlt x (by simp at hx ⊢; exact Or.inr (Or.inr (Or.inr hx)))
      rw [g, if_neg h2, if_neg (by omega), if_neg h1]
  · intro x h1 h2 h3
    rw [g, if_neg h2, if_neg h3, if_neg h1]

theorem erase_chain {m : Memory α} (L : LinkedList) (u l2 : List (Nat × Option α))
    (A E N : Nat × Option α)
    (hl : Linked m none (u ++ A :: E :: N :: l2) none)
    (hnd : ((u ++ A :: E :: N :: l2).map Prod.fst).Nodup) :
    ∃ m', erase m L (some E.1) =
          .ok (m', { L with size := (L.size + (2 ^ SIZE_BITS - 1)) % 2 ^ SIZE_BITS }, some N.1)
      ∧ Linked m' none (u ++ A :: N :: l2) none
      ∧ m'.cells.length = m.cells.length ∧ m'.avail = m.avail
      ∧ m'.get E.1 = none
      ∧ ∀ x, x ≠ A.1 → x ≠ E.1 → x ≠ N.1 → m'.get x = m.get x := by
  obtain ⟨hu, hA, hE, hl2⟩ := hl.mid
  rw [Linked_cons] at hl2
  obtain ⟨hN, hl2⟩ := hl2
  simp only [nextOf] at hE
  simp only [List.map_append, List.map_cons, List.nodup_append, List.nodup_cons,
    List.mem_cons, not_or] at hnd
  obtain ⟨hndu, ⟨⟨hAE, hAN, hAl2⟩, ⟨hEN, hEl2⟩, hNl2, hndl2⟩, hdis⟩ := hnd
  obtain ⟨m1, e1, len1, av1, g1⟩ := setNext_spec (some N.1) hA
  have hE1 : m1.get E.1 = some ⟨some N.1, some A.1, E.2⟩ := by
    rw [g1, if_neg (Ne.symm hAE), hE]
  have hN1 : m1.get N.1 = some ⟨nextOf l2 none, some E.1, N.2⟩ := by
    rw [g1, if_neg (Ne.symm hAN), hN]
  obtain ⟨m2, e2, len2, av2, g2⟩ := setPrev_spec (some A.1) hN1
  have hE2 : m2.get E.1 = some ⟨some N.1, some A.1, E.2⟩ := by
    rw [g2, if_neg hEN, hE1]
  obtain ⟨m3, e3, len3, av3, g3⟩ := delete_spec hE2
  have g : ∀ x, m3.get x =
      if x = E.1 then none
      else if x = N.1 then some ⟨nextOf l2 none, some A.1, N.2⟩
      else if x = A.1 then some ⟨some N.1, lastOf u none, A.2⟩
      else m.get x := by
    intro x
    simp only [g3, g2, g1]
  refine ⟨m3, ?_, ?_, by omega, by omega, ?_, ?_⟩
  · simp only [erase, bind, Except.bind, getNext_eq hE, getPrev_eq hE, e1, getPrev_eq hE1,
      getNext_eq hE1, e2, e3, pure, Except.pure]
  · rw [Linked.append]
    refine ⟨Linked.congr (fun x hx => ?_) hu, ?_, ?_, Linked.congr (fun x hx => ?_) hl2⟩
    · have h1 : x ≠ A.1 := fun e => hdis hx (by simp [e])
      have h2 : x ≠ E.1 := fun e => hdis hx (by simp [e])
      have h3 : x ≠ N.1 := fun e => hdis hx (by simp [e])
      rw [g, if_neg h2, if_neg h3, if_neg h1]
    · show m3.get A.1 = _
      rw [g, if_neg hAE, if_neg hAN, if_pos rfl]; rfl
    · show m3.get N.1 = _
      rw [g, if_neg (Ne.symm hEN), if_pos rfl]
    · have h1 : x ≠ A.1 := fun e => hAl2 (by simpa [e] using hx)
      have h2 : x ≠ E.1 := fun e => hEl2 (by simpa [e] using hx)
      have h3 : x ≠ N.1 := fun e => hNl2 (by simpa [e] using hx)
      rw [g, if_neg h2, if_neg h3, if_neg h1]
  · rw [g, if_pos rfl]
  · intro x h1 h2 h3
    rw [g, if_neg h2, if_neg h3, if_neg h1]

theorem write_chain {m : Memory α} (v : α) (u l2 : List (Nat × Option α))
    (E : Nat × Option α) (p q : Ptr)
    (hl : Linked m p (u ++ E :: l2) q)
    (hnd : ((u ++ E :: l2).map Prod.fst).Nodup) :
    ∃ m', setData m (some E.1) v = .ok m'
      ∧ Linked m' p (u ++ (E.1, some v) :: l2) q
      ∧ m'.cells.length = m.cells.length ∧ m'.avail = m.avail
      ∧ ∀ x, x ≠ E.1 → m'.get x = m.get x := by
  rw [Linked.append, Linked_cons] at hl
  obtain ⟨hu, hE, hl2⟩ := hl
  simp only [List.map_append, List.map_cons, List.nodup_append, List.nodup_cons] at hnd
  obtain ⟨hndu, ⟨hEl2, hndl2⟩, hdis⟩ := hnd
  obtain ⟨m1, e1, len1, av1, g1⟩ := setData_spec v hE
  refine ⟨m1, e1, ?_, len1, av1, fun x hx => by rw [g1, if_neg hx]⟩
  rw [Linked.append, Linked_cons]
  refine ⟨Linked.congr (fun x hx => ?_) hu, ?_, Linked.congr (fun x hx => ?_) hl2⟩
  · have h1 : x ≠ E.1 := fun e => hdis hx (by simp [e])
    rw [g1, if_neg h1]
  · show m1.get E.1 = _
    rw [g1, if_pos rfl]
  · have h1 : x ≠ E.1 := fun e => hEl2 (by simpa [e] using hx)
    rw [g1, if_neg h1]

/-- Distinct addresses below a bound are at most that many. -/
theorem length_le_of_nodup_lt {l : List Nat} {n : Nat} (hnd : l.Nodup)
    (hlt : ∀ x ∈ l, x < n) : l.length ≤ n := by
  have h1 : l.toFinset ⊆ Finset.range n := by
    intro x hx
    simp only [List.mem_toFinset] at hx
    simpa using hlt x hx
  have h2 := Finset.card_le_card h1
  rwa [List.toFinset_card_of_nodup hnd, Finset.card_range] at h2

@[simp] theorem realEntries_nil : realEntries ([] : List (Nat × α)) = [] := rfl

@[simp] theorem realEntries_cons (x : Nat × α) (ns : List (Nat × α)) :
    realEntries (x :: ns) = (x.1, some x.2) :: realEntries ns := rfl

@[simp] theorem realEntries_append (xs ys : List (Nat × α)) :
    realEntries (xs ++ ys) = realEntries xs ++ realEntries ys := by
  simp [realEntries]

@[simp] theorem realEntries_length (ns : List (Nat × α)) :
    (realEntries ns).length = ns.length := by
  simp [realEntries]

@[simp] theorem realEntries_fst (ns : List (Nat × α)) :
    (realEntries ns).map Prod.fst = ns.map Prod.fst := by
  simp [realEntries]

theorem addrsOf_eq (L : LinkedList) (ns : List (Nat × α)) :
    addrsOf L ns = L.head :: (ns.map Prod.fst ++ [L.tail]) := by
  simp [addrsOf, chainOf]

/-- A well-formed list of `n` elements occupies `n + 2` cells. -/
theorem WF.length_le {m : Memory α} {L : LinkedList} {ns : List (Nat × α)} (h : WF m L ns) :
    ns.length + 2 ≤ m.cells.length := by
  have h1 := length_le_of_nodup_lt h.2.1 (Linked.addrs_live h.1)
  simpa [addrsOf_eq] using h1

theorem WF.size_lt {m : Memory α} {L : LinkedList} {ns : List (Nat × α)} (h : WF m L ns) :
    L.size + 2 ≤ 2 ^ SIZE_BITS := by
  have h1 := h.length_le
  have h2 := h.2.2.2
  have h3 := h.2.2.1
  omega

theorem cons_eq_concat (a : Nat × Option α) (w : List (Nat × Option α)) :
    ∃ u A, a :: w = u ++ [A] :=
  ⟨(a :: w).dropLast, (a :: w).getLast (by simp), (List.dropLast_append_getLast _).symm⟩

theorem tail_split (L : LinkedList) (ys : List (Nat × α)) :
    ∃ P l2, realEntries ys ++ [((L.tail, none) : Nat × Option α)] = P :: l2 ∧
      P.1 = posOf L ys := by
  cases ys with
  | nil => exact ⟨_, _, rfl, rfl⟩
  | cons y t => exact ⟨_, _, rfl, rfl⟩

/-- The chain of a list, cut before the position `posOf L ys`. -/
theorem chain_split (L : LinkedList) (xs ys : List (Nat × α)) :
    ∃ u A P l2, (L.head, none) :: realEntries xs = u ++ [A] ∧
      realEntries ys ++ [((L.tail, none) : Nat × Option α)] = P :: l2 ∧
      P.1 = posOf L ys ∧ chainOf L (xs ++ ys) = u ++ A :: P :: l2 := by
  obtain ⟨u, A, hu⟩ := cons_eq_concat ((L.head, none) : Nat × Option α) (realEntries xs)
  obtain ⟨P, l2, hw, hP⟩ := tail_split L ys
  refine ⟨u, A, P, l2, hu, hw, hP, ?_⟩
  have : chainOf L (xs ++ ys) =
      ((L.head, none) :: realEntries xs) ++ (realEntries ys ++ [(L.tail, none)]) := by
    simp [chainOf]
  rw [this, hu, hw]; simp

/-- A list stays well-formed when the cells of its own nodes do not change. -/
theorem WF.frame {m m' : Memory α} {L : LinkedList} {ns : List (Nat × α)} (h : WF m L ns)
    (hg : ∀ x ∈ addrsOf L ns, m'.get x = m.get x)
    (hmem : m'.cells.length + m'.avail ≤ 2 ^ SIZE_BITS) : WF m' L ns :=
  ⟨Linked.congr hg h.1, h.2.1, h.2.2.1, hmem⟩

theorem WF.addrs_lt {m : Memory α} {L : LinkedList} {ns : List (Nat × α)} (h : WF m L ns) :
    ∀ x ∈ addrsOf L ns, x < m.cells.length := Linked.addrs_live h.1

theorem addrsOf_size (L : LinkedList) (k : Nat) (ns : List (Nat × α)) :
    addrsOf { L with size := k } ns = addrsOf L ns := rfl

theorem addrsOf_insert_perm (L : LinkedList) (xs ys : List (Nat × α)) (a : Nat) (v : α) :
    (addrsOf L (xs ++ (a, v) :: ys)).Perm (a :: addrsOf L (xs ++ ys)) := by
  simp only [addrsOf_eq, List.map_append, List.map_cons, List.append_assoc, List.cons_append]
  refine (List.Perm.cons _ List.perm_middle).trans (List.Perm.swap _ _ _)

theorem mem_addrsOf_insert {L : LinkedList} {xs ys : List (Nat × α)} {a x : Nat} {v : α} :
    x ∈ addrsOf L (xs ++ (a, v) :: ys) ↔ x = a ∨ x ∈ addrsOf L (xs ++ ys) := by
  rw [(addrsOf_insert_perm L xs ys a v).mem_iff]; simp

/-- Member `insert` on a well-formed list, at the position in front of `ys`. -/
theorem insert_WF {m : Memory α} {L : LinkedList} (xs ys : List (Nat × α)) (v : α)
    (h : WF m L (xs ++ ys)) (hav : 0 < m.avail) :
    ∃ m', insert m L (some (posOf L ys)) v =
          .ok (m', { L with size := L.size + 1 }, some m.cells.length)
      ∧ WF m' { L with size := L.size + 1 } (xs ++ (m.cells.length, v) :: ys)
      ∧ m'.cells.length = m.cells.length + 1 ∧ m'.avail = m.avail - 1
      ∧ ∀ x, x ∉ addrsOf L (xs ++ ys) → x ≠ m.cells.length → m'.get x = m.get x := by
  obtain ⟨u, A, P, l2, hu, hw, hP, hc⟩ := chain_split L xs ys
  have hl := h.1
  have hnd := h.2.1
  rw [addrsOf, hc] at hnd
  rw [hc] at hl
  obtain ⟨m', e, hl', len', av', fr⟩ := insert_chain L v u l2 A P hl hnd hav
  have hsz : (L.size + 1) % 2 ^ SIZE_BITS = L.size + 1 :=
    Nat.mod_eq_of_lt (by have := h.size_lt; omega)
  rw [hsz, hP] at e
  have hmem : ∀ x, x ∈ addrsOf L (xs ++ ys) ↔ x ∈ (u ++ A :: P :: l2).map Prod.fst := by
    intro x; rw [addrsOf, hc]
  refine ⟨m', e, ⟨?_, ?_, ?_, ?_⟩, len', av', ?_⟩
  · have : chainOf { L with size := L.size + 1 } (xs ++ (m.cells.length, v) :: ys) =
        ((L.head, none) :: realEntries xs) ++ (m.cells.length, some v) ::
          (realEntries ys ++ [(L.tail, none)]) := by
      simp [chainOf]
    rw [this, hu, hw]
    simpa using hl'
  · rw [addrsOf_size, (addrsOf_insert_perm L xs ys _ v).nodup_iff, List.nodup_cons]
    exact ⟨fun hx => Nat.lt_irrefl _ (h.addrs_lt _ hx), h.2.1⟩
  · simp [h.2.2.1]; omega
  · have := h.2.2.2; omega
  · intro x hx hne
    refine fr x (fun e => hx ?_) (fun e => hx ?_) hne
    · rw [hmem]; simp [e]
    · rw [hmem]; simp [e]

/-- Member `erase` on a well-formed list, at the real node `(a, v)`. -/
theorem erase_WF {m : Memory α} {L : LinkedList} (xs ys : List (Nat × α)) (a : Nat) (v : α)
    (h : WF m L (xs ++ (a, v) :: ys)) :
    ∃ m', erase m L (some a) = .ok (m', { L with size := L.size - 1 }, some (posOf L ys))
      ∧ WF m' { L with size := L.size - 1 } (xs ++ ys)
      ∧ m'.cells.length = m.cells.length ∧ m'.avail = m.avail
      ∧ m'.get a = none
      ∧ ∀ x, x ∉ addrsOf L (xs ++ (a, v) :: ys) → m'.get x = m.get x := by
  obtain ⟨u, A, hu⟩ := cons_eq_concat ((L.head, none) : Nat × Option α) (realEntries xs)
  obtain ⟨N, l2, hw, hN⟩ := tail_split L ys
  have hc : chainOf L (xs ++ (a, v) :: ys) = u ++ A :: (a, some v) :: N :: l2 := by
    have : chainOf L (xs ++ (a, v) :: ys) =
        ((L.head, none) :: realEntries xs) ++ (a, some v) ::
          (realEntries ys ++ [(L.tail, none)]) := by
      simp [chainOf]
    rw [this, hu, hw]; simp
  have hc' : chainOf L (xs ++ ys) = u ++ A :: N :: l2 := by
    have : chainOf L (xs ++ ys) =
        ((L.head, none) :: realEntries xs) ++ (realEntries ys ++ [(L.tail, none)]) := by
      simp [chainOf]
    rw [this, hu, hw]; simp
  have hl := h.1
  have hnd := h.2.1
  rw [addrsOf, hc] at hnd
  rw [hc] at hl
  obtain ⟨m', e, hl', len', av', dead, fr⟩ := erase_chain L u l2 A (a, some v) N hl hnd
  have h3 := h.2.2.1
  simp only [List.length_append, List.length_cons] at h3
  have hsz : (L.size + (2 ^ SIZE_BITS - 1)) % 2 ^ SIZE_BITS = L.size - 1 := by
    have := h.size_lt
    simp only [SIZE_BITS] at this ⊢
    omega
  rw [hsz, hN] at e
  have hmem : ∀ x, x ∈ addrsOf L (xs ++ (a, v) :: ys) ↔
      x ∈ (u ++ A :: (a, some v) :: N :: l2).map Prod.fst := by
    intro x; rw [addrsOf, hc]
  refine ⟨m', e, ⟨?_, ?_, ?_, ?_⟩, len', av', dead, ?_⟩
  · have : chainOf { L with size := L.size - 1 } (xs ++ ys) = chainOf L (xs ++ ys) := rfl
    rw [this, hc']; exact hl'
  · rw [addrsOf_size]
    have := (addrsOf_insert_perm L xs ys a v).nodup_iff.1 h.2.1
    exact (List.nodup_cons.1 this).2
  · simp only [List.length_append]; omega
  · have := h.2.2.2; omega
  · intro x hx
    refine fr x (fun e => hx ?_) (fun e => hx ?_) (fun e => hx ?_)
    · rw [hmem]; simp [e]
    · rw [hmem]; simp [e]
    · rw [hmem]; simp [e]

/-- A write `*it = w` through an iterator at the real node `(a, v)`. -/
theorem write_WF {m : Memory α} {L : LinkedList} (xs ys : List (Nat × α)) (a : Nat) (v w : α)
    (h : WF m L (xs ++ (a, v) :: ys)) :
    ∃ m', setData m (some a) w = .ok m'
      ∧ WF m' L (xs ++ (a, w) :: ys)
      ∧ m'.cells.length = m.cells.length ∧ m'.avail = m.avail
      ∧ ∀ x, x ≠ a → m'.get x = m.get x := by
  have hc : ∀ z : α, chainOf L (xs ++ (a, z) :: ys) =
      ((L.head, none) :: realEntries xs) ++ (a, some z) ::
        (realEntries ys ++ [(L.tail, none)]) := by
    intro z; simp [chainOf]
  have hl := h.1
  have hnd := h.2.1
  rw [addrsOf, hc] at hnd
  rw [hc] at hl
  obtain ⟨m', e, hl', len', av', fr⟩ := write_chain w _ _ (a, some v) none none hl hnd
  refine ⟨m', e, ⟨?_, ?_, ?_, ?_⟩, len', av', fr⟩
  · rw [hc]; exact hl'
  · have h1 := h.2.1
    rw [(addrsOf_insert_perm L xs ys a v).nodup_iff] at h1
    rwa [(addrsOf_insert_perm L xs ys a w).nodup_iff]
  · simpa using h.2.2.1
  · have := h.2.2.2; omega

theorem lastOf_real (L : LinkedList) (xs : List (Nat × α)) (p : Ptr) :
    lastOf ((L.head, none) :: realEntries xs) p = some (backOf L xs) := by
  rw [lastOf_cons]
  rcases List.eq_nil_or_concat xs with rfl | ⟨t, x, rfl⟩
  · rfl
  · simp [lastOf, backOf, realEntries, List.concat_eq_append]

theorem nextOf_real (L : LinkedList) (ys : List (Nat × α)) (q : Ptr) :
    nextOf (realEntries ys ++ [((L.tail, none) : Nat × Option α)]) q = some (posOf L ys) := by
  cases ys <;> rfl

/-- The cell of a real node of a well-formed list. -/
theorem WF.node_get {m : Memory α} {L : LinkedList} {xs ys : List (Nat × α)} {a : Nat} {v : α}
    (h : WF m L (xs ++ (a, v) :: ys)) :
    m.get a = some ⟨some (posOf L ys), some (backOf L xs), some v⟩ := by
  have hl := h.1
  have hc : chainOf L (xs ++ (a, v) :: ys) =
      ((L.head, none) :: realEntries xs) ++ (a, some v) ::
        (realEntries ys ++ [(L.tail, none)]) := by
    simp [chainOf]
  rw [hc, Linked.append] at hl
  have h2 := hl.2
  rw [Linked_cons, lastOf_real, nextOf_real] at h2
  exact h2.1

/-- The cell of the head sentinel of a well-formed list. -/
theorem WF.head_get {m : Memory α} {L : LinkedList} {ns : List (Nat × α)} (h : WF m L ns) :
    m.get L.head = some ⟨some (posOf L ns), none, none⟩ := by
  have hl := h.1
  rw [chainOf, Linked_cons, nextOf_real] at hl
  exact hl.1

/-- The cell of the tail sentinel of a well-formed list. -/
theorem WF.tail_get {m : Memory α} {L : LinkedList} {ns : List (Nat × α)} (h : WF m L ns) :
    m.get L.tail = some ⟨none, some (backOf L ns), none⟩ := by
  have hl := h.1
  have hc : chainOf L ns = ((L.head, none) :: realEntries ns) ++ [(L.tail, none)] := by
    simp [chainOf]
  rw [hc, Linked.append, Linked_cons, lastOf_real] at hl
  exact hl.2.1

theorem WF.begin_eq {m : Memory α} {L : LinkedList} {ns : List (Nat × α)} (h : WF m L ns) :
    begin_ m L = .ok (some (posOf L ns)) :=
  getNext_eq h.head_get

theorem WF.decr_end {m : Memory α} {L : LinkedList} {ns : List (Nat × α)} (h : WF m L ns) :
    decr m (end_ L) = .ok (some (backOf L ns)) :=
  getPrev_eq h.tail_get

theorem WF.node_ne_tail {m : Memory α} {L : LinkedList} {xs ys : List (Nat × α)} {a : Nat}
    {v : α} (h : WF m L (xs ++ (a, v) :: ys)) : a ≠ L.tail := by
  have h1 := (addrsOf_insert_perm L xs ys a v).nodup_iff.1 h.2.1
  have h2 := (List.nodup_cons.1 h1).1
  intro e
  exact h2 (by simp [addrsOf_eq, e])

theorem WF.node_ne_head {m : Memory α} {L : LinkedList} {xs ys : List (Nat × α)} {a : Nat}
    {v : α} (h : WF m L (xs ++ (a, v) :: ys)) : a ≠ L.head := by
  have h1 := (addrsOf_insert_perm L xs ys a v).nodup_iff.1 h.2.1
  have h2 := (List.nodup_cons.1 h1).1
  intro e
  exact h2 (by simp [addrsOf_eq, e])

theorem WF.head_ne_tail {m : Memory α} {L : LinkedList} {ns : List (Nat × α)} (h : WF m L ns) :
    L.head ≠ L.tail := by
  have h1 := h.2.1
  rw [addrsOf_eq, List.nodup_cons] at h1
  intro e
  exact h1.1 (by simp [e])

/-- Forward iteration from the position in front of `ys` collects the elements of `ys`. -/
theorem forwardLoop_WF {m : Memory α} {L : LinkedList} :
    ∀ (ys xs : List (Nat × α)) (k : Nat), WF m L (xs ++ ys) → ys.length < k →
      forwardLoop k m L (some (posOf L ys)) = .ok (elems ys)
  | [], _, k, _, hk => by
    obtain ⟨k, rfl⟩ : ∃ j, k = j + 1 := ⟨k - 1, by omega⟩
    simp [forwardLoop, posOf, end_, elems, pure, Except.pure]
  | (a, v) :: ys, xs, k, h, hk => by
    obtain ⟨k, rfl⟩ : ∃ j, k = j + 1 := ⟨k - 1, by simp at hk; omega⟩
    have hne : a ≠ L.tail := h.node_ne_tail
    have h' : WF m L ((xs ++ [(a, v)]) ++ ys) := by simpa using h
    have ih := forwardLoop_WF ys (xs ++ [(a, v)]) k h' (by simp at hk; omega)
    show forwardLoop (k + 1) m L (some a) = _
    simp only [forwardLoop, end_, Option.some.injEq, hne, if_false, bind, Except.bind,
      deref, incr, getData_eq h.node_get, getNext_eq h.node_get, ih, pure, Except.pure, elems,
      List.map_cons]

/-- Forward iteration over a well-formed list yields its elements and terminates. -/
theorem WF.toSeq_eq {m : Memory α} {L : LinkedList} {ns : List (Nat × α)} (h : WF m L ns) :
    toSeq m L = .ok (elems ns) := by
  have hlen := h.length_le
  have := forwardLoop_WF ns [] m.cells.length (by simpa using h) (by omega)
  simp only [toSeq, h.begin_eq, bind, Except.bind, this]

theorem WF.size_change {m : Memory α} {L : LinkedList} {ns : List (Nat × α)} (h : WF m L ns) :
    WF m { L with size := ns.length } ns := by
  have : ({ L with size := ns.length } : LinkedList) = L := by
    cases L; simp at h ⊢; exact h.2.2.1.symm
  rw [this]; exact h

/-- Member `push_back` on a well-formed list. -/
theorem push_back_WF {m : Memory α} {L : LinkedList} (ns : List (Nat × α)) (v : α)
    (h : WF m L ns) (hav : 0 < m.avail) :
    ∃ m', push_back m L v = .ok (m', { L with size := L.size + 1 })
      ∧ WF m' { L with size := L.size + 1 } (ns ++ [(m.cells.length, v)])
      ∧ m'.cells.length = m.cells.length + 1 ∧ m'.avail = m.avail - 1
      ∧ ∀ x, x ∉ addrsOf L ns → x ≠ m.cells.length → m'.get x = m.get x := by
  have h' : WF m L (ns ++ []) := by simpa using h
  obtain ⟨m', e, hw, hlen, hav', fr⟩ := insert_WF ns [] v h' hav
  refine ⟨m', ?_, hw, hlen, hav', by simpa using fr⟩
  simp only [posOf] at e
  simp only [push_back, end_, e, bind, Except.bind, pure, Except.pure]

/-- Member `push_front` on a well-formed list. -/
theorem push_front_WF {m : Memory α} {L : LinkedList} (ns : List (Nat × α)) (v : α)
    (h : WF m L ns) (hav : 0 < m.avail) :
    ∃ m', push_front m L v = .ok (m', { L with size := L.size + 1 })
      ∧ WF m' { L with size := L.size + 1 } ((m.cells.length, v) :: ns)
      ∧ m'.cells.length = m.cells.length + 1 ∧ m'.avail = m.avail - 1
      ∧ ∀ x, x ∉ addrsOf L ns → x ≠ m.cells.length → m'.get x = m.get x := by
  have h' : WF m L ([] ++ ns) := by simpa using h
  obtain ⟨m', e, hw, hlen, hav', fr⟩ := insert_WF [] ns v h' hav
  refine ⟨m', ?_, by simpa using hw, hlen, hav', by simpa using fr⟩
  simp only [push_front, h.begin_eq, e, bind, Except.bind, pure, Except.pure]

theorem empty_iff {m : Memory α} {L : LinkedList} {ns : List (Nat × α)} (h : WF m L ns) :
    empty L = true ↔ ns = [] := by
  simp [empty, h.2.2.1]

/-- Member `pop_front` on a well-formed list: nothing on an empty list, else
the first node is erased. -/
theorem pop_front_WF {m : Memory α} {L : LinkedList} (ns : List (Nat × α)) (h : WF m L ns) :
    ∃ m', pop_front m L = .ok (m', { L with size := L.size - 1 })
      ∧ WF m' { L with size := L.size - 1 } ns.tail
      ∧ m'.cells.length = m.cells.length ∧ m'.avail = m.avail
      ∧ ∀ x, x ∉ addrsOf L ns → m'.get x = m.get x := by
  cases ns with
  | nil =>
    have hs : L.size = 0 := by simpa using h.2.2.1
    have hL : ({ L with size := L.size - 1 } : LinkedList) = L := by cases L; simp at hs ⊢; omega
    refine ⟨m, ?_, ?_, rfl, rfl, fun _ _ => rfl⟩
    · rw [hL]; simp [pop_front, empty, hs, pure, Except.pure]
    · rw [hL]; exact h
  | cons y ys =>
    obtain ⟨a, v⟩ := y
    have h' : WF m L ([] ++ (a, v) :: ys) := by simpa using h
    obtain ⟨m', e, hw, hlen, hav', _, fr⟩ := erase_WF [] ys a v h'
    have hs : L.size ≠ 0 := by have := h.2.2.1; simp at this; omega
    refine ⟨m', ?_, by simpa using hw, hlen, hav', by simpa using fr⟩
    have hb : begin_ m L = .ok (some a) := h.begin_eq
    simp only [pop_front, empty, beq_iff_eq, hs, if_false, hb, e, bind, Except.bind, pure,
      Except.pure]

theorem backOf_concat (L : LinkedList) (xs : List (Nat × α)) (x : Nat × α) :
    backOf L (xs ++ [x]) = x.1 := by
  simp [backOf]

/-- Member `pop_back` on a well-formed list: nothing on an empty list, else
the last node is erased. -/
theorem pop_back_WF {m : Memory α} {L : LinkedList} (ns : List (Nat × α)) (h : WF m L ns) :
    ∃ m', pop_back m L = .ok (m', { L with size := L.size - 1 })
      ∧ WF m' { L with size := L.size - 1 } ns.dropLast
      ∧ m'.cells.length = m.cells.length ∧ m'.avail = m.avail
      ∧ ∀ x, x ∉ addrsOf L ns → m'.get x = m.get x := by
  rcases List.eq_nil_or_concat ns with rfl | ⟨xs, y, hxy⟩
  · have hs : L.size = 0 := by simpa using h.2.2.1
    have hL : ({ L with size := L.size - 1 } : LinkedList) = L := by cases L; simp at hs ⊢; omega
    refine ⟨m, ?_, ?_, rfl, rfl, fun _ _ => rfl⟩
    · rw [hL]; simp [pop_back, empty, hs, pure, Except.pure]
    · rw [hL]; exact h
  · rw [List.concat_eq_append] at hxy
    subst hxy
    obtain ⟨a, v⟩ := y
    obtain ⟨m', e, hw, hlen, hav', _, fr⟩ := erase_WF xs [] a v h
    have hs : L.size ≠ 0 := by have := h.2.2.1; simp at this; omega
    refine ⟨m', ?_, by simpa using hw, hlen, hav', fr⟩
    have hb : decr m (end_ L) = .ok (some a) := by rw [h.decr_end, backOf_concat]
    simp only [pop_back, empty, beq_iff_eq, hs, if_false, hb, e, bind, Except.bind, pure,
      Except.pure]

theorem initSentinels_spec (m : Memory α) {hd tl : Nat}
    (hhd : hd < m.cells.length) (htl : tl < m.cells.length) :
    (initSentinels m hd tl).cells.length = m.cells.length ∧
      (initSentinels m hd tl).avail = m.avail ∧
      ∀ b, (initSentinels m hd tl).get b =
        if b = tl then some ⟨none, none, none⟩
        else if b = hd then some ⟨none, none, none⟩ else m.get b := by
  obtain ⟨l1, a1, g1⟩ := construct_spec m (⟨none, none, none⟩ : Node α) hhd
  obtain ⟨l2, a2, g2⟩ := construct_spec (m.construct hd ⟨none, none, none⟩)
    (⟨none, none, none⟩ : Node α) (a := tl) (by omega)
  refine ⟨by simp only [initSentinels]; omega, by simp only [initSentinels]; omega, fun b => ?_⟩
  simp only [initSentinels, g2, g1]

/-- Constructor `List()` on fresh storage builds the empty list. -/
theorem List_default_WF (m : Memory α) {hd tl : Nat} (hne : hd ≠ tl)
    (hhd : hd < m.cells.length) (htl : tl < m.cells.length)
    (hmem : m.cells.length + m.avail ≤ 2 ^ SIZE_BITS) :
    ∃ m', List_default m hd tl = .ok (m', ⟨hd, tl, 0⟩) ∧ WF m' ⟨hd, tl, 0⟩ []
      ∧ m'.cells.length = m.cells.length ∧ m'.avail = m.avail
      ∧ ∀ x, x ≠ hd → x ≠ tl → m'.get x = m.get x := by
  obtain ⟨l0, a0, g0⟩ := initSentinels_spec m hhd htl
  have hH : (initSentinels m hd tl).get hd = some ⟨none, none, none⟩ := by
    rw [g0, if_neg hne, if_pos rfl]
  obtain ⟨m1, e1, l1, a1, g1⟩ := setNext_spec (some tl) hH
  have hT : m1.get tl = some ⟨none, none, none⟩ := by
    rw [g1, if_neg (Ne.symm hne), g0, if_pos rfl]
  obtain ⟨m2, e2, l2, a2, g2⟩ := setPrev_spec (some hd) hT
  refine ⟨m2, ?_, ⟨?_, ?_, rfl, by omega⟩, by omega, by omega, ?_⟩
  · simp only [List_default, bind, Except.bind, e1, e2, pure, Except.pure]
  · show Linked m2 none [(hd, none), (tl, none)] none
    refine ⟨?_, ?_, trivial⟩
    · show m2.get hd = _
      rw [g2, if_neg hne, g1, if_pos rfl]; rfl
    · show m2.get tl = _
      rw [g2, if_pos rfl]; rfl
  · simp [addrsOf_eq, hne]
  · intro x h1 h2
    rw [g2, if_neg h2, g1, if_neg h1, g0, if_neg h2, if_neg h1]

/-- One push/pop call keeps a list well-formed, provided `new` succeeds. -/
theorem Op.apply_WF {m : Memory α} {L : LinkedList} {ns : List (Nat × α)} (o : Op α)
    (h : WF m L ns) (hav : 0 < m.avail) :
    ∃ m' L' ns', o.apply m L = .ok (m', L') ∧ WF m' L' ns'
      ∧ L'.head = L.head ∧ L'.tail = L.tail
      ∧ m.cells.length ≤ m'.cells.length ∧ m.avail - 1 ≤ m'.avail
      ∧ (∀ x ∈ addrsOf L' ns', x ∈ addrsOf L ns ∨ (m.cells.length ≤ x ∧ x < m'.cells.length))
      ∧ ∀ x, x ∉ addrsOf L ns → x < m.cells.length → m'.get x = m.get x := by
  cases o with
  | push_back v =>
    obtain ⟨m', e, hw, hl, ha, fr⟩ := push_back_WF ns v h hav
    refine ⟨m', _, _, e, hw, rfl, rfl, by omega, by omega, ?_, fun x hx hlt => fr x hx (by omega)⟩
    intro x hx
    have hx' : x ∈ addrsOf L (ns ++ (m.cells.length, v) :: []) := hx
    rw [mem_addrsOf_insert] at hx'
    rcases hx' with rfl | hx'
    · right; omega
    · left; simpa using hx'
  | push_front v =>
    obtain ⟨m', e, hw, hl, ha, fr⟩ := push_front_WF ns v h hav
    refine ⟨m', _, _, e, hw, rfl, rfl, by omega, by omega, ?_, fun x hx hlt => fr x hx (by omega)⟩
    intro x hx
    have hx' : x ∈ addrsOf L ([] ++ (m.cells.length, v) :: ns) := hx
    rw [mem_addrsOf_insert] at hx'
    rcases hx' with rfl | hx'
    · right; omega
    · left; simpa using hx'
  | pop_back =>
    obtain ⟨m', e, hw, hl, ha, fr⟩ := pop_back_WF ns h
    refine ⟨m', _, _, e, hw, rfl, rfl, by omega, by omega, ?_, fun x hx _ => fr x hx⟩
    intro x hx
    left
    have hx' : x ∈ addrsOf L ns.dropLast := hx
    simp only [addrsOf_eq, List.mem_cons, List.mem_append, List.mem_map,
      List.mem_singleton] at hx' ⊢
    rcases hx' with h1 | ⟨y, hy, h2⟩ | h3
    · exact Or.inl h1
    · exact Or.inr (Or.inl ⟨y, List.mem_of_mem_dropLast hy, h2⟩)
    · exact Or.inr (Or.inr h3)
  | pop_front =>
    obtain ⟨m', e, hw, hl, ha, fr⟩ := pop_front_WF ns h
    refine ⟨m', _, _, e, hw, rfl, rfl, by omega, by omega, ?_, fun x hx _ => fr x hx⟩
    intro x hx
    left
    have hx' : x ∈ addrsOf L ns.tail := hx
    simp only [addrsOf_eq, List.mem_cons, List.mem_append, List.mem_map,
      List.mem_singleton] at hx' ⊢
    rcases hx' with h1 | ⟨y, hy, h2⟩ | h3
    · exact Or.inl h1
    · exact Or.inr (Or.inl ⟨y, List.mem_of_mem_tail hy, h2⟩)
    · exact Or.inr (Or.inr h3)

/-- A push/pop call on a well-formed list can only fail in `new`, and then
before anything is written. -/
theorem Op.apply_total {m : Memory α} {L : LinkedList} {ns : List (Nat × α)} (o : Op α)
    (h : WF m L ns) :
    o.apply m L = .error (.badAlloc, m) ∨
      ∃ m' L' ns', o.apply m L = .ok (m', L') ∧ WF m' L' ns' := by
  by_cases hav : 0 < m.avail
  · obtain ⟨m', L', ns', e, hw, _⟩ := o.apply_WF h hav
    exact Or.inr ⟨m', L', ns', e, hw⟩
  · have h0 : m.avail = 0 := by omega
    cases o with
    | push_back v =>
      left
      simp [Op.apply, DLL.push_back, DLL.insert, Memory.new, h0, bind, Except.bind]
    | push_front v =>
      left
      simp [Op.apply, DLL.push_front, h.begin_eq, DLL.insert, Memory.new, h0, bind, Except.bind]
    | pop_back =>
      obtain ⟨m', e, hw, _⟩ := pop_back_WF ns h
      exact Or.inr ⟨m', _, _, e, hw⟩
    | pop_front =>
      obtain ⟨m', e, hw, _⟩ := pop_front_WF ns h
      exact Or.inr ⟨m', _, _, e, hw⟩

/-- A sequence of push/pop calls keeps a list well-formed when the allocator
can serve every call. -/
theorem runOps_WF : ∀ (ops : List (Op α)) {m : Memory α} {L : LinkedList} {ns : List (Nat × α)},
    WF m L ns → ops.length ≤ m.avail →
      ∃ m' L' ns', runOps ops m L = .ok (m', L') ∧ WF m' L' ns'
  | [], m, L, ns, h, _ => ⟨m, L, ns, rfl, h⟩
  | o :: os, m, L, ns, h, hav => by
    simp only [List.length_cons] at hav
    obtain ⟨m1, L1, ns1, e1, hw1, _, _, _, ha1, _⟩ := o.apply_WF h (by omega)
    obtain ⟨m', L', ns', e', hw'⟩ := runOps_WF os hw1 (by omega)
    exact ⟨m', L', ns', by simp only [runOps, e1, bind, Except.bind, e'], hw'⟩

/-- A sequence of push/pop calls either stops at a failed `new` or ends in a
well-formed list. -/
theorem runOps_total : ∀ (ops : List (Op α)) {m : Memory α} {L : LinkedList}
    {ns : List (Nat × α)}, WF m L ns →
      (∃ mf, runOps ops m L = .error (.badAlloc, mf)) ∨
        ∃ m' L' ns', runOps ops m L = .ok (m', L') ∧ WF m' L' ns'
  | [], m, L, ns, h => Or.inr ⟨m, L, ns, rfl, h⟩
  | o :: os, m, L, ns, h => by
    rcases o.apply_total h with e | ⟨m1, L1, ns1, e1, hw1⟩
    · exact Or.inl ⟨m, by simp only [runOps, e, bind, Except.bind]⟩
    · rcases runOps_total os hw1 with ⟨mf, e⟩ | ⟨m', L', ns', e', hw'⟩
      · exact Or.inl ⟨mf, by simp only [runOps, e1, bind, Except.bind, e]⟩
      · exact Or.inr ⟨m', L', ns', by simp only [runOps, e1, bind, Except.bind, e'], hw'⟩

/-- On an empty list the loop of `clear()` is not entered. -/
theorem clear_empty {m : Memory α} {L : LinkedList} (h : WF m L []) :
    clear m L = .ok (m, L) := by
  have hb : begin_ m L = .ok (some L.tail) := h.begin_eq
  simp only [clear, hb, bind, Except.bind, clearLoop, end_, if_true, pure, Except.pure]

/-- On a list with a first node `a`, `clear()` erases `a` and then reads
`a->next` for `it++`. -/
theorem clear_nonempty {m : Memory α} {L : LinkedList} {a : Nat} {v : α} {ys : List (Nat × α)}
    (h : WF m L ((a, v) :: ys)) :
    ∃ m', clear m L = .error (.deadNode, m') ∧ m'.get a = none
      ∧ erase m L (some a) = .ok (m', { L with size := L.size - 1 }, some (posOf L ys)) := by
  have h' : WF m L ([] ++ (a, v) :: ys) := by simpa using h
  obtain ⟨m', e, hw, hlen, hav', dead, fr⟩ := erase_WF [] ys a v h'
  have hb : begin_ m L = .ok (some a) := h.begin_eq
  have hne : a ≠ L.tail := h'.node_ne_tail
  refine ⟨m', ?_, dead, e⟩
  simp only [clear, hb, bind, Except.bind, clearLoop, end_, Option.some.injEq, hne, if_false, e,
    incr, getNext, load, dead, Except.map]

/-- Copy assignment to a non-empty list from another object stops in `clear()`. -/
theorem assign_copy_nonempty {m : Memory α} {A B : LinkedList} {a : Nat} {v : α}
    {ys : List (Nat × α)} (h : WF m A ((a, v) :: ys)) (hne : B.head ≠ A.head) :
    ∃ m', assign_copy m A B = .error (.deadNode, m') ∧ m'.get a = none := by
  obtain ⟨m', e, dead, _⟩ := clear_nonempty h
  exact ⟨m', by simp only [assign_copy, ne_eq, hne, not_false_eq_true, if_true, e, bind,
    Except.bind], dead⟩

/-- Move assignment to a non-empty list from another object stops in `clear()`. -/
theorem assign_move_nonempty {m : Memory α} {A B : LinkedList} {a : Nat} {v : α}
    {ys : List (Nat × α)} (h : WF m A ((a, v) :: ys)) (hne : B.head ≠ A.head) :
    ∃ m', assign_move m A B = .error (.deadNode, m') ∧ m'.get a = none := by
  obtain ⟨m', e, dead, _⟩ := clear_nonempty h
  exact ⟨m', by simp only [assign_move, ne_eq, hne, not_false_eq_true, if_true, e, bind,
    Except.bind], dead⟩

/-- In a well-formed list the node in front of position `posOf L ys` links to it. -/
theorem WF.next_backOf {m : Memory α} {L : LinkedList} {xs ys : List (Nat × α)}
    (h : WF m L (xs ++ ys)) : getNext m (some (backOf L xs)) = .ok (some (posOf L ys)) := by
  rcases List.eq_nil_or_concat xs with rfl | ⟨t, x, hx⟩
  · have h' : WF m L ys := by simpa using h
    exact getNext_eq h'.head_get
  · rw [List.concat_eq_append] at hx
    subst hx
    obtain ⟨a, v⟩ := x
    have h' : WF m L (t ++ (a, v) :: ys) := by simpa using h
    rw [backOf_concat]
    exact getNext_eq h'.node_get

/-- The last node of an open chain. -/
theorem Linked.last_get {m : Memory α} {c : List (Nat × Option α)} {A : Nat × Option α}
    {p q : Ptr} (hl : Linked m p (c ++ [A]) q) : m.get A.1 = some ⟨q, lastOf c p, A.2⟩ := by
  rw [Linked.append, Linked_cons] at hl
  exact hl.2.1

/-- Hanging a new node behind the last node of an open chain, as the loops of
the constructors do. -/
theorem append_chain {m : Memory α} (d : α) (c : List (Nat × Option α)) (A : Nat × Option α)
    (hl : Linked m none (c ++ [A]) none) (hnd : ((c ++ [A]).map Prod.fst).Nodup)
    (hav : 0 < m.avail) :
    ∃ m1 m2, m.new ⟨none, some A.1, some d⟩ = .ok (m.cells.length, m1)
      ∧ setNext m1 (some A.1) (some m.cells.length) = .ok m2
      ∧ Linked m2 none (c ++ [A] ++ [(m.cells.length, some d)]) none
      ∧ m2.cells.length = m.cells.length + 1 ∧ m2.avail = m.avail - 1
      ∧ ∀ x, x ≠ A.1 → x ≠ m.cells.length → m2.get x = m.get x := by
  have hA := hl.last_get
  have hAlt := get_lt hA
  have hlt := Linked.addrs_live hl
  obtain ⟨m1, e1, len1, av1, g1⟩ := new_spec (⟨none, some A.1, some d⟩ : Node α) hav
  have hA1 : m1.get A.1 = some ⟨none, lastOf c none, A.2⟩ := by
    rw [g1, if_neg (by omega), hA]
  obtain ⟨m2, e2, len2, av2, g2⟩ := setNext_spec (some m.cells.length) hA1
  refine ⟨m1, m2, e1, e2, ?_, by omega, by omega, ?_⟩
  · rw [Linked.append] at hl
    simp only [List.map_append, List.map_cons, List.map_nil, List.nodup_append] at hnd
    have hdis := hnd.2.2
    rw [List.append_assoc, Linked.append]
    refine ⟨Linked.congr (fun x hx => ?_) hl.1, ?_, ?_, trivial⟩
    · have h1 : x ≠ A.1 := fun e => hdis hx (by simp [e])
      have h3 : x < m.cells.length := hlt x (by simp at hx ⊢; exact Or.inl hx)
      rw [g2, if_neg h1, g1, if_neg (by omega)]
    · show m2.get A.1 = _
      rw [g2, if_pos rfl]; rfl
    · show m2.get m.cells.length = _
      rw [g2, if_neg (by omega), g1, if_pos rfl]; rfl
  · intro x h1 h2
    rw [g2, if_neg h1, g1, if_neg h2]

theorem lastOf_append_real (c : List (Nat × Option α)) (ds : List (Nat × α)) (d : Nat × α)
    (p : Ptr) : lastOf (c ++ realEntries (ds ++ [d])) p = some d.1 := by
  simp [lastOf, realEntries]

/-- The loop of the copy constructor: it walks the source `S` from the position
in front of `ys` and hangs a copy of each node of `ys` behind the open chain
`c ++ [A]`, at the addresses `new` hands out. -/
theorem copyLoop_spec {S : LinkedList} :
    ∀ (ys xs : List (Nat × α)) (m : Memory α) (c : List (Nat × Option α))
      (A : Nat × Option α),
      WF m S (xs ++ ys) → Linked m none (c ++ [A]) none →
      ((c ++ [A]).map Prod.fst).Nodup →
      (∀ x ∈ (c ++ [A]).map Prod.fst, x ∉ addrsOf S (xs ++ ys)) →
      ys.length ≤ m.avail →
      ∃ m' ds, copyLoop ys.length m (some (backOf S xs)) (some A.1) =
            .ok (m', lastOf (c ++ [A] ++ realEntries ds) none)
        ∧ elems ds = elems ys
        ∧ ds.map Prod.fst = List.range' m.cells.length ys.length
        ∧ Linked m' none (c ++ [A] ++ realEntries ds) none
        ∧ m'.cells.length = m.cells.length + ys.length
        ∧ m'.avail = m.avail - ys.length
        ∧ ∀ x, x < m.cells.length → x ≠ A.1 → m'.get x = m.get x
  | [], xs, m, c, A, _, hl, _, _, _ => by
    refine ⟨m, [], ?_, rfl, rfl, by simpa using hl, rfl, rfl, fun _ _ _ => rfl⟩
    simp [copyLoop, lastOf, pure, Except.pure]
  | (a, v) :: ys, xs, m, c, A, hS, hl, hnd, hdis, hav => by
    simp only [List.length_cons] at hav
    have hnext := hS.next_backOf
    have hdata : getData m (some a) = .ok v := getData_eq hS.node_get
    obtain ⟨m1, m2, e1, e2, hl2, len2, av2, fr2⟩ := append_chain v c A hl hnd (by omega)
    have hlt := Linked.addrs_live hl
    have hSlt := hS.addrs_lt
    have hS2 : WF m2 S ((xs ++ [(a, v)]) ++ ys) := by
      have : WF m2 S (xs ++ (a, v) :: ys) := by
        refine hS.frame (fun x hx => fr2 x (fun e => ?_) ?_) (by have := hS.2.2.2; omega)
        · exact hdis A.1 (by simp) (e ▸ hx)
        · have := hSlt x hx; omega
      simpa using this
    have hnd2 : (((c ++ [A]) ++ [(m.cells.length, some v)]).map Prod.fst).Nodup := by
      rw [List.map_append, List.nodup_append]
      refine ⟨hnd, by simp, ?_⟩
      intro x hx hx'
      simp only [List.map_cons, List.map_nil, List.mem_singleton] at hx'
      have := hlt x hx
      omega
    have hdis2 : ∀ x ∈ (((c ++ [A]) ++ [(m.cells.length, some v)]).map Prod.fst),
        x ∉ addrsOf S ((xs ++ [(a, v)]) ++ ys) := by
      intro x hx hx'
      have hx'' : x ∈ addrsOf S (xs ++ (a, v) :: ys) := by simpa using hx'
      rw [List.map_append, List.mem_append] at hx
      rcases hx with hx | hx
      · exact hdis x hx hx''
      · simp only [List.map_cons, List.map_nil, List.mem_singleton] at hx
        have := hSlt x hx''
        omega
    obtain ⟨m', ds, e, hel, hfst, hl', len', av', fr'⟩ :=
      copyLoop_spec ys (xs ++ [(a, v)]) m2 (c ++ [A]) (m.cells.length, some v) hS2 hl2 hnd2
        hdis2 (by omega)
    rw [backOf_concat] at e
    refine ⟨m', (m.cells.length, v) :: ds, ?_, ?_, ?_, ?_, ?_, ?_, ?_⟩
    · simp only [copyLoop, List.length_cons, hnext, posOf, bind, Except.bind, hdata, e1, e2, e]
      simp [realEntries_cons, List.append_assoc]
    · simp [elems] at hel ⊢; exact hel
    · simp only [List.map_cons, List.length_cons, hfst, len2]
      rfl
    · simpa [realEntries_cons, List.append_assoc] using hl'
    · simp only [List.length_cons]; omega
    · simp only [List.length_cons]; omega
    · intro x h1 h2
      rw [fr' x (by omega) (by simp; omega), fr2 x h2 (by omega)]

/-- Linking the tail sentinel behind the last node of an open chain:
`tail.prev = curr; curr->next = &tail`. -/
theorem close_chain {m : Memory α} (c : List (Nat × Option α)) (A : Nat × Option α) (tl : Nat)
    (hl : Linked m none (c ++ [A]) none) (hnd : ((c ++ [A]).map Prod.fst).Nodup)
    (htl : m.get tl = some ⟨none, none, none⟩) (hne : tl ∉ (c ++ [A]).map Prod.fst) :
    ∃ m1 m2, setPrev m (some tl) (some A.1) = .ok m1
      ∧ setNext m1 (some A.1) (some tl) = .ok m2
      ∧ Linked m2 none (c ++ [A] ++ [(tl, none)]) none
      ∧ m2.cells.length = m.cells.length ∧ m2.avail = m.avail
      ∧ ∀ x, x ≠ A.1 → x ≠ tl → m2.get x = m.get x := by
  have hA := hl.last_get
  have hAtl : A.1 ≠ tl := fun e => hne (by simp [← e])
  obtain ⟨m1, e1, len1, av1, g1⟩ := setPrev_spec (some A.1) htl
  have hA1 : m1.get A.1 = some ⟨none, lastOf c none, A.2⟩ := by
    rw [g1, if_neg hAtl, hA]
  obtain ⟨m2, e2, len2, av2, g2⟩ := setNext_spec (some tl) hA1
  refine ⟨m1, m2, e1, e2, ?_, by omega, by omega, ?_⟩
  · rw [Linked.append] at hl
    simp only [List.map_append, List.map_cons, List.map_nil, List.nodup_append] at hnd
    have hdis := hnd.2.2
    rw [List.append_assoc, Linked.append]
    refine ⟨Linked.congr (fun x hx => ?_) hl.1, ?_, ?_, trivial⟩
    · have h1 : x ≠ A.1 := fun e => hdis hx (by simp [e])
      have h2 : x ≠ tl := fun e => hne (by simp [← e, hx])
      rw [g2, if_neg h1, g1, if_neg h2]
    · show m2.get A.1 = _
      rw [g2, if_pos rfl]; rfl
    · show m2.get tl = _
      rw [g2, if_neg (Ne.symm hAtl), g1, if_pos rfl]; rfl
  · intro x h1 h2
    rw [g2, if_neg h1, g1, if_neg h2]

theorem lastOf_head_real (hd : Nat) (ds : List (Nat × α)) :
    ∃ c A, ([((hd, none) : Nat × Option α)] ++ realEntries ds) = c ++ [A] ∧
      lastOf ([((hd, none) : Nat × Option α)] ++ realEntries ds) none = some A.1 := by
  obtain ⟨c, A, h⟩ := cons_eq_concat ((hd, none) : Nat × Option α) (realEntries ds)
  refine ⟨c, A, h, ?_⟩
  rw [List.singleton_append, h, lastOf_concat]

/-- The copy constructor on fresh storage `hd`, `tl`: the new list holds copies
of the elements of the source in new nodes, and the source is as before. -/
theorem List_copy_WF {m : Memory α} {S : LinkedList} {ns : List (Nat × α)} {hd tl : Nat}
    (hS : WF m S ns) (hne : hd ≠ tl) (hhd : hd < m.cells.length) (htl : tl < m.cells.length)
    (hhdS : hd ∉ addrsOf S ns) (htlS : tl ∉ addrsOf S ns) (hav : ns.length ≤ m.avail) :
    ∃ m' cs, List_copy m hd tl S = .ok (m', ⟨hd, tl, S.size⟩)
      ∧ WF m' ⟨hd, tl, S.size⟩ cs ∧ elems cs = elems ns ∧ WF m' S ns
      ∧ cs.map Prod.fst = List.range' m.cells.length ns.length
      ∧ m'.cells.length = m.cells.length + ns.length ∧ m'.avail = m.avail - ns.length
      ∧ ∀ x, x < m.cells.length → x ≠ hd → x ≠ tl → m'.get x = m.get x := by
  obtain ⟨l0, a0, g0⟩ := initSentinels_spec m hhd htl
  have hSlt := hS.addrs_lt
  have hS0 : WF (initSentinels m hd tl) S ([] ++ ns) := by
    refine hS.frame (fun x hx => ?_) (by have := hS.2.2.2; omega)
    have h1 : x ≠ hd := fun e => hhdS (e ▸ hx)
    have h2 : x ≠ tl := fun e => htlS (e ▸ hx)
    rw [g0, if_neg h2, if_neg h1]
  have hl0 : Linked (initSentinels m hd tl) none ([] ++ [((hd, none) : Nat × Option α)]) none := by
    refine ⟨?_, trivial⟩
    show (initSentinels m hd tl).get hd = _
    rw [g0, if_neg hne, if_pos rfl]; rfl
  obtain ⟨m1, ds, e1, hel, hfst, hl1, len1, av1, fr1⟩ :=
    copyLoop_spec ns [] (initSentinels m hd tl) [] (hd, none) hS0 hl0 (by simp)
      (by simpa using hhdS) (by omega)
  have hsz : S.size = ns.length := hS.2.2.1
  obtain ⟨c, A, hcA, hlast⟩ := lastOf_head_real hd ds
  simp only [List.nil_append] at hl1 e1
  rw [hlast] at e1
  rw [hcA] at hl1
  have hdslt : ∀ x ∈ ds.map Prod.fst, m.cells.length ≤ x := by
    intro x hx
    rw [hfst, l0] at hx
    exact (List.mem_range'_1.1 hx).1
  have hnd1 : ((c ++ [A]).map Prod.fst).Nodup := by
    rw [← hcA]
    simp only [List.singleton_append, List.map_cons, realEntries_fst, List.nodup_cons]
    refine ⟨fun hx => ?_, ?_⟩
    · have := hdslt hd hx; omega
    · rw [hfst]; exact List.nodup_range' _ _
  have htl1 : m1.get tl = some ⟨none, none, none⟩ := by
    rw [fr1 tl (by omega) (Ne.symm hne), g0, if_pos rfl]
  have htlc : tl ∉ (c ++ [A]).map Prod.fst := by
    rw [← hcA]
    simp only [List.singleton_append, List.map_cons, realEntries_fst, List.mem_cons, not_or]
    refine ⟨Ne.symm hne, fun hx => ?_⟩
    have := hdslt tl hx; omega
  obtain ⟨m2, m3, e2, e3, hl3, len3, av3, fr3⟩ := close_chain c A tl hl1 hnd1 htl1 htlc
  have hAmem : A.1 = hd ∨ m.cells.length ≤ A.1 := by
    have : A.1 ∈ (c ++ [A]).map Prod.fst := by simp
    rw [← hcA] at this
    simp only [List.singleton_append, List.map_cons, realEntries_fst, List.mem_cons] at this
    rcases this with h | h
    · exact Or.inl h
    · exact Or.inr (hdslt _ h)
  have hframe : ∀ x, x < m.cells.length → x ≠ hd → x ≠ tl → m3.get x = m.get x := by
    intro x h1 h2 h3
    have hxA : x ≠ A.1 := by rcases hAmem with h | h <;> omega
    rw [fr3 x hxA h3, fr1 x (by omega) h2, g0, if_neg h3, if_neg h2]
  have hmem : m3.cells.length + m3.avail ≤ 2 ^ SIZE_BITS := by
    have := hS.2.2.2; omega
  refine ⟨m3, ds, ?_, ⟨?_, ?_, ?_, hmem⟩, hel, ?_, ?_, by omega, by omega, hframe⟩
  · simp only [List_copy, hsz, backOf, List.getLast?_nil] at e1 ⊢
    simp only [bind, Except.bind, e1, e2, e3, pure, Except.pure]
  · show Linked m3 none ((hd, none) :: (realEntries ds ++ [(tl, none)])) none
    have : ((hd, none) : Nat × Option α) :: (realEntries ds ++ [(tl, none)]) =
        ([(hd, none)] ++ realEntries ds) ++ [(tl, none)] := by simp
    rw [this, hcA]; exact hl3
  · simp only [addrsOf_eq, List.nodup_cons, List.mem_append, List.mem_singleton, not_or]
    refine ⟨⟨fun hx => ?_, hne⟩, ?_⟩
    · have := hdslt hd hx; omega
    · rw [List.nodup_append]
      refine ⟨by rw [hfst]; exact List.nodup_range' _ _, by simp, ?_⟩
      intro x hx hx'
      simp only [List.mem_singleton] at hx'
      have := hdslt x hx; omega
  · have h1 : ds.length = ns.length := by
      have := congrArg List.length hel
      simpa [elems] using this
    simp [hsz, h1]
  · refine hS.frame (fun x hx => hframe x (hSlt x hx) (fun e => hhdS (e ▸ hx))
      (fun e => htlS (e ▸ hx))) hmem
  · rw [hfst, l0]

/-- Changing `prev` of the first node of a chain. -/
theorem Linked.set_first {m m' : Memory α} {x : Nat × Option α} {rest : List (Nat × Option α)}
    {p q : Ptr} (p' : Ptr) (hl : Linked m p (x :: rest) q) (hx : x.1 ∉ rest.map Prod.fst)
    (hg : ∀ b, m'.get b = if b = x.1 then some ⟨nextOf rest q, p', x.2⟩ else m.get b) :
    Linked m' p' (x :: rest) q := by
  refine ⟨by rw [hg, if_pos rfl], Linked.congr (fun b hb => ?_) hl.2⟩
  rw [hg, if_neg (fun (e : b = x.1) => hx (e ▸ hb))]

/-- Changing `next` of the last node of a chain. -/
theorem Linked.set_last {m m' : Memory α} {x : Nat × Option α} {c : List (Nat × Option α)}
    {p q : Ptr} (q' : Ptr) (hl : Linked m p (c ++ [x]) q) (hx : x.1 ∉ c.map Prod.fst)
    (hg : ∀ b, m'.get b = if b = x.1 then some ⟨q', lastOf c p, x.2⟩ else m.get b) :
    Linked m' p (c ++ [x]) q' := by
  rw [Linked.append] at hl ⊢
  refine ⟨Linked.congr (fun b hb => ?_) hl.1, ?_, trivial⟩
  · rw [hg, if_neg (fun (e : b = x.1) => hx (e ▸ hb))]
  · show m'.get x.1 = _
    rw [hg, if_pos rfl]; rfl

/-- The real nodes of a well-formed list form a chain between its sentinels. -/
theorem WF.real_chain {m : Memory α} {L : LinkedList} {ns : List (Nat × α)} (h : WF m L ns) :
    Linked m (some L.head) (realEntries ns) (some L.tail) := by
  have hl := h.1
  have hc : chainOf L ns = [(L.head, none)] ++ (realEntries ns ++ [(L.tail, none)]) := rfl
  rw [hc, Linked.append, Linked.append] at hl
  exact hl.2.1

/-- Assembling a well-formed list from its sentinels and the chain of its real nodes. -/
theorem WF.of_parts {m : Memory α} {L : LinkedList} {ns : List (Nat × α)}
    (hh : m.get L.head = some ⟨some (posOf L ns), none, none⟩)
    (hr : Linked m (some L.head) (realEntries ns) (some L.tail))
    (ht : m.get L.tail = some ⟨none, some (backOf L ns), none⟩)
    (hnd : (addrsOf L ns).Nodup) (hsz : L.size = ns.length)
    (hmem : m.cells.length + m.avail ≤ 2 ^ SIZE_BITS) : WF m L ns := by
  refine ⟨?_, hnd, hsz, hmem⟩
  have hc : chainOf L ns = [(L.head, none)] ++ (realEntries ns ++ [(L.tail, none)]) := rfl
  rw [hc, Linked.append, Linked.append]
  refine ⟨⟨?_, trivial⟩, hr, ?_, trivial⟩
  · show m.get L.head = _
    rw [hh, nextOf_append]
    cases ns <;> rfl
  · show m.get L.tail = _
    rw [ht]
    have : lastOf (realEntries ns) (lastOf [((L.head, none) : Nat × Option α)] none) =
        some (backOf L ns) := by
      have e1 : lastOf [((L.head, none) : Nat × Option α)] none = some L.head := rfl
      rw [e1, ← lastOf_real L ns none, lastOf_cons]
    rw [this]; rfl

/-- The move constructor on fresh storage `hd`, `tl`: the new list takes over
the real nodes of the source and the source becomes empty. -/
theorem List_move_WF {m : Memory α} {S : LinkedList} {ns : List (Nat × α)} {hd tl : Nat}
    (hS : WF m S ns) (hne : hd ≠ tl) (hhd : hd < m.cells.length) (htl : tl < m.cells.length)
    (hhdS : hd ∉ addrsOf S ns) (htlS : tl ∉ addrsOf S ns) :
    ∃ m', List_move m hd tl S = .ok (m', ⟨hd, tl, S.size⟩, { S with size := 0 })
      ∧ WF m' ⟨hd, tl, S.size⟩ ns ∧ WF m' { S with size := 0 } []
      ∧ m'.cells.length = m.cells.length ∧ m'.avail = m.avail
      ∧ ∀ x, x ∉ addrsOf S ns → x ≠ hd → x ≠ tl → m'.get x = m.get x := by
  obtain ⟨l0, a0, g0⟩ := initSentinels_spec m hhd htl
  have hsz : S.size = ns.length := hS.2.2.1
  have hmem := hS.2.2.2
  have hHT := hS.head_ne_tail
  have hhdH : hd ≠ S.head := fun e => hhdS (by simp [addrsOf_eq, e])
  have hhdT : hd ≠ S.tail := fun e => hhdS (by simp [addrsOf_eq, e])
  have htlH : tl ≠ S.head := fun e => htlS (by simp [addrsOf_eq, e])
  have htlT : tl ≠ S.tail := fun e => htlS (by simp [addrsOf_eq, e])
  have hH0 : (initSentinels m hd tl).get hd = some ⟨none, none, none⟩ := by
    rw [g0, if_neg hne, if_pos rfl]
  rcases List.eq_nil_or_concat ns with rfl | ⟨ini, y, hy⟩
  · -- the source is empty
    have hs0 : S.size = 0 := by simpa using hsz
    obtain ⟨m1, e1, l1, a1, g1⟩ := setNext_spec (some tl) hH0
    have hT : m1.get tl = some ⟨none, none, none⟩ := by
      rw [g1, if_neg (Ne.symm hne), g0, if_pos rfl]
    obtain ⟨m2, e2, l2, a2, g2⟩ := setPrev_spec (some hd) hT
    have hSeq : ({ S with size := 0 } : LinkedList) = S := by cases S; simp at hs0 ⊢; omega
    have hfr : ∀ x, x ≠ hd → x ≠ tl → m2.get x = m.get x := by
      intro x h1 h2
      rw [g2, if_neg h2, g1, if_neg h1, g0, if_neg h2, if_neg h1]
    refine ⟨m2, ?_, ⟨?_, ?_, hs0, by omega⟩, ?_, by omega, by omega, fun x _ => hfr x⟩
    · simp only [List_move, hs0, if_true, bind, Except.bind, e1, e2, pure, Except.pure, hSeq]
    · show Linked m2 none [(hd, none), (tl, none)] none
      refine ⟨?_, ?_, trivial⟩
      · show m2.get hd = _
        rw [g2, if_neg hne, g1, if_pos rfl]; rfl
      · show m2.get tl = _
        rw [g2, if_pos rfl]; rfl
    · simp [addrsOf_eq, hne]
    · rw [hSeq]
      refine hS.frame (fun x hx => hfr x (fun e => hhdS (e ▸ hx)) (fun e => htlS (e ▸ hx)))
        (by omega)
  · -- the source has a first node `a` and a last node `b`
    rw [List.concat_eq_append] at hy
    obtain ⟨b, w⟩ := y
    obtain ⟨⟨a, v⟩, rest, hcons⟩ : ∃ x rest, ns = x :: rest := by
      cases ns with
      | nil => simp at hy
      | cons x rest => exact ⟨x, rest, rfl⟩
    have hs0 : S.size ≠ 0 := by rw [hsz, hy]; simp
    have hSa : WF m S ([] ++ (a, v) :: rest) := by rw [← hcons]; exact hS
    have hSb : WF m S (ini ++ (b, w) :: []) := by rw [← hy]; exact hS
    have haS : a ∈ addrsOf S ns := by rw [hcons]; simp [addrsOf_eq]
    have hbS : b ∈ addrsOf S ns := by rw [hy]; simp [addrsOf_eq]
    have hahd : a ≠ hd := fun e => hhdS (e ▸ haS)
    have hatl : a ≠ tl := fun e => htlS (e ▸ haS)
    have hbhd : b ≠ hd := fun e => hhdS (e ▸ hbS)
    have hbtl : b ≠ tl := fun e => htlS (e ▸ hbS)
    have haH : a ≠ S.head := hSa.node_ne_head
    have haT : a ≠ S.tail := hSa.node_ne_tail
    have hbH : b ≠ S.head := hSb.node_ne_head
    have hbT : b ≠ S.tail := hSb.node_ne_tail
    have hbegin : posOf S ns = a := by rw [hcons]; rfl
    have hback : backOf S ns = b := by rw [hy, backOf_concat]
    have hHg := hS.head_get
    have hTg := hS.tail_get
    rw [hbegin] at hHg
    rw [hback] at hTg
    have hag := hSa.node_get
    have hbg := hSb.node_get
    simp only [backOf, List.getLast?_nil] at hag
    simp only [posOf] at hbg
    -- the steps of the constructor
    have hSH0 : (initSentinels m hd tl).get S.head = some ⟨some a, none, none⟩ := by
      rw [g0, if_neg (Ne.symm htlH), if_neg (Ne.symm hhdH), hHg]
    obtain ⟨m1, e1, l1, a1, g1⟩ := setNext_spec (some a) hH0
    have hST1 : m1.get S.tail = some ⟨none, some b, none⟩ := by
      rw [g1, if_neg (Ne.symm hhdT), g0, if_neg (Ne.symm htlT), if_neg (Ne.symm hhdT), hTg]
    have hT1 : m1.get tl = some ⟨none, none, none⟩ := by
      rw [g1, if_neg (Ne.symm hne), g0, if_pos rfl]
    obtain ⟨m2, e2, l2, a2, g2⟩ := setPrev_spec (some b) hT1
    have hH2 : m2.get hd = some ⟨some a, none, none⟩ := by
      rw [g2, if_neg hne, g1, if_pos rfl]
    have g2' : ∀ x, x ≠ hd → x ≠ tl → m2.get x = m.get x := by
      intro x h1 h2
      rw [g2, if_neg h2, g1, if_neg h1, g0, if_neg h2, if_neg h1]
    have ha2 : m2.get a = some ⟨some (posOf S rest), some S.head, some v⟩ := by
      rw [g2' a hahd hatl, hag]
    obtain ⟨m3, e3, l3, a3, g3⟩ := setPrev_spec (some hd) ha2
    have hT3 : m3.get tl = some ⟨none, some b, none⟩ := by
      rw [g3, if_neg (Ne.symm hatl), g2, if_pos rfl]
    -- the chain of real nodes, first relinked to `hd`
    have hr2 : Linked m2 (some S.head) (realEntries ns) (some S.tail) :=
      Linked.congr (fun x hx => g2' x
        (fun e => hhdS (by rw [addrsOf_eq]; simp at hx ⊢; exact Or.inr (Or.inl (e ▸ hx))))
        (fun e => htlS (by rw [addrsOf_eq]; simp at hx ⊢; exact Or.inr (Or.inl (e ▸ hx)))))
        hS.real_chain
    have hndS := hS.2.1
    rw [addrsOf_eq, List.nodup_cons, List.nodup_append] at hndS
    have hndr : (ns.map Prod.fst).Nodup := hndS.2.1
    have hr3 : Linked m3 (some hd) (realEntries ns) (some S.tail) := by
      rw [hcons] at hr2 hndr ⊢
      simp only [realEntries_cons, List.map_cons, List.nodup_cons] at hr2 hndr ⊢
      refine Linked.set_first (some hd) hr2 (by simpa using hndr.1) (fun x => ?_)
      rw [g3]
      have : nextOf (realEntries rest) (some S.tail) = some (posOf S rest) := by
        cases rest <;> rfl
      simp only [this]
    have hb3 : m3.get b = some ⟨some S.tail, lastOf (realEntries ini) (some hd), some w⟩ := by
      have := hr3
      rw [hy, realEntries_append] at this
      exact this.last_get
    obtain ⟨m4, e4, l4, a4, g4⟩ := setNext_spec (some tl) hb3
    have hr4 : Linked m4 (some hd) (realEntries ns) (some tl) := by
      rw [hy, realEntries_append] at hr3 ⊢
      rw [hy] at hndr
      simp only [List.map_append, List.map_cons, List.map_nil, List.nodup_append] at hndr
      refine Linked.set_last (some tl) hr3 (fun hx => hndr.2.2 (by simpa using hx) (by simp)) g4
    have hSH4 : m4.get S.head = some ⟨some a, none, none⟩ := by
      rw [g4, if_neg (Ne.symm hbH), g3, if_neg (Ne.symm haH), g2' _ (Ne.symm hhdH) (Ne.symm htlH),
        hHg]
    obtain ⟨m5, e5, l5, a5, g5⟩ := setNext_spec (some S.tail) hSH4
    have hST5 : m5.get S.tail = some ⟨none, some b, none⟩ := by
      rw [g5, if_neg (Ne.symm hHT), g4, if_neg (Ne.symm hbT), g3, if_neg (Ne.symm haT),
        g2' _ (Ne.symm hhdT) (Ne.symm htlT), hTg]
    obtain ⟨m6, e6, l6, a6, g6⟩ := setPrev_spec (some S.head) hST5
    have g64 : ∀ x, x ≠ S.head → x ≠ S.tail → m6.get x = m4.get x := by
      intro x h1 h2
      rw [g6, if_neg h2, g5, if_neg h1]
    have hn1 : getNext (initSentinels m hd tl) (some S.head) = .ok (some a) := getNext_eq hSH0
    have hn2 : getPrev m1 (some S.tail) = .ok (some b) := getPrev_eq hST1
    have hn3 : getNext m2 (some hd) = .ok (some a) := getNext_eq hH2
    have hn4 : getPrev m3 (some tl) = .ok (some b) := getPrev_eq hT3
    refine ⟨m6, ?_, ?_, ?_, by omega, by omega, ?_⟩
    · simp only [List_move, hs0, if_false, bind, Except.bind, hn1, e1, hn2, e2, hn3, e3, hn4, e4,
        e5, e6, pure, Except.pure]
    · refine WF.of_parts ?_ ?_ ?_ ?_ hsz (by omega)
      · show m6.get hd = _
        have hb' : posOf (⟨hd, tl, S.size⟩ : LinkedList) ns = a := by rw [hcons]; rfl
        rw [hb', g64 _ hhdH hhdT, g4, if_neg (Ne.symm hbhd), g3, if_neg (Ne.symm hahd), hH2]
      · exact Linked.congr (fun x hx => g64 x
          (fun e => hndS.1 (by simp at hx ⊢; exact Or.inl (e ▸ hx)))
          (fun e => hndS.2.2.2 (by simpa using hx) (by simp [e]))) hr4
      · show m6.get tl = _
        have hb' : backOf (⟨hd, tl, S.size⟩ : LinkedList) ns = b := by
          rw [hy, backOf_concat]
        rw [hb', g64 _ htlH htlT, g4, if_neg (Ne.symm hbtl), hT3]
      · rw [addrsOf_eq, List.nodup_cons, List.nodup_append]
        refine ⟨?_, hndr, by simp, ?_⟩
        · simp only [List.mem_append, List.mem_singleton, not_or]
          exact ⟨fun hx => hhdS (by rw [addrsOf_eq]; simp at hx ⊢; exact Or.inr (Or.inl hx)), hne⟩
        · intro x hx hx'
          simp only [List.mem_singleton] at hx'
          exact htlS (by rw [addrsOf_eq]; simp at hx ⊢; exact Or.inr (Or.inl (hx' ▸ hx)))
    · refine ⟨?_, by simp [addrsOf_eq, hHT], rfl, by omega⟩
      show Linked m6 none [(S.head, none), (S.tail, none)] none
      refine ⟨?_, ?_, trivial⟩
      · show m6.get S.head = _
        rw [g6, if_neg hHT, g5, if_pos rfl]; rfl
      · show m6.get S.tail = _
        rw [g6, if_pos rfl]; rfl
    · intro x hx h1 h2
      have hxa : x ≠ a := fun e => hx (e ▸ haS)
      have hxb : x ≠ b := fun e => hx (e ▸ hbS)
      have hxH : x ≠ S.head := fun e => hx (by simp [addrsOf_eq, e])
      have hxT : x ≠ S.tail := fun e => hx (by simp [addrsOf_eq, e])
      rw [g64 x hxH hxT, g4, if_neg hxb, g3, if_neg hxa, g2' x h1 h2]

theorem split_at_node {ns : List (Nat × α)} {pos : Nat} (h : pos ∈ ns.map Prod.fst) :
    ∃ xs v ys, ns = xs ++ (pos, v) :: ys := by
  obtain ⟨⟨a, v⟩, hmem, rfl⟩ := List.mem_map.1 h
  obtain ⟨s, t, hst⟩ := List.append_of_mem hmem
  exact ⟨s, v, t, hst⟩

theorem split_at_pos {L : LinkedList} {ns : List (Nat × α)} {pos : Nat}
    (h : pos ∈ ns.map Prod.fst ∨ pos = L.tail) : ∃ xs ys, ns = xs ++ ys ∧ pos = posOf L ys := by
  rcases h with h | h
  · obtain ⟨xs, v, ys, e⟩ := split_at_node h
    exact ⟨xs, (pos, v) :: ys, e, rfl⟩
  · exact ⟨ns, [], by simp, h⟩

theorem addrsOf_mono {L : LinkedList} {ns ns' : List (Nat × α)}
    (h : ∀ y ∈ ns', y ∈ ns) : ∀ x ∈ addrsOf L ns', x ∈ addrsOf L ns := by
  intro x hx
  simp only [addrsOf_eq, List.mem_cons, List.mem_append, List.mem_map,
    List.mem_singleton] at hx ⊢
  rcases hx with h1 | ⟨y, hy, h2⟩ | h3
  · exact Or.inl h1
  · exact Or.inr (Or.inl ⟨y, h y hy, h2⟩)
  · exact Or.inr (Or.inr h3)

/-- One changing call on a well-formed list either fails in `new` before
anything is written, or leaves the list well-formed, touching no cell outside
the list's own nodes and the cells `new` hands out. -/
theorem Mut.apply_step {m : Memory α} {L : LinkedList} {ns : List (Nat × α)} (op : Mut α)
    (h : WF m L ns) (hv : op.valid L ns) :
    op.apply m L = .error (.badAlloc, m) ∨
      ∃ m' L' ns', op.apply m L = .ok (m', L') ∧ WF m' L' ns'
        ∧ L'.head = L.head ∧ L'.tail = L.tail
        ∧ (∀ x ∈ addrsOf L' ns', x ∈ addrsOf L ns ∨ m.cells.length ≤ x)
        ∧ ∀ x, x ∉ addrsOf L ns → x < m.cells.length → m'.get x = m.get x := by
  have ins : ∀ (xs ys : List (Nat × α)) (v : α), ns = xs ++ ys →
      DLL.insert m L (some (posOf L ys)) v = .error (.badAlloc, m) ∨
      ∃ m', DLL.insert m L (some (posOf L ys)) v =
          .ok (m', { L with size := L.size + 1 }, some m.cells.length)
        ∧ WF m' { L with size := L.size + 1 } (xs ++ (m.cells.length, v) :: ys)
        ∧ ∀ x, x ∉ addrsOf L ns → x < m.cells.length → m'.get x = m.get x := by
    intro xs ys v e
    by_cases hav : 0 < m.avail
    · subst e
      obtain ⟨m', e', hw, _, _, fr⟩ := insert_WF xs ys v h hav
      exact Or.inr ⟨m', e', hw, fun x hx hlt => fr x hx (by omega)⟩
    · left
      have h0 : m.avail = 0 := by omega
      simp [DLL.insert, Memory.new, h0, bind, Except.bind]
  have insAddr : ∀ (xs ys : List (Nat × α)) (v : α), ns = xs ++ ys →
      ∀ x ∈ addrsOf ({ L with size := L.size + 1 } : LinkedList)
        (xs ++ (m.cells.length, v) :: ys), x ∈ addrsOf L ns ∨ m.cells.length ≤ x := by
    intro xs ys v e x hx
    have hx' : x ∈ addrsOf L (xs ++ (m.cells.length, v) :: ys) := hx
    rw [mem_addrsOf_insert] at hx'
    rcases hx' with rfl | hx'
    · right; omega
    · left; rw [e]; exact hx'
  have ers : ∀ (xs ys : List (Nat × α)) (a : Nat) (v : α), ns = xs ++ (a, v) :: ys →
      ∃ m', DLL.erase m L (some a) = .ok (m', { L with size := L.size - 1 }, some (posOf L ys))
        ∧ WF m' { L with size := L.size - 1 } (xs ++ ys)
        ∧ (∀ x ∈ addrsOf ({ L with size := L.size - 1 } : LinkedList) (xs ++ ys),
            x ∈ addrsOf L ns)
        ∧ ∀ x, x ∉ addrsOf L ns → m'.get x = m.get x := by
    intro xs ys a v e
    subst e
    obtain ⟨m', e', hw, _, _, _, fr⟩ := erase_WF xs ys a v h
    refine ⟨m', e', hw, ?_, fr⟩
    intro x hx
    have hx' : x ∈ addrsOf L (xs ++ ys) := hx
    rw [mem_addrsOf_insert]
    exact Or.inr hx'
  cases op with
  | insert pos v =>
    obtain ⟨xs, ys, e, hp⟩ := split_at_pos hv
    subst hp
    rcases ins xs ys v e with e1 | ⟨m', e1, hw, fr⟩
    · left
      simp only [Mut.apply, e1, bind, Except.bind]
    · right
      exact ⟨m', _, _, by simp only [Mut.apply, e1, bind, Except.bind, pure, Except.pure], hw,
        rfl, rfl, insAddr xs ys v e, fr⟩
  | erase pos =>
    obtain ⟨xs, v, ys, e⟩ := split_at_node hv
    obtain ⟨m', e1, hw, hsub, fr⟩ := ers xs ys pos v e
    right
    exact ⟨m', _, _, by simp only [Mut.apply, e1, bind, Except.bind, pure, Except.pure], hw,
      rfl, rfl, fun x hx => Or.inl (hsub x hx), fun x hx _ => fr x hx⟩
  | write pos w =>
    obtain ⟨xs, v, ys, e⟩ := split_at_node hv
    subst e
    obtain ⟨m', e1, hw, _, _, fr⟩ := write_WF xs ys pos v w h
    right
    refine ⟨m', L, _, by simp only [Mut.apply, e1, bind, Except.bind, pure, Except.pure], hw,
      rfl, rfl, fun x hx => Or.inl ?_, fun x hx _ => fr x (fun e => hx ?_)⟩
    · rw [mem_addrsOf_insert] at hx ⊢; exact hx
    · rw [mem_addrsOf_insert]; exact Or.inl e
  | op o =>
    cases o with
    | push_back v =>
      rcases ins ns [] v (by simp) with e1 | ⟨m', e1, hw, fr⟩
      · left
        simp only [posOf] at e1
        simp only [Mut.apply, Op.apply, DLL.push_back, end_, e1, bind, Except.bind]
      · right
        simp only [posOf] at e1
        exact ⟨m', _, _, by simp only [Mut.apply, Op.apply, DLL.push_back, end_, e1, bind,
          Except.bind, pure, Except.pure], hw, rfl, rfl, insAddr ns [] v (by simp), fr⟩
    | push_front v =>
      rcases ins [] ns v (by simp) with e1 | ⟨m', e1, hw, fr⟩
      · left
        simp only [Mut.apply, Op.apply, DLL.push_front, h.begin_eq, e1, bind, Except.bind]
      · right
        exact ⟨m', _, _, by simp only [Mut.apply, Op.apply, DLL.push_front, h.begin_eq, e1, bind,
          Except.bind, pure, Except.pure], hw, rfl, rfl, insAddr [] ns v (by simp), fr⟩
    | pop_back =>
      obtain ⟨m', e1, hw, _, _, fr⟩ := pop_back_WF ns h
      right
      exact ⟨m', _, _, e1, hw, rfl, rfl,
        fun x hx => Or.inl (addrsOf_mono (fun y hy => List.mem_of_mem_dropLast hy) x hx),
        fun x hx _ => fr x hx⟩
    | pop_front =>
      obtain ⟨m', e1, hw, _, _, fr⟩ := pop_front_WF ns h
      right
      exact ⟨m', _, _, e1, hw, rfl, rfl,
        fun x hx => Or.inl (addrsOf_mono (fun y hy => List.mem_of_mem_tail hy) x hx),
        fun x hx _ => fr x hx⟩

/-- A changing call on one of two well-formed lists that share no node leaves
the other list exactly as it was, and the two still share no node. -/
theorem Mut.apply_frame {m : Memory α} {A B : LinkedList} {as bs : List (Nat × α)} (op : Mut α)
    (hA : WF m A as) (hB : WF m B bs) (hdis : (addrsOf A as).Disjoint (addrsOf B bs))
    (hv : op.valid A as) :
    op.apply m A = .error (.badAlloc, m) ∨
      ∃ m' A' as', op.apply m A = .ok (m', A') ∧ WF m' A' as' ∧ WF m' B bs
        ∧ (addrsOf A' as').Disjoint (addrsOf B bs) := by
  rcases op.apply_step hA hv with e | ⟨m', A', as', e, hw, _, _, hsub, fr⟩
  · exact Or.inl e
  · refine Or.inr ⟨m', A', as', e, hw, ?_, ?_⟩
    · exact hB.frame (fun x hx => fr x (fun hx' => hdis hx' hx) (hB.addrs_lt x hx)) hw.2.2.2
    · intro x hx hx'
      rcases hsub x hx with h1 | h1
      · exact hdis h1 hx'
      · have := hB.addrs_lt x hx'; omega

/-! ## Main results -/

/-- C1: on a well-formed list with real nodes `xs ++ ys`, `insert` at the
position in front of `ys` (the first node of `ys`, or `end()` when `ys` is empty)
succeeds when `new` does, and yields the well-formed list `xs ++ (a, v) :: ys`
on a new node `a`: forward iteration gives the old sequence with `v` placed
immediately before the element at the position, `size()` grows by exactly 1,
and the returned iterator references the new node, whose dereference is `v`.
With `ys` empty the position is `end()` (append), with `xs` empty it is
`begin()` (prepend). -/
theorem insert_spec (m : Memory α) (L : LinkedList) (xs ys : List (Nat × α)) (v : α)
    (hwf : WF m L (xs ++ ys)) (hav : 0 < m.avail) :
    ∃ m' L' a, insert m L (some (posOf L ys)) v = .ok (m', L', some a)
      ∧ WF m' L' (xs ++ (a, v) :: ys)
      ∧ toSeq m L = .ok (elems xs ++ elems ys)
      ∧ toSeq m' L' = .ok (elems xs ++ v :: elems ys)
      ∧ size L' = size L + 1
      ∧ deref m' (some a) = .ok v
      ∧ (ys = [] → some (posOf L ys) = end_ L)
      ∧ (xs = [] → begin_ m L = .ok (some (posOf L ys))) := by
  obtain ⟨m', e, hw, _, _, _⟩ := insert_WF xs ys v hwf hav
  refine ⟨m', _, _, e, hw, ?_, ?_, rfl, getData_eq hw.node_get, ?_, ?_⟩
  · rw [hwf.toSeq_eq]; simp [elems]
  · rw [hw.toSeq_eq]; simp [elems]
  · rintro rfl; rfl
  · rintro rfl; exact hwf.begin_eq

/-- C2: on a well-formed list with real nodes `xs ++ (a, v) :: ys`, `erase` at
the real node `a` yields the well-formed list `xs ++ ys`: forward iteration
gives the old sequence with exactly that element removed and the others in
order, `size()` shrinks by exactly 1, the node is destroyed, and the returned
iterator references the node that followed it (`end()` when `ys` is empty). -/
theorem erase_spec (m : Memory α) (L : LinkedList) (xs ys : List (Nat × α)) (a : Nat) (v : α)
    (hwf : WF m L (xs ++ (a, v) :: ys)) :
    ∃ m' L', erase m L (some a) = .ok (m', L', some (posOf L ys))
      ∧ WF m' L' (xs ++ ys)
      ∧ toSeq m L = .ok (elems xs ++ v :: elems ys)
      ∧ toSeq m' L' = .ok (elems xs ++ elems ys)
      ∧ size L' + 1 = size L
      ∧ m'.get a = none
      ∧ (ys = [] → some (posOf L ys) = end_ L') := by
  obtain ⟨m', e, hw, _, _, dead, _⟩ := erase_WF xs ys a v hwf
  refine ⟨m', _, e, hw, ?_, ?_, ?_, dead, ?_⟩
  · rw [hwf.toSeq_eq]; simp [elems]
  · rw [hw.toSeq_eq]; simp [elems]
  · have := hwf.2.2.1
    simp only [List.length_append, List.length_cons] at this
    simp only [size]; omega
  · rintro rfl; rfl

/-- C3 (evaluation at the failing input): on the one-element list built by
`List<int> l; l.push_back(5);` the call `l.clear()` erases the node at `begin()`
and then, for `it++`, reads `next` of that destroyed node: the run stops with
the fault `deadNode`, in a memory where the sentinels are already linked to
each other and the node's cell is dead. -/
theorem clear_reads_destroyed_node :
    exClear = .error (.deadNode,
      ⟨[some ⟨some 1, none, none⟩, some ⟨none, some 0, none⟩, none], 3⟩) := by
  decide

/-- C4: run any finite sequence of `push_back`, `push_front`, `pop_back` and
`pop_front` calls on a default-constructed list.  The run can only stop early
at a failed `new`; whenever it completes, and it does complete when the
allocator can serve every call, forward iteration from `begin()` until `end()`
terminates, `size()` equals the number of nodes it visits, and `empty()` is true
iff that number is 0. -/
theorem push_pop_size (m : Memory α) (hd tl : Nat) (ops : List (Op α)) (hne : hd ≠ tl)
    (hhd : hd < m.cells.length) (htl : tl < m.cells.length)
    (hmem : m.cells.length + m.avail ≤ 2 ^ SIZE_BITS) :
    ∃ m0 L0, List_default m hd tl = .ok (m0, L0) ∧
      ((∃ mf, runOps ops m0 L0 = .error (.badAlloc, mf)) ∨
        ∃ m' L' vs, runOps ops m0 L0 = .ok (m', L') ∧ toSeq m' L' = .ok vs
          ∧ size L' = vs.length ∧ (empty L' = true ↔ vs.length = 0)) ∧
      (ops.length ≤ m.avail →
        ∃ m' L' vs, runOps ops m0 L0 = .ok (m', L') ∧ toSeq m' L' = .ok vs
          ∧ size L' = vs.length ∧ (empty L' = true ↔ vs.length = 0)) := by
  obtain ⟨m0, e0, hw0, _, hav0, _⟩ := List_default_WF m hne hhd htl hmem
  have key : ∀ {m' : Memory α} {L' : LinkedList} {ns' : List (Nat × α)}, WF m' L' ns' →
      toSeq m' L' = .ok (elems ns') ∧ size L' = (elems ns').length ∧
        (empty L' = true ↔ (elems ns').length = 0) := by
    intro m' L' ns' hw
    refine ⟨hw.toSeq_eq, by simp [size, elems, hw.2.2.1], ?_⟩
    rw [empty_iff hw]; simp [elems]
  refine ⟨m0, _, e0, ?_, ?_⟩
  · rcases runOps_total ops hw0 with h | ⟨m', L', ns', e, hw⟩
    · exact Or.inl h
    · exact Or.inr ⟨m', L', _, e, key hw⟩
  · intro hav
    obtain ⟨m', L', ns', e, hw⟩ := runOps_WF ops hw0 (by omega)
    exact ⟨m', L', _, e, key hw⟩

/-- C5 (evaluation at the failing input): after `Queue<int> a, b; b.push(1);`
the sizes differ (0 and 1) and yet `a == b` returns true, because the loop of
`operator==` runs over the left operand only and never compares the sizes;
with the operands swapped, `b == a` reads the payload of `a`'s tail sentinel.
The scenario of the specification does come out as stated: two queues built by
`push(1); push(2); push(3)` compare equal, and after `pop()` on either of them
they compare unequal, in both orders of the operands. -/
theorem queue_eq_ignores_size :
    (exQueues >>= fun s => Queue.eq s.1 s.2.1 s.2.2) = .ok true ∧
      exQueues.map (fun s => (Queue.size s.2.1, Queue.size s.2.2)) = .ok (0, 1) ∧
      faultOf (exQueues >>= fun s => Queue.eq s.1 s.2.2 s.2.1) = some .noPayload ∧
      (exQueues123 >>= fun s => Queue.eq s.1 s.2.1 s.2.2) = .ok true ∧
      (exQueues123 >>= fun s => Queue.pop s.1 s.2.1 >>= fun r => Queue.eq r.1 r.2 s.2.2) =
        .ok false ∧
      (exQueues123 >>= fun s => Queue.pop s.1 s.2.1 >>= fun r => Queue.eq r.1 s.2.2 r.2) =
        .ok false ∧
      (exQueues123 >>= fun s => Queue.pop s.1 s.2.2 >>= fun r => Queue.eq r.1 s.2.1 r.2) =
        .ok false ∧
      (exQueues123 >>= fun s => Queue.pop s.1 s.2.2 >>= fun r => Queue.eq r.1 r.2 s.2.1) =
        .ok false := by
  decide

/-- C6: the copy constructor, run on fresh storage `hd`, `tl` with a well-formed
source `S` and an allocator that can serve one node per element, yields a
well-formed list `C` with the size and the forward sequence of `S`, leaves `S`
as it was, and shares no node with `S`.  Afterwards any well-placed `insert`,
`erase`, push, pop or element write on `C` (unless it fails in `new` before
writing anything) leaves `S` with the same nodes, sequence and size, and any
such call on `S` leaves `C` so; the two lists still share no node afterwards,
so the same holds for every further call. -/
theorem copy_ctor_independent (m : Memory α) (S : LinkedList) (ns : List (Nat × α))
    (hd tl : Nat) (hS : WF m S ns) (hne : hd ≠ tl) (hhd : hd < m.cells.length)
    (htl : tl < m.cells.length) (hhdS : hd ∉ addrsOf S ns) (htlS : tl ∉ addrsOf S ns)
    (hav : ns.length ≤ m.avail) :
    ∃ m' C cs, List_copy m hd tl S = .ok (m', C) ∧ WF m' C cs ∧ WF m' S ns
      ∧ size C = size S ∧ toSeq m' C = .ok (elems ns) ∧ toSeq m S = .ok (elems ns)
      ∧ toSeq m' S = .ok (elems ns)
      ∧ (addrsOf C cs).Disjoint (addrsOf S ns)
      ∧ (∀ op : Mut α, op.valid C cs →
          op.apply m' C = .error (.badAlloc, m') ∨
          ∃ m'' C' cs', op.apply m' C = .ok (m'', C') ∧ WF m'' C' cs' ∧ WF m'' S ns
            ∧ toSeq m'' S = .ok (elems ns) ∧ (addrsOf C' cs').Disjoint (addrsOf S ns))
      ∧ (∀ op : Mut α, op.valid S ns →
          op.apply m' S = .error (.badAlloc, m') ∨
          ∃ m'' S' ns', op.apply m' S = .ok (m'', S') ∧ WF m'' S' ns' ∧ WF m'' C cs
            ∧ toSeq m'' C = .ok (elems ns) ∧ (addrsOf S' ns').Disjoint (addrsOf C cs)) := by
  obtain ⟨m', cs, e, hC, hel, hS', hfst, _, _, _⟩ :=
    List_copy_WF hS hne hhd htl hhdS htlS hav
  have hdis : (addrsOf (⟨hd, tl, S.size⟩ : LinkedList) cs).Disjoint (addrsOf S ns) := by
    intro x hx hx'
    have hlt := hS.addrs_lt x hx'
    rw [addrsOf_eq] at hx
    simp only [List.mem_cons, List.mem_append, List.mem_singleton, hfst] at hx
    rcases hx with h | h | h | h
    · exact hhdS (h ▸ hx')
    · have := (List.mem_range'_1.1 h).1; omega
    · exact htlS (h ▸ hx')
    · simp at h
  refine ⟨m', _, cs, e, hC, hS', rfl, ?_, hS.toSeq_eq, hS'.toSeq_eq, hdis, ?_, ?_⟩
  · rw [hC.toSeq_eq, hel]
  · intro op hv
    rcases op.apply_frame hC hS' hdis hv with h | ⟨m'', C', cs', e', hw, hw', hd'⟩
    · exact Or.inl h
    · exact Or.inr ⟨m'', C', cs', e', hw, hw', hw'.toSeq_eq, hd'⟩
  · intro op hv
    rcases op.apply_frame hS' hC (fun x hx hx' => hdis hx' hx) hv with
      h | ⟨m'', S', ns', e', hw, hw', hd'⟩
    · exact Or.inl h
    · exact Or.inr ⟨m'', S', ns', e', hw, hw', by rw [hw'.toSeq_eq, hel], hd'⟩

/-- C7: the move constructor, run on fresh storage `hd`, `tl` with a well-formed
source `S` (empty or not), yields a well-formed list `D` that holds the very
nodes `S` held, so its forward sequence and size are those `S` had; `S` is left
empty: size 0, `begin() == end()`, `head.next == tail` and `tail.prev == head`.
The first node of `D` has `prev == D.head` and its last node has
`next == D.tail`. -/
theorem move_ctor_spec (m : Memory α) (S : LinkedList) (ns : List (Nat × α))
    (hd tl : Nat) (hS : WF m S ns) (hne : hd ≠ tl) (hhd : hd < m.cells.length)
    (htl : tl < m.cells.length) (hhdS : hd ∉ addrsOf S ns) (htlS : tl ∉ addrsOf S ns) :
    ∃ m' D S', List_move m hd tl S = .ok (m', D, S')
      ∧ WF m' D ns ∧ toSeq m S = .ok (elems ns) ∧ toSeq m' D = .ok (elems ns)
      ∧ size D = size S
      ∧ S'.head = S.head ∧ S'.tail = S.tail
      ∧ WF m' S' [] ∧ size S' = 0 ∧ begin_ m' S' = .ok (end_ S')
      ∧ getNext m' (some S'.head) = .ok (some S'.tail)
      ∧ getPrev m' (some S'.tail) = .ok (some S'.head)
      ∧ (∀ a v rest, ns = (a, v) :: rest → getPrev m' (some a) = .ok (some D.head))
      ∧ (∀ ini b w, ns = ini ++ [(b, w)] → getNext m' (some b) = .ok (some D.tail)) := by
  obtain ⟨m', e, hD, hS', _, _, _⟩ := List_move_WF hS hne hhd htl hhdS htlS
  refine ⟨m', _, _, e, hD, hS.toSeq_eq, hD.toSeq_eq, rfl, rfl, rfl, hS', rfl, hS'.begin_eq,
    getNext_eq hS'.head_get, getPrev_eq hS'.tail_get, ?_, ?_⟩
  · rintro a v rest rfl
    have h' : WF m' (⟨hd, tl, S.size⟩ : LinkedList) ([] ++ (a, v) :: rest) := by simpa using hD
    exact getPrev_eq h'.node_get
  · rintro ini b w rfl
    exact getNext_eq hD.node_get

/-- C8 (evaluation at the failing input): after
`List<int> a, b; a.push_back(1); b.push_back(2);` the copy assignment `a = b`
first calls `a.clear()`, which erases the node of `a` and then reads `next` of
that destroyed node: the run stops with the fault `deadNode` and `a` never
receives the elements of `b`.  Self-assignment `a = a` returns at once. -/
theorem assign_copy_faults_on_nonempty :
    (exTwoLists >>= fun s => toSeq s.1 s.2.1) = .ok [1] ∧
      (exTwoLists >>= fun s => toSeq s.1 s.2.2) = .ok [2] ∧
      faultOf (exTwoLists >>= fun s => assign_copy s.1 s.2.1 s.2.2) = some .deadNode ∧
      (exTwoLists >>= fun s => assign_copy s.1 s.2.1 s.2.1) =
        exTwoLists.map (fun s => (s.1, s.2.1)) := by
  decide

/-- C9 (evaluation at the failing input): after `List<int> a, b; a.push_back(1);`
the move assignment `a = std::move(b)`, with `b` empty and `a` not, first calls
`a.clear()`, which erases the node of `a` and then reads `next` of that
destroyed node: the run stops with the fault `deadNode`.  In the other
direction, `b = std::move(a)` with `b` empty, the nodes of `a` move to `b`. -/
theorem assign_move_faults_on_nonempty :
    (exOneAndEmpty >>= fun s => toSeq s.1 s.2.1) = .ok [1] ∧
      (exOneAndEmpty >>= fun s => toSeq s.1 s.2.2) = .ok [] ∧
      faultOf (exOneAndEmpty >>= fun s => assign_move s.1 s.2.1 s.2.2) = some .deadNode ∧
      (exOneAndEmpty >>= fun s => (assign_move s.1 s.2.2 s.2.1).map
        (fun r => (r.2.1, r.2.2))) = .ok (⟨2, 3, 1⟩, ⟨0, 1, 0⟩) := by
  decide

/-- C10: on an empty well-formed list `pop_back()` and `pop_front()` return
normally with the memory and the list object exactly as they were (no node is
erased, no fault is raised), and `size() == 0`, `head.next == tail` and
`tail.prev == head` hold. -/
theorem pop_empty_noop (m : Memory α) (L : LinkedList) (hwf : WF m L []) :
    pop_back m L = .ok (m, L) ∧ pop_front m L = .ok (m, L) ∧ size L = 0
      ∧ getNext m (some L.head) = .ok (some L.tail)
      ∧ getPrev m (some L.tail) = .ok (some L.head) := by
  have hs : L.size = 0 := by simpa using hwf.2.2.1
  refine ⟨?_, ?_, hs, getNext_eq hwf.head_get, getPrev_eq hwf.tail_get⟩
  · simp [pop_back, empty, hs, pure, Except.pure]
  · simp [pop_front, empty, hs, pure, Except.pure]

/-- Instance of `insert_spec`: inserting 7 in front of the second node of `[10, 20]`. -/
theorem insert_spec_witness :
    WF exMem exList ([(4, 10)] ++ [(5, 20)]) ∧ 0 < exMem.avail ∧
      ∃ m' L' a, insert exMem exList (some 5) 7 = .ok (m', L', some a)
        ∧ toSeq exMem exList = .ok [10, 20] ∧ toSeq m' L' = .ok [10, 7, 20]
        ∧ size L' = 3 ∧ deref m' (some a) = .ok 7 := by
  refine ⟨by decide, by decide, ?_⟩
  obtain ⟨m', L', a, e, _, h0, h1, h2, h3, _⟩ :=
    insert_spec exMem exList [(4, 10)] [(5, 20)] 7 (by decide) (by decide)
  exact ⟨m', L', a, e, h0, h1, h2, h3⟩

/-- Instance of `erase_spec`: erasing the first node of `[10, 20]`. -/
theorem erase_spec_witness :
    WF exMem exList ([] ++ (4, 10) :: [(5, 20)]) ∧
      ∃ m' L', erase exMem exList (some 4) = .ok (m', L', some 5)
        ∧ toSeq exMem exList = .ok [10, 20] ∧ toSeq m' L' = .ok [20]
        ∧ size L' + 1 = 2 ∧ m'.get 4 = none := by
  refine ⟨by decide, ?_⟩
  obtain ⟨m', L', e, _, h0, h1, h2, h3, _⟩ :=
    erase_spec exMem exList [] [(5, 20)] 4 10 (by decide)
  exact ⟨m', L', e, h0, h1, h2, h3⟩

/-- Instance of `push_pop_size`: `push_back(1); push_front(2); pop_back()` on a
default-constructed list, with an allocator that can serve three requests. -/
theorem push_pop_size_witness :
    (0 : Nat) ≠ 1 ∧ 0 < (Memory.raw Nat 2 3).cells.length ∧
      1 < (Memory.raw Nat 2 3).cells.length ∧
      (Memory.raw Nat 2 3).cells.length + (Memory.raw Nat 2 3).avail ≤ 2 ^ SIZE_BITS ∧
      ∃ m0 L0 m' L' vs, List_default (Memory.raw Nat 2 3) 0 1 = .ok (m0, L0)
        ∧ runOps [Op.push_back 1, Op.push_front 2, Op.pop_back] m0 L0 = .ok (m', L')
        ∧ toSeq m' L' = .ok vs ∧ size L' = vs.length
        ∧ (empty L' = true ↔ vs.length = 0) := by
  refine ⟨by decide, by decide, by decide, by decide, ?_⟩
  obtain ⟨m0, L0, e0, _, h⟩ :=
    push_pop_size (Memory.raw Nat 2 3) 0 1 [Op.push_back 1, Op.push_front 2, Op.pop_back]
      (by decide) (by decide) (by decide) (by decide)
  obtain ⟨m', L', vs, e, h1, h2, h3⟩ := h (by decide)
  exact ⟨m0, L0, m', L', vs, e0, e, h1, h2, h3⟩

/-- Instance of `copy_ctor_independent`: copying `[10, 20]` into the storage at 2 and 3. -/
theorem copy_ctor_independent_witness :
    WF exMem exList [(4, 10), (5, 20)] ∧ (2 : Nat) ≠ 3 ∧ 2 < exMem.cells.length ∧
      3 < exMem.cells.length ∧ 2 ∉ addrsOf exList [(4, 10), (5, 20)] ∧
      3 ∉ addrsOf exList [(4, 10), (5, 20)] ∧ [(4, 10), (5, 20)].length ≤ exMem.avail ∧
      ∃ m' C cs, List_copy exMem 2 3 exList = .ok (m', C) ∧ WF m' C cs
        ∧ WF m' exList [(4, 10), (5, 20)] ∧ toSeq m' C = .ok [10, 20]
        ∧ toSeq m' exList = .ok [10, 20]
        ∧ (addrsOf C cs).Disjoint (addrsOf exList [(4, 10), (5, 20)]) := by
  refine ⟨by decide, by decide, by decide, by decide, by decide, by decide, by decide, ?_⟩
  obtain ⟨m', C, cs, e, h1, h2, _, h3, _, h4, h5, _⟩ :=
    copy_ctor_independent exMem exList [(4, 10), (5, 20)] 2 3 (by decide) (by decide)
      (by decide) (by decide) (by decide) (by decide) (by decide)
  exact ⟨m', C, cs, e, h1, h2, h3, h4, h5⟩

/-- Instance of `move_ctor_spec`: moving `[10, 20]` into the storage at 2 and 3. -/
theorem move_ctor_spec_witness :
    WF exMem exList [(4, 10), (5, 20)] ∧ (2 : Nat) ≠ 3 ∧ 2 < exMem.cells.length ∧
      3 < exMem.cells.length ∧ 2 ∉ addrsOf exList [(4, 10), (5, 20)] ∧
      3 ∉ addrsOf exList [(4, 10), (5, 20)] ∧
      ∃ m' D S', List_move exMem 2 3 exList = .ok (m', D, S')
        ∧ toSeq m' D = .ok [10, 20] ∧ size D = 2 ∧ size S' = 0
        ∧ begin_ m' S' = .ok (end_ S') ∧ toSeq m' S' = .ok [] := by
  refine ⟨by decide, by decide, by decide, by decide, by decide, by decide, ?_⟩
  obtain ⟨m', D, S', e, _, _, h1, h2, _, _, h3, h4, h5, _⟩ :=
    move_ctor_spec exMem exList [(4, 10), (5, 20)] 2 3 (by decide) (by decide)
      (by decide) (by decide) (by decide) (by decide)
  exact ⟨m', D, S', e, h1, h2, h4, h5, h3.toSeq_eq⟩

/-- Instance of `pop_empty_noop`: both pops on an empty list. -/
theorem pop_empty_noop_witness :
    WF exEmptyMem exEmptyList [] ∧
      pop_back exEmptyMem exEmptyList = .ok (exEmptyMem, exEmptyList) ∧
      pop_front exEmptyMem exEmptyList = .ok (exEmptyMem, exEmptyList) ∧
      size exEmptyList = 0 := by
  refine ⟨by decide, ?_⟩
  obtain ⟨h1, h2, h3, _⟩ := pop_empty_noop exEmptyMem exEmptyList (by decide)
  exact ⟨h1, h2, h3⟩

/-- Member `front()` of a well-formed list with a first node. -/
theorem WF.front_eq {m : Memory α} {L : LinkedList} {a : Nat} {v : α} {ys : List (Nat × α)}
    (h : WF m L ((a, v) :: ys)) : front m L = .ok v := by
  have h' : WF m L ([] ++ (a, v) :: ys) := by simpa using h
  have hb : getNext m (some L.head) = .ok (some a) := getNext_eq h.head_get
  simp only [front, hb, bind, Except.bind, getData_eq h'.node_get]

/-- Member `back()` of a well-formed list with a last node. -/
theorem WF.back_eq {m : Memory α} {L : LinkedList} {b : Nat} {w : α} {xs : List (Nat × α)}
    (h : WF m L (xs ++ [(b, w)])) : back m L = .ok w := by
  have hb : getPrev m (some L.tail) = .ok (some b) := by
    rw [getPrev_eq h.tail_get, backOf_concat]
  simp only [back, hb, bind, Except.bind, getData_eq h.node_get]

theorem push_back_eq_spec (m : Memory α) (L : LinkedList) (v : α) :
    push_back m L v = spec_push_back m L v := by
  unfold push_back spec_push_back
  cases insert m L (end_ L) v <;> rfl

theorem push_front_eq_spec (m : Memory α) (L : LinkedList) (v : α) :
    push_front m L v = spec_push_front m L v := by
  unfold push_front spec_push_front
  cases begin_ m L with
  | error e => rfl
  | ok it =>
    show (insert m L it v >>= fun r => pure (r.1, r.2.1)) = (insert m L it v).map _
    cases insert m L it v <;> rfl

theorem pop_back_eq_spec (m : Memory α) (L : LinkedList) (h : L.size ≠ 0) :
    pop_back m L = spec_pop_back m L := by
  unfold pop_back spec_pop_back
  simp only [empty, beq_iff_eq, h, if_false]
  cases decr m (end_ L) with
  | error e => rfl
  | ok it =>
    show (erase m L it >>= fun r => pure (r.1, r.2.1)) = (erase m L it).map _
    cases erase m L it <;> rfl

theorem pop_front_eq_spec (m : Memory α) (L : LinkedList) (h : L.size ≠ 0) :
    pop_front m L = spec_pop_front m L := by
  unfold pop_front spec_pop_front
  simp only [empty, beq_iff_eq, h, if_false]
  cases begin_ m L with
  | error e => rfl
  | ok it =>
    show (erase m L it >>= fun r => pure (r.1, r.2.1)) = (erase m L it).map _
    cases erase m L it <;> rfl

theorem elems_append (xs ys : List (Nat × α)) : elems (xs ++ ys) = elems xs ++ elems ys := by
  simp [elems]

theorem elems_dropLast (ns : List (Nat × α)) : elems ns.dropLast = (elems ns).dropLast := by
  simp [elems, List.map_dropLast]

theorem elems_tail (ns : List (Nat × α)) : elems ns.tail = (elems ns).tail := by
  simp [elems, List.map_tail]

/-- C11: each push and pop call is the `insert` or `erase` call the
specification names.  On a well-formed list with sequence `s`, when `new`
succeeds, `push_back(v)` is `insert(end(), v)` and gives `s ++ [v]` with
`back() == v`, and `push_front(v)` is `insert(begin(), v)` and gives `v :: s`
with `front() == v`; when `s` is non-empty, `pop_back()` is `erase(--end())`
and removes the last element, and `pop_front()` is `erase(begin())` and removes
the first element. -/
theorem push_pop_refine (m : Memory α) (L : LinkedList) (ns : List (Nat × α)) (v : α)
    (hwf : WF m L ns) (hav : 0 < m.avail) :
    (push_back m L v = spec_push_back m L v ∧
      ∃ m' L', push_back m L v = .ok (m', L') ∧ toSeq m' L' = .ok (elems ns ++ [v])
        ∧ back m' L' = .ok v) ∧
    (push_front m L v = spec_push_front m L v ∧
      ∃ m' L', push_front m L v = .ok (m', L') ∧ toSeq m' L' = .ok (v :: elems ns)
        ∧ front m' L' = .ok v) ∧
    (ns ≠ [] →
      pop_back m L = spec_pop_back m L ∧
      ∃ m' L', pop_back m L = .ok (m', L') ∧ toSeq m' L' = .ok (elems ns).dropLast) ∧
    (ns ≠ [] →
      pop_front m L = spec_pop_front m L ∧
      ∃ m' L', pop_front m L = .ok (m', L') ∧ toSeq m' L' = .ok (elems ns).tail) := by
  have hsz : ns ≠ [] → L.size ≠ 0 := by
    intro h e
    have := hwf.2.2.1
    rw [e] at this
    exact h (List.length_eq_zero.1 this.symm)
  refine ⟨⟨push_back_eq_spec m L v, ?_⟩, ⟨push_front_eq_spec m L v, ?_⟩, ?_, ?_⟩
  · obtain ⟨m', e, hw, _⟩ := push_back_WF ns v hwf hav
    refine ⟨m', _, e, ?_, hw.back_eq⟩
    rw [hw.toSeq_eq, elems_append]; rfl
  · obtain ⟨m', e, hw, _⟩ := push_front_WF ns v hwf hav
    exact ⟨m', _, e, hw.toSeq_eq, hw.front_eq⟩
  · intro hne
    obtain ⟨m', e, hw, _⟩ := pop_back_WF ns hwf
    exact ⟨pop_back_eq_spec m L (hsz hne), m', _, e, by rw [hw.toSeq_eq, elems_dropLast]⟩
  · intro hne
    obtain ⟨m', e, hw, _⟩ := pop_front_WF ns hwf
    exact ⟨pop_front_eq_spec m L (hsz hne), m', _, e, by rw [hw.toSeq_eq, elems_tail]⟩

/-- C13: on a well-formed list, `it = insert(pos, v)` followed at once by
`erase(it)` gives back the list object and a well-formed list on the same
real nodes: the forward sequence and `size()` are the original ones, and the
iterator `erase` returns is `pos`. -/
theorem insert_erase_roundtrip (m : Memory α) (L : LinkedList) (xs ys : List (Nat × α)) (v : α)
    (hwf : WF m L (xs ++ ys)) (hav : 0 < m.avail) :
    ∃ m1 L1 a m2 L2, insert m L (some (posOf L ys)) v = .ok (m1, L1, some a)
      ∧ erase m1 L1 (some a) = .ok (m2, L2, some (posOf L ys))
      ∧ L2 = L ∧ WF m2 L2 (xs ++ ys)
      ∧ toSeq m2 L2 = toSeq m L ∧ size L2 = size L := by
  obtain ⟨m1, e1, hw1, _⟩ := insert_WF xs ys v hwf hav
  obtain ⟨m2, e2, hw2, _⟩ := erase_WF xs ys _ v hw1
  have hL : ({ ({ L with size := L.size + 1 } : LinkedList) with
      size := ({ L with size := L.size + 1 } : LinkedList).size - 1 } : LinkedList) = L := by
    cases L; simp
  rw [hL] at e2 hw2
  exact ⟨m1, _, _, m2, L, e1, e2, rfl, hw2, by rw [hw2.toSeq_eq, hwf.toSeq_eq], rfl⟩

/-- C15: the queue is first-in first-out.  For a queue whose list is
well-formed with elements `x1..xn`, `n ≥ 1`: `front()` is `x1` and `back()` is
`xn`; `push(v)` (when `new` succeeds) yields `x1..xn, v` with size `n + 1`;
`pop()` yields `x2..xn` with size `n - 1`; and `pop()` on an empty queue
returns with the queue and the memory as they were. -/
theorem queue_fifo (m : Memory α) (q : Queue) (a : Nat) (x : α) (rest : List (Nat × α))
    (v : α) (hwf : WF m q.c ((a, x) :: rest)) (hav : 0 < m.avail) :
    Queue.front m q = .ok x ∧
    Queue.back m q = .ok (((a, x) :: rest).getLast (List.cons_ne_nil _ _)).2 ∧
    (∃ m' q', Queue.push m q v = .ok (m', q')
      ∧ toSeq m' q'.c = .ok (elems ((a, x) :: rest) ++ [v])
      ∧ Queue.size q' = ((a, x) :: rest).length + 1) ∧
    (∃ m' q', Queue.pop m q = .ok (m', q') ∧ toSeq m' q'.c = .ok (elems rest)
      ∧ Queue.size q' = ((a, x) :: rest).length - 1) ∧
    (∀ (m0 : Memory α) (q0 : Queue), WF m0 q0.c [] →
      Queue.pop m0 q0 = .ok (m0, q0) ∧ Queue.empty q0 = true) := by
  refine ⟨hwf.front_eq, ?_, ?_, ?_, ?_⟩
  · have hy := List.dropLast_append_getLast (List.cons_ne_nil (a, x) rest)
    have hwf' : WF m q.c (((a, x) :: rest).dropLast ++
        [((((a, x) :: rest).getLast (List.cons_ne_nil _ _)).1,
          (((a, x) :: rest).getLast (List.cons_ne_nil _ _)).2)]) := by
      rw [Prod.mk.eta, hy]; exact hwf
    exact hwf'.back_eq
  · obtain ⟨m', e, hw, _⟩ := push_back_WF _ v hwf hav
    refine ⟨m', ⟨{ q.c with size := q.c.size + 1 }⟩,
      by simp only [Queue.push, e, bind, Except.bind, pure, Except.pure], ?_, ?_⟩
    · rw [hw.toSeq_eq, elems_append]; rfl
    · simp [Queue.size, size, hwf.2.2.1]
  · obtain ⟨m', e, hw, _⟩ := pop_front_WF _ hwf
    refine ⟨m', ⟨{ q.c with size := q.c.size - 1 }⟩,
      by simp only [Queue.pop, e, bind, Except.bind, pure, Except.pure], ?_, ?_⟩
    · rw [hw.toSeq_eq]; rfl
    · simp [Queue.size, size, hwf.2.2.1]
  · intro m0 q0 h0
    have hs : q0.c.size = 0 := by simpa using h0.2.2.1
    refine ⟨?_, by simp [Queue.empty, empty, hs]⟩
    simp [Queue.pop, pop_front, empty, hs, bind, Except.bind, pure, Except.pure]

/-- The loop of `List(count, value)`: it hangs `n` new nodes holding `value`
behind the open chain `c ++ [A]`, at the addresses `new` hands out. -/
theorem fillLoop_spec (value : α) :
    ∀ (n : Nat) (m : Memory α) (c : List (Nat × Option α)) (A : Nat × Option α),
      Linked m none (c ++ [A]) none → ((c ++ [A]).map Prod.fst).Nodup → n ≤ m.avail →
      ∃ m' ds, fillLoop value n m (some A.1) =
            .ok (m', lastOf (c ++ [A] ++ realEntries ds) none)
        ∧ elems ds = List.replicate n value
        ∧ ds.map Prod.fst = List.range' m.cells.length n
        ∧ Linked m' none (c ++ [A] ++ realEntries ds) none
        ∧ m'.cells.length = m.cells.length + n
        ∧ m'.avail = m.avail - n
        ∧ ∀ x, x < m.cells.length → x ≠ A.1 → m'.get x = m.get x
  | 0, m, c, A, hl, _, _ => by
    refine ⟨m, [], ?_, rfl, rfl, by simpa using hl, rfl, rfl, fun _ _ _ => rfl⟩
    simp [fillLoop, lastOf, pure, Except.pure]
  | n + 1, m, c, A, hl, hnd, hav => by
    obtain ⟨m1, m2, e1, e2, hl2, len2, av2, fr2⟩ := append_chain value c A hl hnd (by omega)
    have hlt := Linked.addrs_live hl
    have hnd2 : (((c ++ [A]) ++ [(m.cells.length, some value)]).map Prod.fst).Nodup := by
      rw [List.map_append, List.nodup_append]
      refine ⟨hnd, by simp, ?_⟩
      intro x hx hx'
      simp only [List.map_cons, List.map_nil, List.mem_singleton] at hx'
      have := hlt x hx
      omega
    obtain ⟨m', ds, e, hel, hfst, hl', len', av', fr'⟩ :=
      fillLoop_spec value n m2 (c ++ [A]) (m.cells.length, some value) hl2 hnd2 (by omega)
    refine ⟨m', (m.cells.length, value) :: ds, ?_, ?_, ?_, ?_, by omega, by omega, ?_⟩
    · simp only [fillLoop, bind, Except.bind, e1, e2, e]
      simp [realEntries_cons, List.append_assoc]
    · simp only [elems, List.map_cons, List.replicate_succ] at hel ⊢
      rw [hel]
    · simp only [List.map_cons, hfst, len2]
      rfl
    · simpa [realEntries_cons, List.append_assoc] using hl'
    · intro x h1 h2
      rw [fr' x (by omega) (by simp; omega), fr2 x h2 (by omega)]

/-- Constructor `List(count, value)` on fresh storage `hd`, `tl`. -/
theorem List_count_value_WF (m : Memory α) {hd tl : Nat} (n : Nat) (v : α) (hne : hd ≠ tl)
    (hhd : hd < m.cells.length) (htl : tl < m.cells.length)
    (hmem : m.cells.length + m.avail ≤ 2 ^ SIZE_BITS) (hav : n ≤ m.avail) :
    ∃ m' ns, List_count_value m hd tl n v = .ok (m', ⟨hd, tl, n⟩)
      ∧ WF m' ⟨hd, tl, n⟩ ns ∧ elems ns = List.replicate n v
      ∧ ns.map Prod.fst = List.range' m.cells.length n
      ∧ m'.cells.length = m.cells.length + n ∧ m'.avail = m.avail - n
      ∧ ∀ x, x < m.cells.length → x ≠ hd → x ≠ tl → m'.get x = m.get x := by
  obtain ⟨l0, a0, g0⟩ := initSentinels_spec m hhd htl
  have hl0 : Linked (initSentinels m hd tl) none ([] ++ [((hd, none) : Nat × Option α)]) none := by
    refine ⟨?_, trivial⟩
    show (initSentinels m hd tl).get hd = _
    rw [g0, if_neg hne, if_pos rfl]; rfl
  obtain ⟨m1, ds, e1, hel, hfst, hl1, len1, av1, fr1⟩ :=
    fillLoop_spec v n (initSentinels m hd tl) [] (hd, none) hl0 (by simp) (by omega)
  obtain ⟨c, A, hcA, hlast⟩ := lastOf_head_real hd ds
  simp only [List.nil_append] at hl1 e1
  rw [hlast] at e1
  rw [hcA] at hl1
  have hdslt : ∀ x ∈ ds.map Prod.fst, m.cells.length ≤ x := by
    intro x hx
    rw [hfst, l0] at hx
    exact (List.mem_range'_1.1 hx).1
  have hnd1 : ((c ++ [A]).map Prod.fst).Nodup := by
    rw [← hcA]
    simp only [List.singleton_append, List.map_cons, realEntries_fst, List.nodup_cons]
    refine ⟨fun hx => ?_, ?_⟩
    · have := hdslt hd hx; omega
    · rw [hfst]; exact List.nodup_range' _ _
  have htl1 : m1.get tl = some ⟨none, none, none⟩ := by
    rw [fr1 tl (by omega) (Ne.symm hne), g0, if_pos rfl]
  have htlc : tl ∉ (c ++ [A]).map Prod.fst := by
    rw [← hcA]
    simp only [List.singleton_append, List.map_cons, realEntries_fst, List.mem_cons, not_or]
    refine ⟨Ne.symm hne, fun hx => ?_⟩
    have := hdslt tl hx; omega
  obtain ⟨m2, m3, e2, e3, hl3, len3, av3, fr3⟩ := close_chain c A tl hl1 hnd1 htl1 htlc
  have hAmem : A.1 = hd ∨ m.cells.length ≤ A.1 := by
    have : A.1 ∈ (c ++ [A]).map Prod.fst := by simp
    rw [← hcA] at this
    simp only [List.singleton_append, List.map_cons, realEntries_fst, List.mem_cons] at this
    rcases this with h | h
    · exact Or.inl h
    · exact Or.inr (hdslt _ h)
  have hlen : ds.length = n := by
    have := congrArg List.length hel
    simpa [elems] using this
  refine ⟨m3, ds, ?_, ⟨?_, ?_, by simp [hlen], by omega⟩, hel, ?_, by omega, by omega, ?_⟩
  · simp only [List_count_value, bind, Except.bind, e1, e2, e3, pure, Except.pure]
  · show Linked m3 none ((hd, none) :: (realEntries ds ++ [(tl, none)])) none
    have : ((hd, none) : Nat × Option α) :: (realEntries ds ++ [(tl, none)]) =
        ([(hd, none)] ++ realEntries ds) ++ [(tl, none)] := by simp
    rw [this, hcA]; exact hl3
  · simp only [addrsOf_eq, List.nodup_cons, List.mem_append, List.mem_singleton, not_or]
    refine ⟨⟨fun hx => ?_, hne⟩, ?_⟩
    · have := hdslt hd hx; omega
    · rw [List.nodup_append]
      refine ⟨by rw [hfst]; exact List.nodup_range' _ _, by simp, ?_⟩
      intro x hx hx'
      simp only [List.mem_singleton] at hx'
      have := hdslt x hx; omega
  · rw [hfst, l0]
  · intro x h1 h2 h3
    have hxA : x ≠ A.1 := by rcases hAmem with h | h <;> omega
    rw [fr3 x hxA h3, fr1 x (by omega) h2, g0, if_neg h3, if_neg h2]

/-- C12: on fresh storage, with an allocator that can serve `n` requests,
`List(n, v)` is a well-formed list with `size() == n` whose forward sequence is
`n` copies of `v`, and `List(n)` is one whose forward sequence is `n`
default-constructed values; for `n == 0` both are the empty configuration
(`head.next == tail`, `tail.prev == head`).  A list of 5 default ints followed
by `push_back(7)` has sequence `[0,0,0,0,0,7]` and size 6. -/
theorem count_ctor_spec [Inhabited α] (m : Memory α) (hd tl n : Nat) (v : α) (hne : hd ≠ tl)
    (hhd : hd < m.cells.length) (htl : tl < m.cells.length)
    (hmem : m.cells.length + m.avail ≤ 2 ^ SIZE_BITS) (hav : n ≤ m.avail) :
    (∃ m' L ns, List_count_value m hd tl n v = .ok (m', L) ∧ WF m' L ns ∧ size L = n
      ∧ toSeq m' L = .ok (List.replicate n v)
      ∧ (n = 0 → getNext m' (some L.head) = .ok (some L.tail)
          ∧ getPrev m' (some L.tail) = .ok (some L.head))) ∧
    (∃ m' L ns, List_count m hd tl n = .ok (m', L) ∧ WF m' L ns ∧ size L = n
      ∧ toSeq m' L = .ok (List.replicate n (default : α))
      ∧ (n = 0 → getNext m' (some L.head) = .ok (some L.tail)
          ∧ getPrev m' (some L.tail) = .ok (some L.head))) ∧
    (exCountPush >>= fun s => (toSeq s.1 s.2).map (fun vs => (vs, size s.2))) =
      .ok ([0, 0, 0, 0, 0, 7], 6) := by
  have key : ∀ w : α, ∃ m' L ns, List_count_value m hd tl n w = .ok (m', L) ∧ WF m' L ns
      ∧ size L = n ∧ toSeq m' L = .ok (List.replicate n w)
      ∧ (n = 0 → getNext m' (some L.head) = .ok (some L.tail)
          ∧ getPrev m' (some L.tail) = .ok (some L.head)) := by
    intro w
    obtain ⟨m', ns, e, hw, hel, _⟩ := List_count_value_WF m n w hne hhd htl hmem hav
    refine ⟨m', _, ns, e, hw, rfl, by rw [hw.toSeq_eq, hel], ?_⟩
    intro h0
    have hns : ns = [] := by
      have := hw.2.2.1
      simp only [h0] at this
      exact List.length_eq_zero.1 this.symm
    subst hns
    exact ⟨getNext_eq hw.head_get, getPrev_eq hw.tail_get⟩
  exact ⟨key v, key default, by decide⟩

/-- Instance of `count_ctor_spec`: `List<int>(3, 7)` and `List<int>(3)`. -/
theorem count_ctor_spec_witness :
    (0 : Nat) ≠ 1 ∧ 0 < (Memory.raw Nat 2 3).cells.length ∧
      1 < (Memory.raw Nat 2 3).cells.length ∧
      (Memory.raw Nat 2 3).cells.length + (Memory.raw Nat 2 3).avail ≤ 2 ^ SIZE_BITS ∧
      3 ≤ (Memory.raw Nat 2 3).avail ∧
      (∃ m' L, List_count_value (Memory.raw Nat 2 3) 0 1 3 7 = .ok (m', L) ∧ size L = 3
        ∧ toSeq m' L = .ok [7, 7, 7]) ∧
      (∃ m' L, List_count (Memory.raw Nat 2 3) 0 1 3 = .ok (m', L) ∧ size L = 3
        ∧ toSeq m' L = .ok [0, 0, 0]) := by
  refine ⟨by decide, by decide, by decide, by decide, by decide, ?_⟩
  obtain ⟨⟨m1, L1, _, e1, _, s1, t1, _⟩, ⟨m2, L2, _, e2, _, s2, t2, _⟩, _⟩ :=
    count_ctor_spec (Memory.raw Nat 2 3) 0 1 3 7 (by decide) (by decide) (by decide)
      (by decide) (by decide)
  exact ⟨⟨m1, L1, e1, s1, t1⟩, ⟨m2, L2, e2, s2, t2⟩⟩

/-- In a well-formed list the node at position `posOf L ys` links back to the
node in front of it. -/
theorem WF.prev_posOf {m : Memory α} {L : LinkedList} {xs ys : List (Nat × α)}
    (h : WF m L (xs ++ ys)) : getPrev m (some (posOf L ys)) = .ok (some (backOf L xs)) := by
  cases ys with
  | nil =>
    have h' : WF m L xs := by simpa using h
    exact getPrev_eq h'.tail_get
  | cons y t =>
    obtain ⟨a, v⟩ := y
    exact getPrev_eq h.node_get

theorem backOf_eq_of_split {L : LinkedList} {xs : List (Nat × α)} {u : List (Nat × Option α)}
    {A : Nat × Option α} (hu : (L.head, none) :: realEntries xs = u ++ [A]) :
    A.1 = backOf L xs := by
  have h1 := lastOf_real L xs none
  rw [hu, lastOf_concat] at h1
  exact Option.some.inj h1

/-- The cells after `insert`: the new node is built in a cell that held no
node; of the other cells only `next` of the node in front of the position and
`prev` of the node at the position change, both to the new node. -/
theorem insert_cells {m : Memory α} {L : LinkedList} (xs ys : List (Nat × α)) (v : α)
    (h : WF m L (xs ++ ys)) (hav : 0 < m.avail) :
    ∃ m', insert m L (some (posOf L ys)) v =
          .ok (m', { L with size := L.size + 1 }, some m.cells.length)
      ∧ m.get m.cells.length = none
      ∧ m'.get m.cells.length = some ⟨some (posOf L ys), some (backOf L xs), some v⟩
      ∧ ∀ x, x ≠ m.cells.length → m'.get x = (m.get x).map (fun n =>
          ⟨if x = backOf L xs then some m.cells.length else n.next,
           if x = posOf L ys then some m.cells.length else n.prev, n.data⟩) := by
  obtain ⟨u, A, P, l2, hu, hw, hP, hc⟩ := chain_split L xs ys
  have hA := backOf_eq_of_split hu
  have hl := h.1
  have hnd := h.2.1
  rw [addrsOf, hc] at hnd
  rw [hc] at hl
  obtain ⟨m', e, hl', len', av', fr⟩ := insert_chain L v u l2 A P hl hnd hav
  have hsz : (L.size + 1) % 2 ^ SIZE_BITS = L.size + 1 :=
    Nat.mod_eq_of_lt (by have := h.size_lt; omega)
  rw [hsz, hP] at e
  obtain ⟨_, hAo, hPo, _⟩ := hl.mid
  obtain ⟨_, hAn, hNn, hrest⟩ := hl'.mid
  rw [Linked_cons] at hrest
  have hPn := hrest.1
  simp only [nextOf] at hNn
  have hAP : A.1 ≠ P.1 := by
    simp only [List.map_append, List.map_cons, List.nodup_append, List.nodup_cons,
      List.mem_cons, not_or] at hnd
    exact hnd.2.1.1.1
  have hdead : m.get m.cells.length = none := by
    cases hg : m.get m.cells.length with
    | none => rfl
    | some n => exact absurd (get_lt hg) (Nat.lt_irrefl _)
  refine ⟨m', e, hdead, ?_, ?_⟩
  · rw [← hP, ← hA]; exact hNn
  · intro x hx
    rw [← hP, ← hA]
    by_cases h1 : x = A.1
    · subst h1
      rw [hAn, hAo]
      simp [hAP]
    · by_cases h2 : x = P.1
      · subst h2
        rw [hPn, hPo]
        simp [h1]
      · rw [fr x h1 h2 hx]
        cases m.get x <;> simp [h1, h2]

/-- The cells after `erase`: the erased node is destroyed; of the other cells
only `next` of the node in front of it and `prev` of the node behind it change,
to each other. -/
theorem erase_cells {m : Memory α} {L : LinkedList} (xs ys : List (Nat × α)) (a : Nat) (v : α)
    (h : WF m L (xs ++ (a, v) :: ys)) :
    ∃ m', erase m L (some a) = .ok (m', { L with size := L.size - 1 }, some (posOf L ys))
      ∧ m'.get a = none
      ∧ ∀ x, x ≠ a → m'.get x = (m.get x).map (fun n =>
          ⟨if x = backOf L xs then some (posOf L ys) else n.next,
           if x = posOf L ys then some (backOf L xs) else n.prev, n.data⟩) := by
  obtain ⟨u, A, hu⟩ := cons_eq_concat ((L.head, none) : Nat × Option α) (realEntries xs)
  obtain ⟨N, l2, hw, hN⟩ := tail_split L ys
  have hA := backOf_eq_of_split hu
  have hc : chainOf L (xs ++ (a, v) :: ys) = u ++ A :: (a, some v) :: N :: l2 := by
    have : chainOf L (xs ++ (a, v) :: ys) =
        ((L.head, none) :: realEntries xs) ++ (a, some v) ::
          (realEntries ys ++ [(L.tail, none)]) := by
      simp [chainOf]
    rw [this, hu, hw]; simp
  have hl := h.1
  have hnd := h.2.1
  rw [addrsOf, hc] at hnd
  rw [hc] at hl
  obtain ⟨m', e, hl', len', av', dead, fr⟩ := erase_chain L u l2 A (a, some v) N hl hnd
  have h3 := h.2.2.1
  simp only [List.length_append, List.length_cons] at h3
  have hsz : (L.size + (2 ^ SIZE_BITS - 1)) % 2 ^ SIZE_BITS = L.size - 1 := by
    have := h.size_lt
    simp only [SIZE_BITS] at this ⊢
    omega
  rw [hsz, hN] at e
  obtain ⟨_, hAo, _, hrest⟩ := hl.mid
  rw [Linked_cons] at hrest
  have hNo := hrest.1
  obtain ⟨_, hAn, hNn, _⟩ := hl'.mid
  have hAN : A.1 ≠ N.1 := by
    simp only [List.map_append, List.map_cons, List.nodup_append, List.nodup_cons,
      List.mem_cons, not_or] at hnd
    exact hnd.2.1.1.2.1
  refine ⟨m', e, dead, ?_⟩
  intro x hx
  rw [← hN, ← hA]
  by_cases h1 : x = A.1
  · subst h1
    rw [hAn, hAo]
    simp [hAN]
  · by_cases h2 : x = N.1
    · subst h2
      rw [hNn, hNo]
      simp [h1]
    · rw [fr x h1 hx h2]
      cases m.get x <;> simp [h1, h2]

theorem getData_of_map {m m' : Memory α} {x : Nat} {d : α} {f g : Node α → Ptr}
    (hm : m'.get x = (m.get x).map (fun n => ⟨f n, g n, n.data⟩))
    (hd : getData m (some x) = .ok d) : getData m' (some x) = .ok d := by
  cases hg : m.get x with
  | none => simp [getData, load, hg] at hd
  | some n =>
    rw [hg] at hm
    simp only [Option.map_some'] at hm
    simp only [getData, load, hg] at hd
    simp only [getData, load, hm]
    cases hdata : n.data with
    | none => simp [hdata] at hd
    | some v => simpa [hdata] using hd

/-- C18: on the explicit memory, `insert(pos, v)` on a well-formed list builds
the new node in a cell that held no node and, of all other cells of the memory,
changes only `next` of the node in front of `pos` and `prev` of the node at
`pos`; `erase(pos)` destroys the node at `pos` and, of all other cells, changes
only `next` of the node in front of it and `prev` of the node behind it.  The
list object changes in `_size` only.  The payload and both links of every other
node are as before, so an iterator to any other node dereferences to the same
element. -/
theorem insert_erase_frame (m : Memory α) (L : LinkedList) (xs ys : List (Nat × α)) (v : α)
    (E : LinkedList) (xs' ys' : List (Nat × α)) (a : Nat) (w : α)
    (hL : WF m L (xs ++ ys)) (hav : 0 < m.avail) (hE : WF m E (xs' ++ (a, w) :: ys')) :
    (∃ m' nw, insert m L (some (posOf L ys)) v = .ok (m', { L with size := L.size + 1 }, some nw)
      ∧ m.get nw = none
      ∧ m'.get nw = some ⟨some (posOf L ys), some (backOf L xs), some v⟩
      ∧ (∀ x, x ≠ nw → m'.get x = (m.get x).map (fun n =>
          ⟨if x = backOf L xs then some nw else n.next,
           if x = posOf L ys then some nw else n.prev, n.data⟩))
      ∧ (∀ x, x ≠ nw → x ≠ backOf L xs → x ≠ posOf L ys → m'.get x = m.get x)
      ∧ ∀ x d, deref m (some x) = .ok d → deref m' (some x) = .ok d) ∧
    (∃ m', erase m E (some a) = .ok (m', { E with size := E.size - 1 }, some (posOf E ys'))
      ∧ m'.get a = none
      ∧ (∀ x, x ≠ a → m'.get x = (m.get x).map (fun n =>
          ⟨if x = backOf E xs' then some (posOf E ys') else n.next,
           if x = posOf E ys' then some (backOf E xs') else n.prev, n.data⟩))
      ∧ (∀ x, x ≠ a → x ≠ backOf E xs' → x ≠ posOf E ys' → m'.get x = m.get x)
      ∧ ∀ x d, x ≠ a → deref m (some x) = .ok d → deref m' (some x) = .ok d) := by
  constructor
  · obtain ⟨m', e, hdead, hnew, hc⟩ := insert_cells xs ys v hL hav
    refine ⟨m', _, e, hdead, hnew, hc, ?_, ?_⟩
    · intro x h1 h2 h3
      rw [hc x h1]
      cases m.get x <;> simp [h2, h3]
    · intro x d hd
      have hx : x ≠ m.cells.length := by
        rintro rfl
        simp [deref, getData, load, hdead] at hd
      exact getData_of_map (hc x hx) hd
  · obtain ⟨m', e, hdead, hc⟩ := erase_cells xs' ys' a w hE
    refine ⟨m', e, hdead, hc, ?_, ?_⟩
    · intro x h1 h2 h3
      rw [hc x h1]
      cases m.get x <;> simp [h2, h3]
    · intro x d hx hd
      exact getData_of_map (hc x hx) hd

/-- Instance of `insert_erase_frame`: on `[10, 20]`, inserting 7 in front of the
second node, and erasing the first node. -/
theorem insert_erase_frame_witness :
    WF exMem exList ([(4, 10)] ++ [(5, 20)]) ∧ 0 < exMem.avail ∧
      WF exMem exList ([] ++ (4, 10) :: [(5, 20)]) ∧
      (∃ m' nw, insert exMem exList (some 5) 7 = .ok (m', ⟨0, 1, 3⟩, some nw)
        ∧ m'.get nw = some ⟨some 5, some 4, some 7⟩
        ∧ ∀ x, x ≠ nw → x ≠ 4 → x ≠ 5 → m'.get x = exMem.get x) ∧
      (∃ m', erase exMem exList (some 4) = .ok (m', ⟨0, 1, 1⟩, some 5)
        ∧ m'.get 4 = none
        ∧ ∀ x, x ≠ 4 → x ≠ 0 → x ≠ 5 → m'.get x = exMem.get x) := by
  refine ⟨by decide, by decide, by decide, ?_⟩
  obtain ⟨⟨m1, nw, e1, _, h1, _, f1, _⟩, ⟨m2, e2, d2, _, f2, _⟩⟩ :=
    insert_erase_frame exMem exList [(4, 10)] [(5, 20)] 7 exList [] [(5, 20)] 4 10
      (by decide) (by decide) (by decide)
  exact ⟨⟨m1, nw, e1, h1, f1⟩, ⟨m2, e2, d2, f2⟩⟩

theorem WF.node_not_before {m : Memory α} {L : LinkedList} {xs ys : List (Nat × α)} {a : Nat}
    {v : α} (h : WF m L (xs ++ (a, v) :: ys)) : a ∉ xs.map Prod.fst := by
  have h1 := (addrsOf_insert_perm L xs ys a v).nodup_iff.1 h.2.1
  have h2 := (List.nodup_cons.1 h1).1
  intro hx
  exact h2 (by rw [addrsOf_eq]; simp at hx ⊢; exact Or.inr (Or.inl hx))

theorem posOf_mem_of_ne_nil (L : LinkedList) {xs : List (Nat × α)} (ys : List (Nat × α))
    (h : xs ≠ []) : posOf L (xs ++ ys) ∈ xs.map Prod.fst := by
  cases xs with
  | nil => exact absurd rfl h
  | cons x t => simp [posOf]

/-- Walking backward from the node `y` to the first node collects the elements
up to `y` in reverse order. -/
theorem backwardLoop_WF {m : Memory α} {L : LinkedList} :
    ∀ (xs : List (Nat × α)) (y : Nat × α) (ys : List (Nat × α)) (k : Nat),
      WF m L (xs ++ y :: ys) → xs.length < k →
      backwardLoop k m (some (posOf L (xs ++ y :: ys))) (some y.1) =
        .ok (elems (xs ++ [y])).reverse := by
  intro xs
  induction xs using List.reverseRecOn with
  | nil =>
    intro y ys k h hk
    obtain ⟨k, rfl⟩ : ∃ j, k = j + 1 := ⟨k - 1, by simp at hk; omega⟩
    obtain ⟨a, v⟩ := y
    have hd : deref m (some a) = .ok v := getData_eq h.node_get
    simp [backwardLoop, posOf, hd, bind, Except.bind, pure, Except.pure, elems]
  | append_singleton xs z ih =>
    intro y ys k h hk
    obtain ⟨k, rfl⟩ : ∃ j, k = j + 1 := ⟨k - 1, by simp at hk; omega⟩
    obtain ⟨a, v⟩ := y
    obtain ⟨b, w⟩ := z
    have hd : deref m (some a) = .ok v := getData_eq h.node_get
    have hne : a ≠ posOf L ((xs ++ [(b, w)]) ++ (a, v) :: ys) := by
      intro e
      exact h.node_not_before (e ▸ posOf_mem_of_ne_nil L _ (by simp))
    have hdec : decr m (some a) = .ok (some b) := by
      rw [decr, getPrev_eq h.node_get, backOf_concat]
    have h' : WF m L (xs ++ (b, w) :: ((a, v) :: ys)) := by simpa using h
    have hpos : posOf L ((xs ++ [(b, w)]) ++ (a, v) :: ys) =
        posOf L (xs ++ (b, w) :: ((a, v) :: ys)) := by simp
    have ih' := ih (b, w) ((a, v) :: ys) k h' (by simp at hk; omega)
    rw [← hpos] at ih'
    simp only [backwardLoop, hd, bind, Except.bind, Option.some.injEq, hne, if_false, hdec, ih',
      pure, Except.pure]
    simp [elems]

/-- Walking backward over a non-empty well-formed list yields its elements in
reverse order and terminates. -/
theorem WF.toSeqBack_eq {m : Memory α} {L : LinkedList} {ns : List (Nat × α)} (h : WF m L ns)
    (hne : ns ≠ []) : toSeqBack m L = .ok (elems ns).reverse := by
  obtain ⟨xs, y, rfl⟩ : ∃ xs y, ns = xs ++ [y] :=
    ⟨_, _, (List.dropLast_append_getLast hne).symm⟩
  have hlen := h.length_le
  simp only [List.length_append, List.length_singleton] at hlen
  have hdec : decr m (end_ L) = .ok (some y.1) := by rw [h.decr_end, backOf_concat]
  have := backwardLoop_WF xs y [] m.cells.length h (by omega)
  simp only [toSeqBack, h.begin_eq, hdec, bind, Except.bind, this]

/-- Every list a program can reach is well-formed. -/
theorem Reachable.wf {m : Memory α} {L : LinkedList} (h : Reachable m L) :
    ∃ ns, WF m L ns := by
  induction h with
  | default m m' hd tl L hne hhd htl hmem e =>
    obtain ⟨m1, e1, hw, _⟩ := List_default_WF m hne hhd htl hmem
    rw [e1] at e
    injection e with e
    injection e with e1 e2
    subst e1 e2
    exact ⟨[], hw⟩
  | count m m' hd tl n v L hne hhd htl hmem hav e =>
    obtain ⟨m1, ns, e1, hw, _⟩ := List_count_value_WF m n v hne hhd htl hmem hav
    rw [e1] at e
    injection e with e
    injection e with e1 e2
    subst e1 e2
    exact ⟨ns, hw⟩
  | copy m m' hd tl S L ns _ hS hne hhd htl h1 h2 hav e _ =>
    obtain ⟨m1, cs, e1, hw, _⟩ := List_copy_WF hS hne hhd htl h1 h2 hav
    rw [e1] at e
    injection e with e
    injection e with e1 e2
    subst e1 e2
    exact ⟨cs, hw⟩
  | move m m' hd tl S S' L ns _ hS hne hhd htl h1 h2 e _ =>
    obtain ⟨m1, e1, hw, _⟩ := List_move_WF hS hne hhd htl h1 h2
    rw [e1] at e
    injection e with e
    injection e with e1 e2
    injection e2 with e2 e3
    subst e1 e2
    exact ⟨ns, hw⟩
  | moved_from m m' hd tl S S' L ns _ hS hne hhd htl h1 h2 e _ =>
    obtain ⟨m1, e1, _, hw, _⟩ := List_move_WF hS hne hhd htl h1 h2
    rw [e1] at e
    injection e with e
    injection e with e1 e2
    injection e2 with e2 e3
    subst e1 e3
    exact ⟨[], hw⟩
  | step m m' L L' ns op _ hw hv e _ =>
    rcases op.apply_step hw hv with e1 | ⟨m1, L1, ns1, e1, hw1, _⟩
    · rw [e1] at e; cases e
    · rw [e1] at e
      injection e with e
      injection e with e1 e2
      subst e1 e2
      exact ⟨ns1, hw1⟩

/-- C14: for every non-empty list a program can reach from a constructor by
`insert`, `erase`, push, pop and element-write calls, forward iteration from
`begin()` to `end()` and backward iteration from `--end()` until `begin()` both
terminate, and the backward walk visits the elements of the forward walk in
reverse order.  Equivalently, every node `x` from the head sentinel to
`tail.prev` (the node in front of any position) satisfies `x.next.prev == x`. -/
theorem backward_is_reverse (m : Memory α) (L : LinkedList) (hr : Reachable m L)
    (hne : empty L = false) :
    ∃ ns, WF m L ns ∧ toSeq m L = .ok (elems ns)
      ∧ toSeqBack m L = .ok (elems ns).reverse
      ∧ ∀ xs ys, ns = xs ++ ys →
          getNext m (some (backOf L xs)) = .ok (some (posOf L ys))
          ∧ getPrev m (some (posOf L ys)) = .ok (some (backOf L xs)) := by
  obtain ⟨ns, hw⟩ := hr.wf
  have hns : ns ≠ [] := by
    intro e
    have := (empty_iff hw).2 e
    rw [this] at hne
    exact Bool.noConfusion hne
  refine ⟨ns, hw, hw.toSeq_eq, hw.toSeqBack_eq hns, ?_⟩
  rintro xs ys rfl
  exact ⟨hw.next_backOf, hw.prev_posOf⟩

/-- Instance of `backward_is_reverse`: the list `[4, 5, 6]` built by
`List<int> l; l.push_back(5); l.push_back(6); l.push_front(4);`.  The forward
walk yields `[4, 5, 6]`, the backward walk steps over the real nodes with
`operator--` and yields `[6, 5, 4]`. -/
theorem backward_is_reverse_witness :
    exThree = .ok (exThreeMem3, ⟨0, 1, 3⟩) ∧ Reachable exThreeMem3 ⟨0, 1, 3⟩ ∧
      empty ⟨0, 1, 3⟩ = false ∧
      toSeq exThreeMem3 ⟨0, 1, 3⟩ = .ok [4, 5, 6] ∧
      toSeqBack exThreeMem3 ⟨0, 1, 3⟩ = .ok [6, 5, 4] ∧
      ∃ ns, WF exThreeMem3 ⟨0, 1, 3⟩ ns ∧ elems ns = [4, 5, 6] ∧
        ∀ xs ys, ns = xs ++ ys →
          getNext exThreeMem3 (some (backOf ⟨0, 1, 3⟩ xs)) = .ok (some (posOf ⟨0, 1, 3⟩ ys))
          ∧ getPrev exThreeMem3 (some (posOf ⟨0, 1, 3⟩ ys)) =
              .ok (some (backOf ⟨0, 1, 3⟩ xs)) := by
  have r0 : Reachable exThreeMem0 ⟨0, 1, 0⟩ :=
    Reachable.default (Memory.raw Nat 2 4) _ 0 1 _ (by decide) (by decide) (by decide)
      (by decide) (by decide)
  have r1 : Reachable exThreeMem1 ⟨0, 1, 1⟩ :=
    Reachable.step exThreeMem0 _ ⟨0, 1, 0⟩ _ [] (Mut.op (Op.push_back 5)) r0 (by decide)
      (by decide) (by decide)
  have r2 : Reachable exThreeMem2 ⟨0, 1, 2⟩ :=
    Reachable.step exThreeMem1 _ ⟨0, 1, 1⟩ _ [(2, 5)] (Mut.op (Op.push_back 6)) r1 (by decide)
      (by decide) (by decide)
  have r3 : Reachable exThreeMem3 ⟨0, 1, 3⟩ :=
    Reachable.step exThreeMem2 _ ⟨0, 1, 2⟩ _ [(2, 5), (3, 6)] (Mut.op (Op.push_front 4)) r2
      (by decide) (by decide) (by decide)
  obtain ⟨ns, hw, hf, hb, hlinks⟩ := backward_is_reverse exThreeMem3 ⟨0, 1, 3⟩ r3 (by decide)
  have hseq : toSeq exThreeMem3 ⟨0, 1, 3⟩ = .ok [4, 5, 6] := by decide
  have hel : elems ns = [4, 5, 6] := by
    rw [hseq] at hf
    injection hf with hf
    exact hf.symm
  rw [hel] at hb
  exact ⟨by decide, r3, by decide, hseq, hb, ns, hw, hel, hlinks⟩

/-- The loop of `operator==` on two well-formed lists, the left one not longer
than the right one, run in any memory `m'` that agrees with `m` everywhere
except possibly at the right list's tail sentinel: it is a comparison of the
left elements with the right elements at the same places. -/
theorem eqLoop_spec [DecidableEq α] {m m' : Memory α} {l r : LinkedList}
    (hag : ∀ x, x ≠ r.tail → m'.get x = m.get x) :
    ∀ (ls lx rs rx : List (Nat × α)) (k : Nat),
      WF m l (lx ++ ls) → WF m r (rx ++ rs) → ls.length ≤ rs.length → ls.length < k →
      Queue.eqLoop k m' l (some (posOf l ls)) (some (posOf r rs)) =
        .ok (decide (elems ls = (elems rs).take ls.length))
  | [], _, _, _, k, _, _, _, hk => by
    obtain ⟨k, rfl⟩ : ∃ j, k = j + 1 := ⟨k - 1, by omega⟩
    simp [Queue.eqLoop, posOf, end_, elems, pure, Except.pure]
  | (a, v) :: ls, lx, rs, rx, k, hl, hr, hle, hk => by
    obtain ⟨k, rfl⟩ : ∃ j, k = j + 1 := ⟨k - 1, by simp at hk; omega⟩
    obtain ⟨⟨b, w⟩, rs, rfl⟩ : ∃ y rs', rs = y :: rs' := by
      cases rs with
      | nil => simp at hle
      | cons y t => exact ⟨y, t, rfl⟩
    have hne : a ≠ l.tail := hl.node_ne_tail
    have hrt := hr.tail_get
    have ha := hl.node_get
    have hb := hr.node_get
    have hart : a ≠ r.tail := by
      intro e
      rw [e, hrt] at ha
      injection ha with ha
      injection ha with _ _ ha
      exact Option.noConfusion ha
    have hbrt : b ≠ r.tail := hr.node_ne_tail
    have ha' : m'.get a = some ⟨some (posOf l ls), some (backOf l lx), some v⟩ := by
      rw [hag a hart, ha]
    have hb' : m'.get b = some ⟨some (posOf r rs), some (backOf r rx), some w⟩ := by
      rw [hag b hbrt, hb]
    have hl' : WF m l ((lx ++ [(a, v)]) ++ ls) := by simpa using hl
    have hr' : WF m r ((rx ++ [(b, w)]) ++ rs) := by simpa using hr
    have ih := eqLoop_spec hag ls (lx ++ [(a, v)]) rs (rx ++ [(b, w)]) k hl' hr'
      (by simp at hle; omega) (by simp at hk; omega)
    show Queue.eqLoop (k + 1) m' l (some a) (some b) = _
    simp only [Queue.eqLoop, end_, Option.some.injEq, hne, if_false, bind, Except.bind, deref,
      incr, getData_eq ha', getData_eq hb', getNext_eq ha', getNext_eq hb', ih, pure,
      Except.pure, elems, List.map_cons, List.length_cons, List.take_succ_cons, List.cons.injEq,
      ne_eq, ite_not]
    by_cases hvw : v = w
    · simp [hvw, elems]
    · simp [hvw]

theorem head_ne_other_tail {m : Memory α} {l r : LinkedList} {ls rs : List (Nat × α)}
    (hl : WF m l ls) (hr : WF m r rs) : l.head ≠ r.tail := by
  intro e
  have h1 := hl.head_get
  rw [e, hr.tail_get] at h1
  injection h1 with h1
  injection h1 with h1
  exact Option.noConfusion h1

/-- The function `operator==` on two queues with well-formed lists, the left
one not longer than the right one, in any memory that agrees with `m` outside
the right list's tail sentinel. -/
theorem Queue.eq_spec [DecidableEq α] {m m' : Memory α} {lhs rhs : Queue}
    {ls rs : List (Nat × α)} (hl : WF m lhs.c ls) (hr : WF m rhs.c rs)
    (hle : ls.length ≤ rs.length) (hlen : m'.cells.length = m.cells.length)
    (hag : ∀ x, x ≠ rhs.c.tail → m'.get x = m.get x) :
    Queue.eq m' lhs rhs = .ok (decide (elems ls = (elems rs).take ls.length)) := by
  have h1 : begin_ m' lhs.c = .ok (some (posOf lhs.c ls)) := by
    have : m'.get lhs.c.head = _ := (hag _ (head_ne_other_tail hl hr)).trans hl.head_get
    exact getNext_eq this
  have h2 : begin_ m' rhs.c = .ok (some (posOf rhs.c rs)) := by
    have : m'.get rhs.c.head = _ := (hag _ hr.head_ne_tail).trans hr.head_get
    exact getNext_eq this
  have hfuel := hl.length_le
  have := eqLoop_spec hag ls [] rs [] (m'.cells.length + 1) (by simpa using hl)
    (by simpa using hr) hle (by omega)
  simp only [Queue.eq, h1, h2, bind, Except.bind, this]

/-- C19: for two queues whose lists are well-formed, with
`lhs.size() <= rhs.size()`, `operator==(lhs, rhs)` returns normally (it
dereferences no sentinel and no null link), and it returns true exactly when
the elements of `lhs` equal the first `lhs.size()` elements of `rhs` in order.
The result is the same in every memory that differs from this one at the cell
of `rhs`'s tail sentinel only (that cell may even be dead), so the tail
sentinel of `rhs` is never read.  Hence it returns true for an empty `lhs`
against any `rhs`; and the comparison is not symmetric: after
`Queue<int> a, b; b.push(1);`, `a == b` is true and `b == a` is not. -/
theorem queue_eq_prefix [DecidableEq α] (m : Memory α) (lhs rhs : Queue)
    (ls rs : List (Nat × α)) (hl : WF m lhs.c ls) (hr : WF m rhs.c rs)
    (hle : Queue.size lhs ≤ Queue.size rhs) :
    Queue.eq m lhs rhs = .ok (decide (elems ls = (elems rs).take (Queue.size lhs))) ∧
    (∀ m' : Memory α, m'.cells.length = m.cells.length →
      (∀ x, x ≠ rhs.c.tail → m'.get x = m.get x) →
      Queue.eq m' lhs rhs = .ok (decide (elems ls = (elems rs).take (Queue.size lhs)))) ∧
    (Queue.size lhs = 0 → Queue.eq m lhs rhs = .ok true) ∧
    ((exQueues >>= fun s => Queue.eq s.1 s.2.1 s.2.2) = .ok true ∧
      (exQueues >>= fun s => Queue.eq s.1 s.2.2 s.2.1) ≠ .ok true) := by
  have hsl : Queue.size lhs = ls.length := hl.2.2.1
  have hsr : Queue.size rhs = rs.length := hr.2.2.1
  rw [hsl, hsr] at hle
  rw [hsl]
  have key := fun (m' : Memory α) (h1 : m'.cells.length = m.cells.length)
    (h2 : ∀ x, x ≠ rhs.c.tail → m'.get x = m.get x) => Queue.eq_spec hl hr hle h1 h2
  refine ⟨key m rfl (fun _ _ => rfl), key, ?_, by decide⟩
  intro h0
  have hnil : ls = [] := List.length_eq_zero.1 h0
  rw [key m rfl (fun _ _ => rfl), hnil]
  simp [elems]

/-- Instance of `queue_eq_prefix`: the empty queue `a` against the queue
`b = [1]` of `exQueuesMem`, also with the tail sentinel of `b` dead. -/
theorem queue_eq_prefix_witness :
    WF exQueuesMem (Queue.mk ⟨0, 1, 0⟩).c [] ∧ WF exQueuesMem (Queue.mk ⟨2, 3, 1⟩).c [(4, 1)] ∧
      Queue.size (Queue.mk ⟨0, 1, 0⟩) ≤ Queue.size (Queue.mk ⟨2, 3, 1⟩) ∧
      Queue.eq exQueuesMem ⟨⟨0, 1, 0⟩⟩ ⟨⟨2, 3, 1⟩⟩ = .ok true ∧
      Queue.eq (exQueuesMem.put 3 none) ⟨⟨0, 1, 0⟩⟩ ⟨⟨2, 3, 1⟩⟩ = .ok true := by
  obtain ⟨h1, h2, _⟩ := queue_eq_prefix exQueuesMem ⟨⟨0, 1, 0⟩⟩ ⟨⟨2, 3, 1⟩⟩ [] [(4, 1)]
    (by decide) (by decide) (by decide)
  refine ⟨by decide, by decide, by decide, ?_, ?_⟩
  · rw [h1]; decide
  · rw [h2 (exQueuesMem.put 3 none) (by decide) (fun x hx => get_put_ne _ hx)]; decide

theorem getNext_dead {m : Memory α} {a : Nat} (h : m.get a = none) :
    getNext m (some a) = .error (.deadNode, m) := by
  simp [getNext, load, h, Except.map]

/-- The destructor of a list with a first node `a` deletes `a` and then reads
`a->next` for the loop test. -/
theorem List_dtor_nonempty {m : Memory α} {L : LinkedList} {a : Nat} {v : α}
    {ys : List (Nat × α)} (h : WF m L ((a, v) :: ys)) :
    ∃ m', List_dtor m L = .error (.deadNode, m') ∧ m'.get a = none := by
  have h' : WF m L ([] ++ (a, v) :: ys) := by simpa using h
  have hne : a ≠ L.tail := h'.node_ne_tail
  have hn : getNext m (some L.head) = .ok (some a) := getNext_eq h.head_get
  have ht : getNext m (some L.tail) = .ok none := getNext_eq h.tail_get
  obtain ⟨m1, e1, _, _, g1⟩ := delete_spec h'.node_get
  have hdead : m1.get a = none := by rw [g1, if_pos rfl]
  refine ⟨m1, ?_, hdead⟩
  have hloop : dtorLoop (m.cells.length + 1) m L (some L.head) = .error (.deadNode, m1) := by
    obtain ⟨k, hk⟩ : ∃ k, m.cells.length = k + 1 := ⟨m.cells.length - 1, by
      have := h.length_le; omega⟩
    rw [hk]
    have hd1 := getNext_dead hdead
    simp only [dtorLoop, hn, ht, bind, Except.bind, ne_eq, Option.some.injEq, hne,
      not_false_eq_true, if_true, e1, hd1]
    simp
  simp only [List_dtor, hn, bind, Except.bind, Option.some.injEq, hne, if_false, hloop]

/-- The destructor of an empty list returns at once. -/
theorem List_dtor_empty {m : Memory α} {L : LinkedList} (h : WF m L []) :
    List_dtor m L = .ok (m, L) := by
  have hn : getNext m (some L.head) = .ok (some L.tail) := getNext_eq h.head_get
  simp only [List_dtor, hn, bind, Except.bind, if_true, pure, Except.pure]

/-- After the move constructor the new list and the moved-from list share no node. -/
theorem List_move_disjoint {m : Memory α} {S : LinkedList} {ns : List (Nat × α)} {hd tl : Nat}
    (hS : WF m S ns) (hhdS : hd ∉ addrsOf S ns) (htlS : tl ∉ addrsOf S ns) :
    (addrsOf (⟨hd, tl, S.size⟩ : LinkedList) ns).Disjoint
      (addrsOf ({ S with size := 0 } : LinkedList) ([] : List (Nat × α))) := by
  intro x hx hx'
  have hnd := hS.2.1
  rw [addrsOf_eq, List.nodup_cons] at hnd
  simp only [addrsOf_eq, List.map_nil, List.nil_append, List.mem_cons, List.mem_append,
    List.mem_singleton, List.not_mem_nil, or_false] at hx hx'
  have hxS : x ∈ addrsOf S ns := by
    rw [addrsOf_eq]
    rcases hx' with h | h
    · simp [h]
    · simp [h]
  rcases hx with h | h | h
  · exact hhdS (h ▸ hxS)
  · rcases hx' with h' | h'
    · exact hnd.1 (by rw [← h']; simp [h])
    · have := (List.nodup_append.1 hnd.2).2.2
      exact this h (by simp [h'])
  · exact htlS (h ▸ hxS)

/-- After the move constructor, a well-placed changing call on either of the
two lists leaves the other exactly as it was. -/
theorem List_move_frame {m : Memory α} {S : LinkedList} {ns : List (Nat × α)} {hd tl : Nat}
    (hS : WF m S ns) (hne : hd ≠ tl) (hhd : hd < m.cells.length) (htl : tl < m.cells.length)
    (hhdS : hd ∉ addrsOf S ns) (htlS : tl ∉ addrsOf S ns) :
    ∃ m' D S', List_move m hd tl S = .ok (m', D, S') ∧ WF m' D ns ∧ WF m' S' []
      ∧ (addrsOf D ns).Disjoint (addrsOf S' ([] : List (Nat × α)))
      ∧ (∀ op : Mut α, op.valid S' [] →
          op.apply m' S' = .error (.badAlloc, m') ∨
          ∃ m'' S'' ss, op.apply m' S' = .ok (m'', S'') ∧ WF m'' S'' ss ∧ WF m'' D ns)
      ∧ (∀ op : Mut α, op.valid D ns →
          op.apply m' D = .error (.badAlloc, m') ∨
          ∃ m'' D' ds, op.apply m' D = .ok (m'', D') ∧ WF m'' D' ds ∧ WF m'' S' []) := by
  obtain ⟨m', e, hD, hS', _⟩ := List_move_WF hS hne hhd htl hhdS htlS
  have hdis := List_move_disjoint hS hhdS htlS
  refine ⟨m', _, _, e, hD, hS', hdis, ?_, ?_⟩
  · intro op hv
    rcases op.apply_frame hS' hD (fun x hx hx' => hdis hx' hx) hv with
      h | ⟨m'', S'', ss, e', hw, hw', _⟩
    · exact Or.inl h
    · exact Or.inr ⟨m'', S'', ss, e', hw, hw'⟩
  · intro op hv
    rcases op.apply_frame hD hS' hdis hv with h | ⟨m'', D', ds, e', hw, hw', _⟩
    · exact Or.inl h
    · exact Or.inr ⟨m'', D', ds, e', hw, hw'⟩

/-- C16 (counterexample): with `a` empty, `b = [1, 2]` and an allocator that can
serve one more request, the copy assignment `a = b` builds the first node,
links it behind `a`'s head sentinel, and stops with `bad_alloc` at the second
`new`: the call has not succeeded, and `a` is not as it was before the call.
Before, `head.next == tail` and forward iteration over `a` yields nothing;
after, `head.next` is the new node, whose `next` is null, so forward iteration
from `begin()` runs into a null link. -/
theorem assign_copy_not_atomic :
    exAssignAlloc = .ok (exAssignBefore, ⟨0, 1, 0⟩, ⟨2, 3, 2⟩) ∧
      WF exAssignBefore ⟨0, 1, 0⟩ [] ∧ WF exAssignBefore ⟨2, 3, 2⟩ [(4, 1), (5, 2)] ∧
      assign_copy exAssignBefore ⟨0, 1, 0⟩ ⟨2, 3, 2⟩ = .error (.badAlloc, exAssignAfter) ∧
      toSeq exAssignBefore ⟨0, 1, 0⟩ = .ok [] ∧
      getNext exAssignBefore (some 0) = .ok (some 1) ∧
      getNext exAssignAfter (some 0) = .ok (some 6) ∧
      faultOf (toSeq exAssignAfter ⟨0, 1, 0⟩) = some .nullDeref ∧
      ¬ WF exAssignAfter ⟨0, 1, 0⟩ [] := by
  decide

/-- C16 (amended): `insert`, `push_back` and `push_front` on a well-formed list
allocate before they write anything.  Each of them either fully succeeds,
yielding the well-formed list with the new element in place, or stops with
`bad_alloc` in the very memory it was called in, with no cell written and the
list object untouched. -/
theorem alloc_failure_atomic (m : Memory α) (L : LinkedList) (xs ys : List (Nat × α)) (v : α)
    (hwf : WF m L (xs ++ ys)) :
    (insert m L (some (posOf L ys)) v = .error (.badAlloc, m) ∨
      ∃ m' L' a, insert m L (some (posOf L ys)) v = .ok (m', L', some a)
        ∧ WF m' L' (xs ++ (a, v) :: ys)) ∧
    (push_back m L v = .error (.badAlloc, m) ∨
      ∃ m' L' a, push_back m L v = .ok (m', L') ∧ WF m' L' ((xs ++ ys) ++ [(a, v)])) ∧
    (push_front m L v = .error (.badAlloc, m) ∨
      ∃ m' L' a, push_front m L v = .ok (m', L') ∧ WF m' L' ((a, v) :: (xs ++ ys))) := by
  by_cases hav : 0 < m.avail
  · obtain ⟨m1, e1, h1, _⟩ := insert_WF xs ys v hwf hav
    obtain ⟨m2, e2, h2, _⟩ := push_back_WF (xs ++ ys) v hwf hav
    obtain ⟨m3, e3, h3, _⟩ := push_front_WF (xs ++ ys) v hwf hav
    exact ⟨Or.inr ⟨m1, _, _, e1, h1⟩, Or.inr ⟨m2, _, _, e2, h2⟩, Or.inr ⟨m3, _, _, e3, h3⟩⟩
  · have h0 : m.avail = 0 := by omega
    have hi : ∀ pos : Ptr, insert m L pos v = .error (.badAlloc, m) := by
      intro pos
      simp [insert, Memory.new, h0, bind, Except.bind]
    refine ⟨Or.inl (hi _), Or.inl ?_, Or.inl ?_⟩
    · simp only [push_back, hi, bind, Except.bind]
    · simp only [push_front, hwf.begin_eq, hi, bind, Except.bind]

/-- Instance of `alloc_failure_atomic`: on `[10, 20]` with an allocator that
cannot serve any request, all three calls stop in the memory they started in. -/
theorem alloc_failure_atomic_witness :
    WF exMemFull exList ([(4, 10)] ++ [(5, 20)]) ∧
      (insert exMemFull exList (some 5) 7 = .error (.badAlloc, exMemFull) ∨
        ∃ m' L' a, insert exMemFull exList (some 5) 7 = .ok (m', L', some a)
          ∧ WF m' L' ([(4, 10)] ++ (a, 7) :: [(5, 20)])) ∧
      insert exMemFull exList (some 5) 7 = .error (.badAlloc, exMemFull) :=
  ⟨by decide, (alloc_failure_atomic exMemFull exList [(4, 10)] [(5, 20)] 7 (by decide)).1,
    by decide⟩

/-- C17 (evaluation at the failing input): on the one-element list built by
`List<int> l; l.push_back(5);` the destructor deletes the node and then, for its
loop test `curr->next != tail.next`, reads `next` of that destroyed node: the
run stops with the fault `deadNode` before the sentinels are reset.  On an
empty list and on a moved-from list the destructor returns at once. -/
theorem dtor_reads_destroyed_node :
    (exOne >>= fun s => List_dtor s.1 s.2) = .error (.deadNode,
      ⟨[some ⟨some 2, none, none⟩, some ⟨none, some 2, none⟩, none], 3⟩) ∧
      List_dtor exEmptyMem exEmptyList = .ok (exEmptyMem, exEmptyList) ∧
      faultOf (List_move exMem 2 3 exList >>= fun s => List_dtor s.1 s.2.2) = none := by
  decide

/-- C20 (evaluation at the failing input): after
`List<int> d, s; d.push_back(1); s.push_back(2);` the move assignment
`d = std::move(s)` first calls `d.clear()`, which erases the node of `d` and
then reads `next` of that destroyed node: the run stops with the fault
`deadNode`, so no pair of disjoint lists results.  The move constructor, and
the move assignment to an empty target, do leave two lists that share no node:
after either, pushing onto the moved-from list leaves the sequence of the
other list as it was. -/
theorem assign_move_target_nonempty_faults :
    faultOf (exTwoLists >>= fun s => assign_move s.1 s.2.1 s.2.2) = some .deadNode ∧
      (exOneAndEmpty >>= fun s => assign_move s.1 s.2.2 s.2.1 >>= fun r =>
        push_back r.1 r.2.2 9 >>= fun t => toSeq t.1 r.2.1) = .ok [1] ∧
      (List_move exMem 2 3 exList >>= fun r =>
        push_back r.1 r.2.2 9 >>= fun t => toSeq t.1 r.2.1) = .ok [10, 20] := by
  decide

/-- Instance of `push_pop_refine`: the four calls on `[10, 20]`. -/
theorem push_pop_refine_witness :
    WF exMem exList [(4, 10), (5, 20)] ∧ 0 < exMem.avail ∧
      (∃ m' L', push_back exMem exList 7 = .ok (m', L') ∧ toSeq m' L' = .ok [10, 20, 7]
        ∧ back m' L' = .ok 7) ∧
      (∃ m' L', push_front exMem exList 7 = .ok (m', L') ∧ toSeq m' L' = .ok [7, 10, 20]
        ∧ front m' L' = .ok 7) ∧
      (∃ m' L', pop_back exMem exList = .ok (m', L') ∧ toSeq m' L' = .ok [10]) ∧
      (∃ m' L', pop_front exMem exList = .ok (m', L') ∧ toSeq m' L' = .ok [20]) := by
  obtain ⟨⟨_, h1⟩, ⟨_, h2⟩, h3, h4⟩ :=
    push_pop_refine exMem exList [(4, 10), (5, 20)] 7 (by decide) (by decide)
  exact ⟨by decide, by decide, h1, h2, (h3 (by decide)).2, (h4 (by decide)).2⟩

/-- Instance of `insert_erase_roundtrip`: 7 inserted in front of the second
node of `[10, 20]` and erased again. -/
theorem insert_erase_roundtrip_witness :
    WF exMem exList ([(4, 10)] ++ [(5, 20)]) ∧ 0 < exMem.avail ∧
      ∃ m1 L1 a m2 L2, insert exMem exList (some 5) 7 = .ok (m1, L1, some a)
        ∧ erase m1 L1 (some a) = .ok (m2, L2, some 5)
        ∧ L2 = exList ∧ WF m2 L2 ([(4, 10)] ++ [(5, 20)])
        ∧ toSeq m2 L2 = toSeq exMem exList ∧ size L2 = size exList :=
  ⟨by decide, by decide,
    insert_erase_roundtrip exMem exList [(4, 10)] [(5, 20)] 7 (by decide) (by decide)⟩

/-- Instance of `queue_fifo`: the queue holding `[10, 20]`. -/
theorem queue_fifo_witness :
    WF exMem (Queue.mk exList).c ((4, 10) :: [(5, 20)]) ∧ 0 < exMem.avail ∧
      Queue.front exMem ⟨exList⟩ = .ok 10 ∧ Queue.back exMem ⟨exList⟩ = .ok 20 ∧
      (∃ m' q', Queue.push exMem ⟨exList⟩ 7 = .ok (m', q') ∧ toSeq m' q'.c = .ok [10, 20, 7]
        ∧ Queue.size q' = 3) ∧
      (∃ m' q', Queue.pop exMem ⟨exList⟩ = .ok (m', q') ∧ toSeq m' q'.c = .ok [20]
        ∧ Queue.size q' = 1) := by
  obtain ⟨h1, h2, h3, h4, _⟩ :=
    queue_fifo exMem ⟨exList⟩ 4 10 [(5, 20)] 7 (by decide) (by decide)
  exact ⟨by decide, by decide, h1, h2, h3, h4⟩

/-- Move assignment to an empty list from another, non-empty list: the target
takes over the real nodes of the source and the source becomes empty. -/
theorem assign_move_empty_WF {m : Memory α} {D S : LinkedList} {ns : List (Nat × α)}
    (hD : WF m D []) (hS : WF m S ns) (hns : ns ≠ [])
    (hhdS : D.head ∉ addrsOf S ns) (htlS : D.tail ∉ addrsOf S ns) :
    ∃ m', assign_move m D S = .ok (m', { D with size := S.size }, { S with size := 0 })
      ∧ WF m' { D with size := S.size } ns ∧ WF m' { S with size := 0 } []
      ∧ m'.cells.length = m.cells.length ∧ m'.avail = m.avail
      ∧ ∀ x, x ∉ addrsOf S ns → x ≠ D.head → x ≠ D.tail → m'.get x = m.get x := by
  have hne : D.head ≠ D.tail := hD.head_ne_tail
  have hsz : S.size = ns.length := hS.2.2.1
  have hmem := hS.2.2.2
  have hHT := hS.head_ne_tail
  have hhdH : D.head ≠ S.head := fun e => hhdS (by simp [addrsOf_eq, e])
  have hhdT : D.head ≠ S.tail := fun e => hhdS (by simp [addrsOf_eq, e])
  have htlH : D.tail ≠ S.head := fun e => htlS (by simp [addrsOf_eq, e])
  have htlT : D.tail ≠ S.tail := fun e => htlS (by simp [addrsOf_eq, e])
  have hH0 : m.get D.head = some ⟨some D.tail, none, none⟩ := hD.head_get
  have hT0 : m.get D.tail = some ⟨none, some D.head, none⟩ := hD.tail_get
  obtain ⟨ini, ⟨b, w⟩, hy⟩ : ∃ ini y, ns = ini ++ [y] :=
    ⟨_, _, (List.dropLast_append_getLast hns).symm⟩
  obtain ⟨⟨a, v⟩, rest, hcons⟩ : ∃ x rest, ns = x :: rest := by
    cases ns with
    | nil => exact absurd rfl hns
    | cons x rest => exact ⟨x, rest, rfl⟩
  have hs0 : S.size ≠ 0 := by rw [hsz, hy]; simp
  have hSa : WF m S ([] ++ (a, v) :: rest) := by rw [← hcons]; exact hS
  have hSb : WF m S (ini ++ (b, w) :: []) := by rw [← hy]; exact hS
  have haS : a ∈ addrsOf S ns := by rw [hcons]; simp [addrsOf_eq]
  have hbS : b ∈ addrsOf S ns := by rw [hy]; simp [addrsOf_eq]
  have hahd : a ≠ D.head := fun e => hhdS (e ▸ haS)
  have hatl : a ≠ D.tail := fun e => htlS (e ▸ haS)
  have hbhd : b ≠ D.head := fun e => hhdS (e ▸ hbS)
  have hbtl : b ≠ D.tail := fun e => htlS (e ▸ hbS)
  have haH : a ≠ S.head := hSa.node_ne_head
  have haT : a ≠ S.tail := hSa.node_ne_tail
  have hbH : b ≠ S.head := hSb.node_ne_head
  have hbT : b ≠ S.tail := hSb.node_ne_tail
  have hbegin : posOf S ns = a := by rw [hcons]; rfl
  have hback : backOf S ns = b := by rw [hy, backOf_concat]
  have hHg := hS.head_get
  have hTg := hS.tail_get
  rw [hbegin] at hHg
  rw [hback] at hTg
  have hag := hSa.node_get
  have hbg := hSb.node_get
  simp only [backOf, List.getLast?_nil] at hag
  simp only [posOf] at hbg
  -- the steps of the assignment after `clear()`
  obtain ⟨m1, e1, l1, a1, g1⟩ := setNext_spec (some a) hH0
  have hST1 : m1.get S.tail = some ⟨none, some b, none⟩ := by
    rw [g1, if_neg (Ne.symm hhdT), hTg]
  have hT1 : m1.get D.tail = some ⟨none, some D.head, none⟩ := by
    rw [g1, if_neg (Ne.symm hne), hT0]
  obtain ⟨m2, e2, l2, a2, g2⟩ := setPrev_spec (some b) hT1
  have hH2 : m2.get D.head = some ⟨some a, none, none⟩ := by
    rw [g2, if_neg hne, g1, if_pos rfl]
  have g2' : ∀ x, x ≠ D.head → x ≠ D.tail → m2.get x = m.get x := by
    intro x h1 h2
    rw [g2, if_neg h2, g1, if_neg h1]
  have ha2 : m2.get a = some ⟨some (posOf S rest), some S.head, some v⟩ := by
    rw [g2' a hahd hatl, hag]
  obtain ⟨m3, e3, l3, a3, g3⟩ := setPrev_spec (some D.head) ha2
  have hT3 : m3.get D.tail = some ⟨none, some b, none⟩ := by
    rw [g3, if_neg (Ne.symm hatl), g2, if_pos rfl]
  have hr2 : Linked m2 (some S.head) (realEntries ns) (some S.tail) :=
    Linked.congr (fun x hx => g2' x
      (fun e => hhdS (by rw [addrsOf_eq]; simp at hx ⊢; exact Or.inr (Or.inl (e ▸ hx))))
      (fun e => htlS (by rw [addrsOf_eq]; simp at hx ⊢; exact Or.inr (Or.inl (e ▸ hx)))))
      hS.real_chain
  have hndS := hS.2.1
  rw [addrsOf_eq, List.nodup_cons, List.nodup_append] at hndS
  have hndr : (ns.map Prod.fst).Nodup := hndS.2.1
  have hr3 : Linked m3 (some D.head) (realEntries ns) (some S.tail) := by
    rw [hcons] at hr2 hndr ⊢
    simp only [realEntries_cons, List.map_cons, List.nodup_cons] at hr2 hndr ⊢
    refine Linked.set_first (some D.head) hr2 (by simpa using hndr.1) (fun x => ?_)
    rw [g3]
    have : nextOf (realEntries rest) (some S.tail) = some (posOf S rest) := by
      cases rest <;> rfl
    simp only [this]
  have hb3 : m3.get b = some ⟨some S.tail, lastOf (realEntries ini) (some D.head), some w⟩ := by
    have := hr3
    rw [hy, realEntries_append] at this
    exact this.last_get
  obtain ⟨m4, e4, l4, a4, g4⟩ := setNext_spec (some D.tail) hb3
  have hr4 : Linked m4 (some D.head) (realEntries ns) (some D.tail) := by
    rw [hy, realEntries_append] at hr3 ⊢
    rw [hy] at hndr
    simp only [List.map_append, List.map_cons, List.map_nil, List.nodup_append] at hndr
    refine Linked.set_last (some D.tail) hr3 (fun hx => hndr.2.2 (by simpa using hx) (by simp)) g4
  have hSH4 : m4.get S.head = some ⟨some a, none, none⟩ := by
    rw [g4, if_neg (Ne.symm hbH), g3, if_neg (Ne.symm haH), g2' _ (Ne.symm hhdH) (Ne.symm htlH),
      hHg]
  obtain ⟨m5, e5, l5, a5, g5⟩ := setNext_spec (some S.tail) hSH4
  have hST5 : m5.get S.tail = some ⟨none, some b, none⟩ := by
    rw [g5, if_neg (Ne.symm hHT), g4, if_neg (Ne.symm hbT), g3, if_neg (Ne.symm haT),
      g2' _ (Ne.symm hhdT) (Ne.symm htlT), hTg]
  obtain ⟨m6, e6, l6, a6, g6⟩ := setPrev_spec (some S.head) hST5
  have g64 : ∀ x, x ≠ S.head → x ≠ S.tail → m6.get x = m4.get x := by
    intro x h1 h2
    rw [g6, if_neg h2, g5, if_neg h1]
  have hn1 : getNext m (some S.head) = .ok (some a) := getNext_eq hHg
  have hn2 : getPrev m1 (some S.tail) = .ok (some b) := getPrev_eq hST1
  have hn3 : getNext m2 (some D.head) = .ok (some a) := getNext_eq hH2
  have hn4 : getPrev m3 (some D.tail) = .ok (some b) := getPrev_eq hT3
  have hguard : S.head ≠ D.head := Ne.symm hhdH
  refine ⟨m6, ?_, ?_, ?_, by omega, by omega, ?_⟩
  · simp only [assign_move, ne_eq, hguard, not_false_eq_true, if_true, clear_empty hD, hs0,
      if_false, bind, Except.bind, hn1, e1, hn2, e2, hn3, e3, hn4, e4, e5, e6, pure, Except.pure]
  · refine WF.of_parts ?_ ?_ ?_ ?_ hsz (by omega)
    · show m6.get D.head = _
      have hb' : posOf ({ D with size := S.size } : LinkedList) ns = a := by rw [hcons]; rfl
      rw [hb', g64 _ hhdH hhdT, g4, if_neg (Ne.symm hbhd), g3, if_neg (Ne.symm hahd), hH2]
    · exact Linked.congr (fun x hx => g64 x
        (fun e => hndS.1 (by simp at hx ⊢; exact Or.inl (e ▸ hx)))
        (fun e => hndS.2.2.2 (by simpa using hx) (by simp [e]))) hr4
    · show m6.get D.tail = _
      have hb' : backOf ({ D with size := S.size } : LinkedList) ns = b := by
        rw [hy, backOf_concat]
      rw [hb', g64 _ htlH htlT, g4, if_neg (Ne.symm hbtl), hT3]
    · rw [addrsOf_eq, List.nodup_cons, List.nodup_append]
      refine ⟨?_, hndr, by simp, ?_⟩
      · simp only [List.mem_append, List.mem_singleton, not_or]
        exact ⟨fun hx => hhdS (by rw [addrsOf_eq]; simp at hx ⊢; exact Or.inr (Or.inl hx)), hne⟩
      · intro x hx hx'
        simp only [List.mem_singleton] at hx'
        exact htlS (by rw [addrsOf_eq]; simp at hx ⊢; exact Or.inr (Or.inl (hx' ▸ hx)))
  · refine ⟨?_, by simp [addrsOf_eq, hHT], rfl, by omega⟩
    show Linked m6 none [(S.head, none), (S.tail, none)] none
    refine ⟨?_, ?_, trivial⟩
    · show m6.get S.head = _
      rw [g6, if_neg hHT, g5, if_pos rfl]; rfl
    · show m6.get S.tail = _
      rw [g6, if_pos rfl]; rfl
  · intro x hx h1 h2
    have hxa : x ≠ a := fun e => hx (e ▸ haS)
    have hxb : x ≠ b := fun e => hx (e ▸ hbS)
    have hxH : x ≠ S.head := fun e => hx (by simp [addrsOf_eq, e])
    have hxT : x ≠ S.tail := fun e => hx (by simp [addrsOf_eq, e])
    rw [g64 x hxH hxT, g4, if_neg hxb, g3, if_neg hxa, g2' x h1 h2]

/-- After a move assignment to an empty target, a well-placed changing call on
either of the two lists leaves the other exactly as it was. -/
theorem assign_move_empty_frame {m : Memory α} {D S : LinkedList} {ns : List (Nat × α)}
    (hD : WF m D []) (hS : WF m S ns) (hns : ns ≠ [])
    (hhdS : D.head ∉ addrsOf S ns) (htlS : D.tail ∉ addrsOf S ns) :
    ∃ m' D' S', assign_move m D S = .ok (m', D', S') ∧ WF m' D' ns ∧ WF m' S' []
      ∧ (addrsOf D' ns).Disjoint (addrsOf S' ([] : List (Nat × α)))
      ∧ (∀ op : Mut α, op.valid S' [] →
          op.apply m' S' = .error (.badAlloc, m') ∨
          ∃ m'' S'' ss, op.apply m' S' = .ok (m'', S'') ∧ WF m'' S'' ss ∧ WF m'' D' ns)
      ∧ (∀ op : Mut α, op.valid D' ns →
          op.apply m' D' = .error (.badAlloc, m') ∨
          ∃ m'' D'' ds, op.apply m' D' = .ok (m'', D'') ∧ WF m'' D'' ds ∧ WF m'' S' []) := by
  obtain ⟨m', e, hD', hS', _⟩ := assign_move_empty_WF hD hS hns hhdS htlS
  have hdis : (addrsOf ({ D with size := S.size } : LinkedList) ns).Disjoint
      (addrsOf ({ S with size := 0 } : LinkedList) ([] : List (Nat × α))) :=
    @List_move_disjoint α m S ns D.head D.tail hS hhdS htlS
  refine ⟨m', _, _, e, hD', hS', hdis, ?_, ?_⟩
  · intro op hv
    rcases op.apply_frame hS' hD' (fun x hx hx' => hdis hx' hx) hv with
      h | ⟨m'', S'', ss, e', hw, hw', _⟩
    · exact Or.inl h
    · exact Or.inr ⟨m'', S'', ss, e', hw, hw'⟩
  · intro op hv
    rcases op.apply_frame hD' hS' hdis hv with h | ⟨m'', D'', ds, e', hw, hw', _⟩
    · exact Or.inl h
    · exact Or.inr ⟨m'', D'', ds, e', hw, hw'⟩

end DLL
